import Mathlib

/-!
Buffer cache (`kernel/bio.c`) and page allocator (`kernel/kalloc.c`).

A shallow embedding of the two resource managers of the kernel.

* `Bio`: the bucketed buffer cache.  Every `struct buf` (the `NBUF` buffers of
  `bcache.buf` and the list head of every bucket of `hashtable`) is a record of
  a store indexed by C pointers; `next`/`prev` are pointers, so the bucket
  lists are the intrusive circular doubly linked lists of the source.
* `Kalloc`: the per-CPU free lists.  A free page is a `struct run` whose
  `next` field lives in the page itself; the store maps a page address to
  that field.

`NBUF`, `NBUCKET` and `NCPU` (param.h), `PHYSTOP` (memlayout.h) and the linker
symbol `end` are not fixed here: they are parameters of the definitions.
Loops that chase pointers take a `fuel` bound.

Calls are first modelled as functions from state to outcome.  For the
properties of concurrent calls, `bget` and `kalloc` are also cut into steps at
their calls of `acquire` and `release` (`Bio.bstep`, `Kalloc.kstep`), run under
a schedule; `Bio.brun_solo` and `Kalloc.krun_solo` show that the steps of one
caller alone do what the function does.
-/

namespace Bio

/-- The modulus of the C type `uint` (32 bits). -/
def UINT : Nat := 2 ^ 32

/-- A C pointer to a `struct buf`: `0`, `&hashtable[i].head` or `&bcache.buf[j]`. -/
inductive Ptr where
  | null
  | head (i : Nat)
  | buf (j : Nat)
  deriving DecidableEq, Repr

/-- The fields of `struct buf` that `bio.c` reads or writes.  `lock` is the
sleep-lock of the buffer: `none` when free, `some pid` when held by process
`pid`.  `refcnt` is a `uint`. -/
structure Buf where
  valid : Nat
  dev : Nat
  blockno : Nat
  lock : Option Nat
  refcnt : Nat
  prev : Ptr
  next : Ptr
  deriving DecidableEq, Repr

/-- The calls `bio.c` makes to its collaborators, in program order: spin-lock
acquire and release of a bucket lock, sleep-lock acquire and release of a
buffer, and `virtio_disk_rw(b, write)`. -/
inductive Ev where
  | acquire (i : Nat)
  | release (i : Nat)
  | acquiresleep (b : Ptr)
  | releasesleep (b : Ptr)
  | disk_rw (b : Ptr) (write : Bool)
  deriving DecidableEq, Repr

/-- The memory of the cache (`bcache.buf` and the bucket heads) and the log of
collaborator calls made so far. -/
structure State where
  node : Ptr → Buf
  trace : List Ev

/-- How a call ends: it returns `r`, it calls `panic(msg)`, it sleeps in
`acquiresleep(&b->lock)` on a lock that is held, it indexes `hashtable` with a
negative index, or the fuel of a pointer-chasing loop runs out. -/
inductive Outcome (α : Type) where
  | ret (r : α) (s : State)
  | abort (msg : String) (s : State)
  | sleeps (b : Ptr) (s : State)
  | fault
  | fuelOut

def State.log (s : State) (e : Ev) : State :=
  { s with trace := s.trace ++ [e] }

def State.setNext (s : State) (p v : Ptr) : State :=
  { s with node := Function.update s.node p { s.node p with next := v } }

def State.setPrev (s : State) (p v : Ptr) : State :=
  { s with node := Function.update s.node p { s.node p with prev := v } }

def State.setRefcnt (s : State) (p : Ptr) (v : Nat) : State :=
  { s with node := Function.update s.node p { s.node p with refcnt := v } }

def State.setDev (s : State) (p : Ptr) (v : Nat) : State :=
  { s with node := Function.update s.node p { s.node p with dev := v } }

def State.setBlockno (s : State) (p : Ptr) (v : Nat) : State :=
  { s with node := Function.update s.node p { s.node p with blockno := v } }

def State.setValid (s : State) (p : Ptr) (v : Nat) : State :=
  { s with node := Function.update s.node p { s.node p with valid := v } }

def State.setLock (s : State) (p : Ptr) (v : Option Nat) : State :=
  { s with node := Function.update s.node p { s.node p with lock := v } }

/-- The conversion of a `uint` argument to the `int` parameter of `hash_fn`
(two's complement, 32 bits). -/
def toInt (x : Nat) : Int :=
  if x % UINT < 2 ^ 31 then (x % UINT : Nat) else ((x % UINT : Nat) : Int) - (UINT : Nat)

/-- `hash_fn`: `blockno % NBUCKET` on `int`, the remainder of C (truncated
division, the sign of the dividend). -/
def hash_fn (NBUCKET : Nat) (blockno : Int) : Int :=
  Int.tmod blockno NBUCKET

/-- Modelled from the spec: `acquiresleep` of sleeplock.c, which is not among
the sources.  The exclusive-use lock is block-acquired: the caller gets a free
lock, and is suspended on a held one until its holder releases it. -/
def acquiresleep (s : State) (pid : Nat) (b : Ptr) : Outcome Ptr :=
  match (s.node b).lock with
  | none => .ret b ((s.setLock b (some pid)).log (.acquiresleep b))
  | some _ => .sleeps b s

/-- Modelled from the spec: `holdingsleep` of sleeplock.c, which is not among
the sources: the calling process holds the exclusive-use lock. -/
def holdingsleep (s : State) (pid : Nat) (b : Ptr) : Bool :=
  (s.node b).lock == some pid

/-- Modelled from the spec: `releasesleep` of sleeplock.c, which is not among
the sources: the exclusive-use lock becomes free. -/
def releasesleep (s : State) (b : Ptr) : State :=
  (s.setLock b none).log (.releasesleep b)

/-- The loop `for(b = start; b != stop; b = step b) if(found b) return b;`.
`some none` when the loop ends at `stop`, `none` when the fuel runs out. -/
def scan (step : Ptr → Ptr) (found : Ptr → Bool) (stop : Ptr) : Nat → Ptr → Option (Option Ptr)
  | 0, _ => none
  | fuel + 1, b =>
    if b = stop then some none
    else if found b then some (some b)
    else scan step found stop fuel (step b)

/-- The first loop of `binit` over the buckets: every head points to itself. -/
def binitHeads : List Nat → State → State
  | [], s => s
  | i :: rest, s =>
    let s := s.setNext (.head i) (.head i)
    let s := s.setPrev (.head i) (.head i)
    binitHeads rest s

/-- The second loop of `binit`: every buffer is inserted between the head of
bucket 0 and its first node. -/
def binitBufs : List Nat → State → State
  | [], s => s
  | j :: rest, s =>
    let b := Ptr.buf j
    let s := s.setNext b (s.node (.head 0)).next
    let s := s.setPrev b (.head 0)
    let s := s.setLock b none
    let s := s.setPrev (s.node (.head 0)).next b
    let s := s.setNext (.head 0) b
    binitBufs rest s

/-- Static storage before `binit`: every field is zero. -/
def zeroState : State :=
  { node := fun _ => { valid := 0, dev := 0, blockno := 0, lock := none, refcnt := 0,
                       prev := .null, next := .null },
    trace := [] }

/-- The cache after `binit`. -/
def binit (NBUF NBUCKET : Nat) : State :=
  binitBufs (List.range NBUF) (binitHeads (List.range NBUCKET) zeroState)

/-- The block of `bget` under the comment "move the buffer to another bucket":
`b` is unlinked from its list and inserted after the head of bucket `idx`. -/
def relink (s : State) (b : Ptr) (idx : Nat) : State :=
  let s := s.setNext (s.node b).prev (s.node b).next
  let s := s.setPrev (s.node b).next (s.node b).prev
  let s := s.setPrev (s.node (.head idx)).next b
  let s := s.setNext b (s.node (.head idx)).next
  let s := s.setNext (.head idx) b
  s.setPrev b (.head idx)

/-- The four assignments of `bget` that give a recycled buffer its new identity
(in the steal path under the comment "update buf info"). -/
def reinit (s : State) (b : Ptr) (dev blockno : Nat) : State :=
  let s := s.setDev b dev
  let s := s.setBlockno b blockno
  let s := s.setValid b 0
  s.setRefcnt b 1

/-- The third loop of `bget`, over the buckets `i` still to visit: steal an
unused buffer of another bucket. -/
def bgetSteal (fuel pid dev blockno idx : Nat) : List Nat → State → Outcome Ptr
  | [], s => .abort "bget: no buffers" s
  | i :: rest, s =>
    if i = idx then bgetSteal fuel pid dev blockno idx rest s
    else
      let s_idx := if i < idx then i else idx
      let l_idx := if i < idx then idx else i
      let s := s.log (.release idx)
      let s := s.log (.acquire s_idx)
      let s := s.log (.acquire l_idx)
      match scan (fun b => (s.node b).next) (fun b => (s.node b).refcnt == 0) (.head i)
          fuel (s.node (.head i)).next with
      | none => .fuelOut
      | some (some b) =>
        let s := relink s b idx
        let s := reinit s b dev blockno
        let s := s.log (.release i)
        let s := s.log (.release idx)
        acquiresleep s pid b
      | some none =>
        bgetSteal fuel pid dev blockno idx rest (s.log (.release i))

/-- `bget(dev, blockno)` called by process `pid`. -/
def bget (NBUCKET fuel : Nat) (s : State) (pid dev blockno : Nat) : Outcome Ptr :=
  let h := hash_fn NBUCKET (toInt blockno)
  if h < 0 then .fault
  else
    let idx := h.toNat
    let s := s.log (.acquire idx)
    match scan (fun b => (s.node b).next)
        (fun b => (s.node b).dev == dev && (s.node b).blockno == blockno) (.head idx)
        fuel (s.node (.head idx)).next with
    | none => .fuelOut
    | some (some b) =>
      let s := s.setRefcnt b (((s.node b).refcnt + 1) % UINT)
      let s := s.log (.release idx)
      acquiresleep s pid b
    | some none =>
      match scan (fun b => (s.node b).prev) (fun b => (s.node b).refcnt == 0) (.head idx)
          fuel (s.node (.head idx)).prev with
      | none => .fuelOut
      | some (some b) =>
        let s := reinit s b dev blockno
        let s := s.log (.release idx)
        acquiresleep s pid b
      | some none => bgetSteal fuel pid dev blockno idx (List.range NBUCKET) s

/-- `bread(dev, blockno)` called by process `pid`. -/
def bread (NBUCKET fuel : Nat) (s : State) (pid dev blockno : Nat) : Outcome Ptr :=
  match bget NBUCKET fuel s pid dev blockno with
  | .ret b s =>
    if (s.node b).valid = 0 then
      let s := s.log (.disk_rw b false)
      let s := s.setValid b 1
      .ret b s
    else .ret b s
  | o => o

/-- `bwrite(b)` called by process `pid`. -/
def bwrite (s : State) (pid : Nat) (b : Ptr) : Outcome Unit :=
  if !holdingsleep s pid b then .abort "bwrite" s
  else .ret () (s.log (.disk_rw b true))

/-- `brelse(b)` called by process `pid`. -/
def brelse (NBUCKET : Nat) (s : State) (pid : Nat) (b : Ptr) : Outcome Unit :=
  if !holdingsleep s pid b then .abort "brelse" s
  else
    let s := releasesleep s b
    let h := hash_fn NBUCKET (toInt (s.node b).blockno)
    if h < 0 then .fault
    else
      let idx := h.toNat
      let s := s.log (.acquire idx)
      let s := s.setRefcnt b (((s.node b).refcnt + (UINT - 1)) % UINT)
      let s := s.log (.release idx)
      .ret () s

/-- `bpin(b)`. -/
def bpin (NBUCKET : Nat) (s : State) (b : Ptr) : Outcome Unit :=
  let h := hash_fn NBUCKET (toInt (s.node b).blockno)
  if h < 0 then .fault
  else
    let idx := h.toNat
    let s := s.log (.acquire idx)
    let s := s.setRefcnt b (((s.node b).refcnt + 1) % UINT)
    let s := s.log (.release idx)
    .ret () s

/-- `bunpin(b)`. -/
def bunpin (NBUCKET : Nat) (s : State) (b : Ptr) : Outcome Unit :=
  let h := hash_fn NBUCKET (toInt (s.node b).blockno)
  if h < 0 then .fault
  else
    let idx := h.toNat
    let s := s.log (.acquire idx)
    let s := s.setRefcnt b (((s.node b).refcnt + (UINT - 1)) % UINT)
    let s := s.log (.release idx)
    .ret () s

/-- The value a call returns, if it returns. -/
def Outcome.val? {α : Type} : Outcome α → Option α
  | .ret r _ => some r
  | _ => none

/-- The state a call leaves when it returns, calls `panic` or goes to sleep. -/
def Outcome.state? {α : Type} : Outcome α → Option State
  | .ret _ s => some s
  | .abort _ s => some s
  | .sleeps _ s => some s
  | _ => none

/-- The call ends in `panic`. -/
def Outcome.aborts {α : Type} : Outcome α → Bool
  | .abort _ _ => true
  | _ => false

/-- The buffer on whose lock the call sleeps, if it sleeps. -/
def Outcome.sleepsOn? {α : Type} : Outcome α → Option Ptr
  | .sleeps b _ => some b
  | _ => none

/-- The state a call leaves, and static storage when it leaves none. -/
def Outcome.stateD {α : Type} : Outcome α → State
  | .ret _ s => s
  | .abort _ s => s
  | .sleeps _ s => s
  | _ => zeroState

/-- The event is the acquire or release of a bucket spin-lock. -/
def Ev.isSpin : Ev → Bool
  | .acquire _ => true
  | .release _ => true
  | _ => false

/-- The event is a call of the device, `virtio_disk_rw`. -/
def Ev.isDisk : Ev → Bool
  | .disk_rw _ _ => true
  | _ => false

/-- The fields of a `struct buf` other than its list pointers. -/
def Buf.data (n : Buf) : Buf :=
  { n with prev := .null, next := .null }

/-- Two neighbours of a doubly linked list: `a->next == b` and `b->prev == a`. -/
def Link (s : State) (a b : Ptr) : Prop :=
  (s.node a).next = b ∧ (s.node b).prev = a

instance Link.decide (s : State) (a b : Ptr) : Decidable (Link s a b) :=
  inferInstanceAs (Decidable ((s.node a).next = b ∧ (s.node b).prev = a))

/-- The list of bucket `i` is circular and doubly linked, and its members are,
from `head.next` (most recent) to `head.prev`, the buffers `bcache.buf[j]` for
`j` in `xs`. -/
def Bucket (s : State) (i : Nat) (xs : List Nat) : Prop :=
  List.Chain' (Link s) (Ptr.head i :: (xs.map Ptr.buf ++ [Ptr.head i]))

instance Bucket.decide (s : State) (i : Nat) (xs : List Nat) : Decidable (Bucket s i xs) :=
  inferInstanceAs (Decidable (List.Chain' (Link s) _))

/-- The buckets below `NBUCKET` are well-formed lists, `L i` for bucket `i`, and
no buffer is twice in a list or in two lists. -/
def Lists (NBUCKET : Nat) (s : State) (L : Nat → List Nat) : Prop :=
  (∀ i, i < NBUCKET → Bucket s i (L i)) ∧
  (∀ i, i < NBUCKET → (L i).Nodup) ∧
  (∀ i j, i < NBUCKET → j < NBUCKET → i ≠ j → List.Disjoint (L i) (L j))

/-- The cache is well formed: the buckets are lists and each of the `NBUF`
buffers is in one of them. -/
def Wf (NBUF NBUCKET : Nat) (s : State) (L : Nat → List Nat) : Prop :=
  Lists NBUCKET s L ∧
  (∀ i, i < NBUCKET → ∀ j ∈ L i, j < NBUF) ∧
  (∀ j, j < NBUF → ∃ i, i < NBUCKET ∧ j ∈ L i)

/-- The bucket lists right after `binit`: every buffer is in bucket 0, the last
one inserted first. -/
def initLists (NBUF : Nat) : Nat → List Nat :=
  fun i => if i = 0 then (List.range NBUF).reverse else []

/-- The test of the first loop of `bget`: buffer `b` caches `(dev, blockno)`. -/
def isCached (s : State) (dev blockno : Nat) (b : Ptr) : Bool :=
  (s.node b).dev == dev && (s.node b).blockno == blockno

/-- The test of the other loops of `bget`: buffer `b` is unused. -/
def isFree (s : State) (b : Ptr) : Bool :=
  (s.node b).refcnt == 0

/-- The bucket index `bget`, `brelse`, `bpin` and `bunpin` compute for a block
number, when it is not negative. -/
def bucketOf (NBUCKET blockno : Nat) : Nat :=
  (hash_fn NBUCKET (toInt blockno)).toNat

/-- What `bget(dev, blockno)` has done to a well-formed cache `s`, with bucket
lists `L`, when it reaches `acquiresleep(&b->lock)` for the buffer `b` of index
`j`, in the state `s1` with bucket lists `L1`.  The buffer was found in its
bucket (a hit), or it was unused and has been recycled, in place or after
being moved from the first bucket `i` that has an unused buffer. -/
structure Selected (NBUF NBUCKET : Nat) (s : State) (L : Nat → List Nat) (dev blockno : Nat)
    (j : Nat) (s1 : State) (L1 : Nat → List Nat) : Prop where
  lt : j < NBUF
  wf : Wf NBUF NBUCKET s1 L1
  trace : ∃ t, s1.trace = s.trace ++ t ∧ ∀ e ∈ t, Ev.isSpin e = true
  others : ∀ p, p ≠ Ptr.buf j → (s1.node p).data = (s.node p).data
  dev_eq : (s1.node (.buf j)).dev = dev
  blockno_eq : (s1.node (.buf j)).blockno = blockno
  lock_eq : (s1.node (.buf j)).lock = (s.node (.buf j)).lock
  first : (L1 (bucketOf NBUCKET blockno)).find? (fun x => isCached s1 dev blockno (.buf x)) =
    some j
  how :
    ((L (bucketOf NBUCKET blockno)).find? (fun x => isCached s dev blockno (.buf x)) = some j ∧
      L1 = L ∧ (s1.node (.buf j)).valid = (s.node (.buf j)).valid ∧
      (s1.node (.buf j)).refcnt = ((s.node (.buf j)).refcnt + 1) % UINT) ∨
    ((L (bucketOf NBUCKET blockno)).find? (fun x => isCached s dev blockno (.buf x)) = none ∧
      (s.node (.buf j)).refcnt = 0 ∧ (s1.node (.buf j)).valid = 0 ∧
      (s1.node (.buf j)).refcnt = 1 ∧
      (((L (bucketOf NBUCKET blockno)).reverse.find? (fun x => isFree s (.buf x)) = some j ∧
          L1 = L) ∨
        ((∀ x ∈ L (bucketOf NBUCKET blockno), isFree s (.buf x) = false) ∧
          ∃ i, i < NBUCKET ∧ i ≠ bucketOf NBUCKET blockno ∧
            (∀ k, k < i → k ≠ bucketOf NBUCKET blockno → ∀ x ∈ L k,
              isFree s (.buf x) = false) ∧
            (L i).find? (fun x => isFree s (.buf x)) = some j ∧
            L1 = Function.update (Function.update L i ((L i).erase j))
              (bucketOf NBUCKET blockno) (j :: L (bucketOf NBUCKET blockno)))))

/-- The invariant of the cache: it is well formed, `valid` is 0 or 1, `refcnt`
is in the range of `uint`, and every buffer is in the bucket that its block
number hashes to. -/
structure Inv (NBUF NBUCKET : Nat) (s : State) (L : Nat → List Nat) : Prop where
  wf : Wf NBUF NBUCKET s L
  valid_le : ∀ p, (s.node p).valid ≤ 1
  refcnt_lt : ∀ p, (s.node p).refcnt < UINT
  hashed : ∀ i, i < NBUCKET → ∀ j ∈ L i,
    0 ≤ hash_fn NBUCKET (toInt (s.node (.buf j)).blockno) ∧
    bucketOf NBUCKET (s.node (.buf j)).blockno = i

/-- The states of the cache that calls which return can reach from `binit`;
`brelse`, `bpin` and `bunpin` are given one of the `NBUF` buffers. -/
inductive Reachable (NBUF NBUCKET : Nat) : State → Prop where
  | init : Reachable NBUF NBUCKET (binit NBUF NBUCKET)
  | bget {s s1 : State} {fuel pid dev blockno : Nat} {b : Ptr} :
      Reachable NBUF NBUCKET s → bget NBUCKET fuel s pid dev blockno = .ret b s1 →
      Reachable NBUF NBUCKET s1
  | bread {s s1 : State} {fuel pid dev blockno : Nat} {b : Ptr} :
      Reachable NBUF NBUCKET s → bread NBUCKET fuel s pid dev blockno = .ret b s1 →
      Reachable NBUF NBUCKET s1
  | bwrite {s s1 : State} {pid : Nat} {b : Ptr} :
      Reachable NBUF NBUCKET s → bwrite s pid b = .ret () s1 → Reachable NBUF NBUCKET s1
  | brelse {s s1 : State} {pid j : Nat} :
      Reachable NBUF NBUCKET s → j < NBUF → brelse NBUCKET s pid (.buf j) = .ret () s1 →
      Reachable NBUF NBUCKET s1
  | bpin {s s1 : State} {j : Nat} :
      Reachable NBUF NBUCKET s → j < NBUF → bpin NBUCKET s (.buf j) = .ret () s1 →
      Reachable NBUF NBUCKET s1
  | bunpin {s s1 : State} {j : Nat} :
      Reachable NBUF NBUCKET s → j < NBUF → bunpin NBUCKET s (.buf j) = .ret () s1 →
      Reachable NBUF NBUCKET s1

/-- From `s` to `s1` at most one buffer `b` has changed in `valid`, `dev`,
`blockno` or `refcnt`, and if its identity or validity has changed it was
unused in `s`. -/
def Evicts (s s1 : State) : Prop :=
  ∃ b, (∀ p, p ≠ b → (s1.node p).valid = (s.node p).valid ∧ (s1.node p).dev = (s.node p).dev ∧
      (s1.node p).blockno = (s.node p).blockno ∧ (s1.node p).refcnt = (s.node p).refcnt) ∧
    (((s1.node b).valid = (s.node b).valid ∧ (s1.node b).dev = (s.node b).dev ∧
      (s1.node b).blockno = (s.node b).blockno) ∨ (s.node b).refcnt = 0)

/-- The states that calls of `bget`, `brelse`, `bpin` and `bunpin` which return
can reach from `binit`, when `bpin` and `bunpin` are, like `brelse`, applied
only to a buffer whose lock is held. -/
inductive ReachableHeld (NBUF NBUCKET : Nat) : State → Prop where
  | init : ReachableHeld NBUF NBUCKET (binit NBUF NBUCKET)
  | bget {s s1 : State} {fuel pid dev blockno : Nat} {b : Ptr} :
      ReachableHeld NBUF NBUCKET s → bget NBUCKET fuel s pid dev blockno = .ret b s1 →
      ReachableHeld NBUF NBUCKET s1
  | brelse {s s1 : State} {pid j : Nat} :
      ReachableHeld NBUF NBUCKET s → j < NBUF → brelse NBUCKET s pid (.buf j) = .ret () s1 →
      ReachableHeld NBUF NBUCKET s1
  | bpin {s s1 : State} {pid j : Nat} :
      ReachableHeld NBUF NBUCKET s → j < NBUF → (s.node (.buf j)).lock = some pid →
      bpin NBUCKET s (.buf j) = .ret () s1 → ReachableHeld NBUF NBUCKET s1
  | bunpin {s s1 : State} {pid j : Nat} :
      ReachableHeld NBUF NBUCKET s → j < NBUF → (s.node (.buf j)).lock = some pid →
      bunpin NBUCKET s (.buf j) = .ret () s1 → ReachableHeld NBUF NBUCKET s1

/-- Buffer `j` is the first buffer of the list `l` that has its identity. -/
def IsFirst (s : State) (l : List Nat) (j : Nat) : Prop :=
  l.find? (fun x => isCached s (s.node (.buf j)).dev (s.node (.buf j)).blockno (.buf x)) = some j

/-- A buffer that is not the first of its bucket with its identity is unused
and unlocked. -/
def Uniq (NBUCKET : Nat) (s : State) (L : Nat → List Nat) : Prop :=
  ∀ i, i < NBUCKET → ∀ j ∈ L i, ¬ IsFirst s (L i) j →
    (s.node (.buf j)).refcnt = 0 ∧ (s.node (.buf j)).lock = none

/-- The runs from `binit` of calls of `bget`, `brelse`, `bpin` and `bunpin` that
return, with their final state and, for every buffer index, the number `inc` of
calls of `bget` that returned the buffer plus calls of `bpin` on it, and the
number `dec` of calls of `brelse` and `bunpin` on it.  `D s j` is what a run
requires of the state `s` in which it applies `brelse` or `bunpin` to buffer
`j`. -/
inductive Counted (NBUF NBUCKET : Nat) (D : State → Nat → Prop) :
    State → (Nat → Nat) → (Nat → Nat) → Prop where
  | init : Counted NBUF NBUCKET D (binit NBUF NBUCKET) (fun _ => 0) (fun _ => 0)
  | bget {s s1 : State} {inc dec : Nat → Nat} {fuel pid dev blockno j : Nat} :
      Counted NBUF NBUCKET D s inc dec →
      bget NBUCKET fuel s pid dev blockno = .ret (.buf j) s1 →
      Counted NBUF NBUCKET D s1 (Function.update inc j (inc j + 1)) dec
  | brelse {s s1 : State} {inc dec : Nat → Nat} {pid j : Nat} :
      Counted NBUF NBUCKET D s inc dec → j < NBUF → D s j →
      brelse NBUCKET s pid (.buf j) = .ret () s1 →
      Counted NBUF NBUCKET D s1 inc (Function.update dec j (dec j + 1))
  | bpin {s s1 : State} {inc dec : Nat → Nat} {j : Nat} :
      Counted NBUF NBUCKET D s inc dec → j < NBUF →
      bpin NBUCKET s (.buf j) = .ret () s1 →
      Counted NBUF NBUCKET D s1 (Function.update inc j (inc j + 1)) dec
  | bunpin {s s1 : State} {inc dec : Nat → Nat} {j : Nat} :
      Counted NBUF NBUCKET D s inc dec → j < NBUF → D s j →
      bunpin NBUCKET s (.buf j) = .ret () s1 →
      Counted NBUF NBUCKET D s1 inc (Function.update dec j (dec j + 1))

/-- The discipline under which `refcnt` counts references: `brelse` and
`bunpin` are applied only to a buffer whose `refcnt` is not 0. -/
def Referenced (s : State) (j : Nat) : Prop :=
  (s.node (.buf j)).refcnt ≠ 0

/-- An example: the cache of 3 buffers and 2 buckets after process 1 has got
block 5 of device 1, which it still holds. -/
def heldState : State :=
  (bget 2 4 (binit 3 2) 1 1 5).stateD

/-- An example: `heldState` after two calls of `bunpin` on the buffer that
process 1 holds. -/
def unpinnedTwice : State :=
  (bunpin 2 (bunpin 2 heldState (.buf 2)).stateD (.buf 2)).stateD

/-- An example: `heldState` after process 1 has called `bunpin` and then
`brelse` on the buffer it holds. -/
def wrappedState : State :=
  (brelse 2 (bunpin 2 heldState (.buf 2)).stateD 1 (.buf 2)).stateD

/-- The call indexes `hashtable` out of bounds. -/
def Outcome.faults {α : Type} : Outcome α → Bool
  | .fault => true
  | _ => false

/-- An example: the cache of 2 buffers and 2 buckets after process 1 has got
block 0 of device 0, which it still holds. -/
def heldZero : State :=
  (bget 2 3 (binit 2 2) 1 0 0).stateD

end Bio

namespace Kalloc

/-- The page size of riscv.h: the allocator hands out whole 4096-byte pages. -/
def PGSIZE : Nat := 4096

/-- The `next` field of a page that `memset(pa, 1, PGSIZE)` has filled. -/
def JUNK1 : Nat := 0x0101010101010101

/-- The `next` field of a page that `memset(r, 5, PGSIZE)` has filled. -/
def JUNK5 : Nat := 0x0505050505050505

/-- The allocator memory: `freelist i` is `kmem[i].freelist` and `next r` is
`((struct run*)r)->next`; the address `0` is the null pointer. -/
structure Kmem where
  freelist : Nat → Nat
  next : Nat → Nat

/-- How a call ends: it returns `r`, it calls `panic(msg)`, or the fuel of the
two-pointer traversal runs out. -/
inductive Outcome (α : Type) where
  | ret (r : α) (s : Kmem)
  | abort (msg : String) (s : Kmem)
  | fuelOut

def Kmem.setFreelist (s : Kmem) (i v : Nat) : Kmem :=
  { s with freelist := Function.update s.freelist i v }

def Kmem.setNext (s : Kmem) (r v : Nat) : Kmem :=
  { s with next := Function.update s.next r v }

/-- `kfree(pa)` run on CPU `cpu_id`; `END` is the address of the linker symbol
`end`. -/
def kfree (END PHYSTOP : Nat) (s : Kmem) (cpu_id pa : Nat) : Outcome Unit :=
  if pa % PGSIZE ≠ 0 ∨ pa < END ∨ pa ≥ PHYSTOP then .abort "kfree" s
  else
    let s := s.setNext pa JUNK1
    let r := pa
    let s := s.setNext r (s.freelist cpu_id)
    let s := s.setFreelist cpu_id r
    .ret () s

/-- The loop `while (f && f->next) { f = f->next->next; s = s->next; }`: the
final slow pointer, `none` when the fuel runs out. -/
def walk (next : Nat → Nat) : Nat → Nat → Nat → Option Nat
  | 0, _, _ => none
  | fuel + 1, f, s =>
    if f ≠ 0 ∧ next f ≠ 0 then walk next fuel (next (next f)) (next s)
    else some s

/-- The body of the steal (`Method 2`) once the traversal has ended with the
slow pointer `sl`: the caller takes the donor's list, the donor keeps what
follows `sl`, and the caller pops `r`. -/
def stealHalf (s : Kmem) (cpu_id i sl : Nat) : Nat × Kmem :=
  let s := s.setFreelist cpu_id (s.freelist i)
  let s := if sl = s.freelist i then s.setFreelist i 0
           else (s.setFreelist i (s.next sl)).setNext sl 0
  let r := s.freelist cpu_id
  let s := s.setFreelist cpu_id (s.next r)
  (r, s)

/-- The loop of `kalloc` over the CPUs `i` still to visit, entered with the
current value of `r`: the final `r` and memory, `none` when the fuel runs
out. -/
def kallocSteal (fuel cpu_id : Nat) : List Nat → Nat → Kmem → Option (Nat × Kmem)
  | [], r, s => some (r, s)
  | i :: rest, r, s =>
    if i = cpu_id then kallocSteal fuel cpu_id rest r s
    else if s.freelist i ≠ 0 then
      match walk s.next fuel (s.freelist i) (s.freelist i) with
      | none => none
      | some sl =>
        let rs := stealHalf s cpu_id i sl
        if rs.1 ≠ 0 then some rs else kallocSteal fuel cpu_id rest rs.1 rs.2
    else if r ≠ 0 then some (r, s) else kallocSteal fuel cpu_id rest r s

/-- `kalloc()` run on CPU `cpu_id`. -/
def kalloc (NCPU fuel : Nat) (s : Kmem) (cpu_id : Nat) : Outcome Nat :=
  let r := s.freelist cpu_id
  if r ≠ 0 then
    let s := s.setFreelist cpu_id (s.next r)
    .ret r (s.setNext r JUNK5)
  else
    match kallocSteal fuel cpu_id (List.range NCPU) r s with
    | none => .fuelOut
    | some (r, s) =>
      if r ≠ 0 then .ret r (s.setNext r JUNK5) else .ret r s

/-- `freerange(pa_start, pa_end)` run on CPU `cpu_id`, `p` being the current
page and `n` a bound on the pages still to free. -/
def freerangeFrom (END PHYSTOP pa_end cpu_id : Nat) : Nat → Nat → Kmem → Outcome Unit
  | 0, _, s => .ret () s
  | n + 1, p, s =>
    if p + PGSIZE ≤ pa_end then
      match kfree END PHYSTOP s cpu_id p with
      | .ret _ s => freerangeFrom END PHYSTOP pa_end cpu_id n (p + PGSIZE) s
      | o => o
    else .ret () s

/-- `PGROUNDUP` of riscv.h. -/
def PGROUNDUP (sz : Nat) : Nat := (sz + PGSIZE - 1) / PGSIZE * PGSIZE

/-- `freerange(pa_start, pa_end)` run on CPU `cpu_id`. -/
def freerange (END PHYSTOP : Nat) (s : Kmem) (cpu_id pa_start pa_end : Nat) : Outcome Unit :=
  freerangeFrom END PHYSTOP pa_end cpu_id (pa_end / PGSIZE + 1) (PGROUNDUP pa_start) s

/-- `kinit()`, run on CPU `cpu_id` (CPU 0 at boot) from zeroed static storage. -/
def kinit (END PHYSTOP : Nat) (cpu_id : Nat) : Outcome Unit :=
  freerange END PHYSTOP { freelist := fun _ => 0, next := fun _ => 0 } cpu_id END PHYSTOP

/-- `IsList next p xs`: following `next` from `p` visits exactly the pages
`xs`, none of them null, and ends at the null pointer. -/
def IsList (next : Nat → Nat) : Nat → List Nat → Prop
  | p, [] => p = 0
  | p, x :: xs => p = x ∧ x ≠ 0 ∧ IsList next (next x) xs

instance IsList.decide (next : Nat → Nat) :
    (p : Nat) → (xs : List Nat) → Decidable (IsList next p xs)
  | p, [] => inferInstanceAs (Decidable (p = 0))
  | p, x :: xs =>
    have := IsList.decide next (next x) xs
    inferInstanceAs (Decidable (p = x ∧ x ≠ 0 ∧ IsList next (next x) xs))

/-- The free list of every CPU below `NCPU` is a null-terminated list, `L i`
for CPU `i`, and no page is on two of them. -/
def FreeLists (NCPU : Nat) (s : Kmem) (L : Nat → List Nat) : Prop :=
  (∀ i, i < NCPU → IsList s.next (s.freelist i) (L i)) ∧
  (∀ i j, i < NCPU → j < NCPU → i ≠ j → List.Disjoint (L i) (L j))

/-- The number of free pages, summed over the CPUs. -/
def total (NCPU : Nat) (L : Nat → List Nat) : Nat :=
  ∑ i in Finset.range NCPU, (L i).length

/-- The value a call returns, if it returns. -/
def Outcome.val? {α : Type} : Outcome α → Option α
  | .ret r _ => some r
  | _ => none

/-- The memory a call leaves, if it returns. -/
def Outcome.mem? {α : Type} : Outcome α → Option Kmem
  | .ret _ s => some s
  | _ => none

/-- The call ends in `panic`. -/
def Outcome.aborts {α : Type} : Outcome α → Bool
  | .abort _ _ => true
  | _ => false

/-- An example memory with two CPUs: CPU 1 holds the pages `0x1000`, `0x2000`,
`0x3000` in this order and CPU 0 holds none. -/
def exampleMem : Kmem :=
  { freelist := fun i => if i = 1 then 0x1000 else 0,
    next := fun r => if r = 0x1000 then 0x2000 else if r = 0x2000 then 0x3000 else 0 }

/-- The free lists of `exampleMem`. -/
def exampleLists : Nat → List Nat :=
  fun i => if i = 1 then [0x1000, 0x2000, 0x3000] else []

end Kalloc

namespace Kalloc

/-- The address `p` is page-aligned and inside the managed range `[end, PHYSTOP)`. -/
def Managed (END PHYSTOP p : Nat) : Prop :=
  p % PGSIZE = 0 ∧ END ≤ p ∧ p < PHYSTOP

instance Managed.decide (END PHYSTOP p : Nat) : Decidable (Managed END PHYSTOP p) :=
  inferInstanceAs (Decidable (p % PGSIZE = 0 ∧ END ≤ p ∧ p < PHYSTOP))

/-- The allocator states that calls of `kalloc` and `kfree` which return can
reach from `kinit`, on any CPU below `NCPU`.  `D s pa` is what a run requires
of the state `s` in which it calls `kfree(pa)`. -/
inductive Reach (END PHYSTOP NCPU : Nat) (D : Kmem → Nat → Prop) : Kmem → Prop where
  | init {c : Nat} {s : Kmem} : c < NCPU → kinit END PHYSTOP c = .ret () s →
      Reach END PHYSTOP NCPU D s
  | kalloc {s s1 : Kmem} {fuel c r : Nat} : Reach END PHYSTOP NCPU D s → c < NCPU →
      kalloc NCPU fuel s c = .ret r s1 → Reach END PHYSTOP NCPU D s1
  | kfree {s s1 : Kmem} {c pa : Nat} : Reach END PHYSTOP NCPU D s → c < NCPU → D s pa →
      kfree END PHYSTOP s c pa = .ret () s1 → Reach END PHYSTOP NCPU D s1

/-- The discipline that excludes a double free: the page given to `kfree` is
on no free list. -/
def NotFree (NCPU : Nat) (s : Kmem) (pa : Nat) : Prop :=
  ∀ L, FreeLists NCPU s L → ∀ i, i < NCPU → pa ∉ L i

/-- The memory a call leaves when it returns or calls `panic`, and zeroed
memory when the fuel runs out. -/
def Outcome.memD {α : Type} : Outcome α → Kmem
  | .ret _ s => s
  | .abort _ s => s
  | .fuelOut => { freelist := fun _ => 0, next := fun _ => 0 }

/-- An example: two pages are managed, `0x1000` and `0x2000`; after `kinit` on
CPU 0 the page `0x2000`, which is free, is freed again on CPU 0, and `kalloc`
is called twice. -/
def doubleFreed : Kmem :=
  (kalloc 1 4 (kalloc 1 4 (kfree 0x1000 0x3000 (kinit 0x1000 0x3000 0).memD 0 0x2000).memD
    0).memD 0).memD



/-- The free lists are well formed and hold managed pages only. -/
def Good (END PHYSTOP NCPU : Nat) (s : Kmem) (L : Nat → List Nat) : Prop :=
  FreeLists NCPU s L ∧ ∀ i, i < NCPU → ∀ p ∈ L i, Managed END PHYSTOP p

/-- Where a CPU is in `kalloc`, at the granularity of its calls of `acquire`
and `release`: before `acquire(&kmem[cpu_id].lock)`; in the loop, before
`acquire(&kmem[i].lock)` or before `release(&kmem[i].lock)`, with the buckets
`rest` still to visit and the current `r`; before
`release(&kmem[cpu_id].lock)`; returned; or out of fuel in the traversal. -/
inductive Pc where
  | entry
  | acq (i : Nat) (rest : List Nat) (r : Nat)
  | rel (i : Nat) (rest : List Nat) (r : Nat)
  | exit (r : Nat)
  | done (r : Nat)
  | fuelOut
  deriving DecidableEq, Repr

/-- The allocator shared by the CPUs: the memory, the holder of every lock
`kmem[i].lock`, and where every CPU is in its call of `kalloc`. -/
structure Sys where
  mem : Kmem
  lock : Nat → Option Nat
  pc : Nat → Pc

/-- The head of the loop `for (int i = 0; i < NCPU; i++)` of `kalloc`, with the
CPUs `is` still to visit: `i == cpu_id` is skipped, the next CPU is locked, and
after the last one the caller goes on to release its own lock. -/
def loopPc (cpu_id : Nat) : List Nat → Nat → Pc
  | [], r => .exit r
  | i :: rest, r => if i = cpu_id then loopPc cpu_id rest r else .acq i rest r

/-- One step of CPU `cpu_id` in `kalloc`: a call of `acquire` or `release`
together with the code that follows it up to the next such call.  `none` when
the CPU cannot move: it spins on a lock that is held, or its call has ended. -/
def kstep (NCPU fuel : Nat) (σ : Sys) (cpu_id : Nat) : Option Sys :=
  match σ.pc cpu_id with
  | .entry =>
    match σ.lock cpu_id with
    | some _ => none
    | none =>
      let r := σ.mem.freelist cpu_id
      if r ≠ 0 then
        some { mem := σ.mem.setFreelist cpu_id (σ.mem.next r),
               lock := Function.update σ.lock cpu_id (some cpu_id),
               pc := Function.update σ.pc cpu_id (.exit r) }
      else
        some { mem := σ.mem,
               lock := Function.update σ.lock cpu_id (some cpu_id),
               pc := Function.update σ.pc cpu_id (loopPc cpu_id (List.range NCPU) r) }
  | .acq i rest r =>
    match σ.lock i with
    | some _ => none
    | none =>
      if σ.mem.freelist i ≠ 0 then
        match walk σ.mem.next fuel (σ.mem.freelist i) (σ.mem.freelist i) with
        | none => some { σ with pc := Function.update σ.pc cpu_id .fuelOut }
        | some sl =>
          let rs := stealHalf σ.mem cpu_id i sl
          some { mem := rs.2,
                 lock := Function.update σ.lock i (some cpu_id),
                 pc := Function.update σ.pc cpu_id (.rel i rest rs.1) }
      else
        some { mem := σ.mem,
               lock := Function.update σ.lock i (some cpu_id),
               pc := Function.update σ.pc cpu_id (.rel i rest r) }
  | .rel i rest r =>
    some { mem := σ.mem,
           lock := Function.update σ.lock i none,
           pc := Function.update σ.pc cpu_id (if r ≠ 0 then .exit r else loopPc cpu_id rest r) }
  | .exit r =>
    some { mem := if r ≠ 0 then σ.mem.setNext r JUNK5 else σ.mem,
           lock := Function.update σ.lock cpu_id none,
           pc := Function.update σ.pc cpu_id (.done r) }
  | .done _ => none
  | .fuelOut => none

/-- The run of a schedule, the list of the CPUs that try a step in turn; a CPU
that cannot move leaves the state as it is. -/
def krun (NCPU fuel : Nat) : List Nat → Sys → Sys
  | [], σ => σ
  | c :: sched, σ => krun NCPU fuel sched ((kstep NCPU fuel σ c).getD σ)

/-- Every CPU is about to call `kalloc` on the memory `mem`, and no lock is
held. -/
def idleSys (mem : Kmem) : Sys :=
  { mem := mem, lock := fun _ => none, pc := fun _ => .entry }

/-- The lock that CPU `c` is spinning on, if it is. -/
def waitsFor (σ : Sys) (c : Nat) : Option Nat :=
  match σ.pc c with
  | .entry => if (σ.lock c).isSome then some c else none
  | .acq i _ _ => if (σ.lock i).isSome then some i else none
  | _ => none

/-- The call of CPU `c` has returned. -/
def finished (σ : Sys) (c : Nat) : Bool :=
  match σ.pc c with
  | .done _ => true
  | _ => false

/-- The memory in which every free list is empty. -/
def emptyMem : Kmem :=
  { freelist := fun _ => 0, next := fun _ => 0 }

/-- An example: with two CPUs and empty free lists, CPU 0 and then CPU 1 have
each made the first step of `kalloc`. -/
def crossLocked : Sys :=
  krun 2 1 [0, 1] (idleSys emptyMem)

end Kalloc


namespace Bio

/-- The bucket locks held after the events `t` when the locks `held` were held
before them; `none` when the events break the lock discipline: a bucket lock
is acquired while it is held or while a lock of a higher index is held, a
bucket lock that is not held is released, or `acquiresleep` is called while a
bucket lock is held. -/
def locksAfter : List Ev → List Nat → Option (List Nat)
  | [], held => some held
  | .acquire i :: t, held =>
    if held.all (fun k => decide (k < i)) then locksAfter t (i :: held) else none
  | .release i :: t, held =>
    if i ∈ held then locksAfter t (held.erase i) else none
  | .acquiresleep _ :: t, held =>
    if held = [] then locksAfter t held else none
  | _ :: t, held => locksAfter t held

/-- Where a process is in `bget(dev, blockno)`, at the granularity of its calls
of `acquire`, `release` and `acquiresleep`:
`entry`, before `acquire(&hashtable[idx].lock)`;
`relRet b`, before the `release(&hashtable[idx].lock)` that precedes
`acquiresleep(&b->lock)`, with the buffer `b` chosen;
`relIdx i rest`, in the steal loop at bucket `i`, before
`release(&hashtable[idx].lock)`, with the buckets `rest` still to visit;
`acqS i rest` and `acqL i rest`, before `acquire(&hashtable[s_idx].lock)` and
`acquire(&hashtable[l_idx].lock)`;
`relMiss i rest`, before the `release(&hashtable[i].lock)` that ends a visit
which found no buffer; `relTake b i`, before the `release(&hashtable[i].lock)`
that follows the move of `b`;
`slp b`, before `acquiresleep(&b->lock)`; `done b`, returned `b`;
`panicked`, in `panic("bget: no buffers")`; `fault`, a negative bucket index;
`fuelOut`, out of fuel in a list traversal; `idle`, not in a call. -/
inductive Pc where
  | idle
  | entry (dev blockno : Nat)
  | relRet (dev blockno : Nat) (b : Ptr)
  | relIdx (dev blockno : Nat) (i : Nat) (rest : List Nat)
  | acqS (dev blockno : Nat) (i : Nat) (rest : List Nat)
  | acqL (dev blockno : Nat) (i : Nat) (rest : List Nat)
  | relMiss (dev blockno : Nat) (i : Nat) (rest : List Nat)
  | relTake (dev blockno : Nat) (b : Ptr) (i : Nat)
  | slp (b : Ptr)
  | done (b : Ptr)
  | panicked
  | fault
  | fuelOut
  deriving DecidableEq, Repr

/-- The cache shared by the processes: its memory and log, the holder of every
bucket spin-lock `hashtable[i].lock`, and where every process is. -/
structure Sys where
  st : State
  lk : Nat → Option Nat
  pc : Nat → Pc

/-- The head of the steal loop `for(int i=0; i<NBUCKET; i++)` with the buckets
`is` still to visit: `i == idx` is skipped, and after the last bucket the call
ends in `panic`. -/
def stealPc (dev blockno idx : Nat) : List Nat → Pc
  | [] => .panicked
  | i :: rest => if i = idx then stealPc dev blockno idx rest else .relIdx dev blockno i rest

/-- One step of process `pid` in `bget`: a call of `acquire`, `release` or
`acquiresleep` together with the code that follows it up to the next such
call.  `none` when the process cannot move: it spins on a bucket lock that is
held, it sleeps on a buffer lock that is held, or it is not in a call. -/
def bstep (NBUCKET fuel : Nat) (σ : Sys) (pid : Nat) : Option Sys :=
  match σ.pc pid with
  | .entry dev blockno =>
    let h := hash_fn NBUCKET (toInt blockno)
    if h < 0 then some { σ with pc := Function.update σ.pc pid .fault }
    else
      let idx := h.toNat
      match σ.lk idx with
      | some _ => none
      | none =>
        let lk := Function.update σ.lk idx (some pid)
        let s := σ.st.log (.acquire idx)
        match scan (fun b => (s.node b).next)
            (fun b => (s.node b).dev == dev && (s.node b).blockno == blockno) (.head idx)
            fuel (s.node (.head idx)).next with
        | none => some { st := s, lk := lk, pc := Function.update σ.pc pid .fuelOut }
        | some (some b) =>
          let s := s.setRefcnt b (((s.node b).refcnt + 1) % UINT)
          some { st := s, lk := lk, pc := Function.update σ.pc pid (.relRet dev blockno b) }
        | some none =>
          match scan (fun b => (s.node b).prev) (fun b => (s.node b).refcnt == 0) (.head idx)
              fuel (s.node (.head idx)).prev with
          | none => some { st := s, lk := lk, pc := Function.update σ.pc pid .fuelOut }
          | some (some b) =>
            let s := reinit s b dev blockno
            some { st := s, lk := lk, pc := Function.update σ.pc pid (.relRet dev blockno b) }
          | some none =>
            some { st := s, lk := lk,
                   pc := Function.update σ.pc pid
                     (stealPc dev blockno idx (List.range NBUCKET)) }
  | .relRet _ blockno b =>
    let idx := bucketOf NBUCKET blockno
    some { st := σ.st.log (.release idx), lk := Function.update σ.lk idx none,
           pc := Function.update σ.pc pid (.slp b) }
  | .relIdx dev blockno i rest =>
    let idx := bucketOf NBUCKET blockno
    some { st := σ.st.log (.release idx), lk := Function.update σ.lk idx none,
           pc := Function.update σ.pc pid (.acqS dev blockno i rest) }
  | .acqS dev blockno i rest =>
    let idx := bucketOf NBUCKET blockno
    let s_idx := if i < idx then i else idx
    match σ.lk s_idx with
    | some _ => none
    | none =>
      some { st := σ.st.log (.acquire s_idx), lk := Function.update σ.lk s_idx (some pid),
             pc := Function.update σ.pc pid (.acqL dev blockno i rest) }
  | .acqL dev blockno i rest =>
    let idx := bucketOf NBUCKET blockno
    let l_idx := if i < idx then idx else i
    match σ.lk l_idx with
    | some _ => none
    | none =>
      let lk := Function.update σ.lk l_idx (some pid)
      let s := σ.st.log (.acquire l_idx)
      match scan (fun b => (s.node b).next) (fun b => (s.node b).refcnt == 0) (.head i)
          fuel (s.node (.head i)).next with
      | none => some { st := s, lk := lk, pc := Function.update σ.pc pid .fuelOut }
      | some (some b) =>
        let s := relink s b idx
        let s := reinit s b dev blockno
        some { st := s, lk := lk, pc := Function.update σ.pc pid (.relTake dev blockno b i) }
      | some none =>
        some { st := s, lk := lk, pc := Function.update σ.pc pid (.relMiss dev blockno i rest) }
  | .relMiss dev blockno i rest =>
    let idx := bucketOf NBUCKET blockno
    some { st := σ.st.log (.release i), lk := Function.update σ.lk i none,
           pc := Function.update σ.pc pid (stealPc dev blockno idx rest) }
  | .relTake dev blockno b i =>
    some { st := σ.st.log (.release i), lk := Function.update σ.lk i none,
           pc := Function.update σ.pc pid (.relRet dev blockno b) }
  | .slp b =>
    match (σ.st.node b).lock with
    | some _ => none
    | none =>
      some { st := (σ.st.setLock b (some pid)).log (.acquiresleep b), lk := σ.lk,
             pc := Function.update σ.pc pid (.done b) }
  | _ => none

/-- The run of a schedule, the list of the processes that try a step in turn;
a process that cannot move leaves the state as it is. -/
def brun (NBUCKET fuel : Nat) : List Nat → Sys → Sys
  | [], σ => σ
  | p :: sched, σ => brun NBUCKET fuel sched ((bstep NBUCKET fuel σ p).getD σ)

/-- An example: right after `binit` with 2 buffers and 2 buckets, processes 1
and 2 both call `bget(1, 1)`. -/
def twoGets : Sys :=
  { st := binit 2 2, lk := fun _ => none,
    pc := fun p => if p = 1 ∨ p = 2 then .entry 1 1 else .idle }

/-- An example: the two calls of `twoGets` interleaved.  Process 1 finds bucket
1 empty and releases its lock to steal; process 2 then finds bucket 1 empty as
well; each goes on to take a buffer of bucket 0. -/
def twoCopies : Sys :=
  brun 2 3 [1, 1, 2, 2, 1, 1, 1, 1, 1, 2, 2, 2, 2, 2] twoGets

/-- The steps of process `pid` have reached the end `o` of a call of `bget`:
returned, asleep on a buffer lock, in `panic`, or stopped by a negative index
or the lack of fuel; with the state of `o`, and no bucket lock held unless the
call is in `panic`. -/
def Matches (pid : Nat) (o : Outcome Ptr) (σ : Sys) : Prop :=
  match o with
  | .ret b s1 => σ.pc pid = .done b ∧ σ.st = s1 ∧ ∀ i, σ.lk i = none
  | .sleeps b s1 => σ.pc pid = .slp b ∧ σ.st = s1 ∧ ∀ i, σ.lk i = none
  | .abort _ s1 => σ.pc pid = .panicked ∧ σ.st = s1
  | .fault => σ.pc pid = .fault
  | .fuelOut => σ.pc pid = .fuelOut

end Bio


/-! ## The page allocator: free lists as null-terminated pointer chains -/

namespace Kalloc

theorem IsList.unique {next : Nat → Nat} : ∀ {xs ys : List Nat} {p : Nat},
    IsList next p xs → IsList next p ys → xs = ys
  | [], [], _, _, _ => rfl
  | [], y :: ys, p, h1, h2 => by
    simp only [IsList] at h1 h2; omega
  | x :: xs, [], p, h1, h2 => by
    simp only [IsList] at h1 h2; omega
  | x :: xs, y :: ys, p, h1, h2 => by
    simp only [IsList] at h1 h2
    obtain ⟨rfl, _, h1⟩ := h1
    obtain ⟨rfl, _, h2⟩ := h2
    rw [IsList.unique h1 h2]

theorem IsList.drop {next : Nat → Nat} : ∀ {xs : List Nat} {p : Nat} (n : Nat),
    IsList next p xs → IsList next ((xs.drop n).headD 0) (xs.drop n)
  | [], p, n, h => by simp [IsList]
  | x :: xs, p, 0, h => by
    simp only [IsList] at h
    simpa [IsList] using h.2
  | x :: xs, p, n + 1, h => by
    simp only [IsList] at h
    simpa using IsList.drop n h.2.2

theorem IsList.not_mem {next : Nat → Nat} {xs : List Nat} {x : Nat}
    (h : IsList next (next x) xs) : x ∉ xs := by
  intro hx
  obtain ⟨a, b, rfl⟩ := List.append_of_mem hx
  have h1 := IsList.drop a.length h
  simp only [List.drop_left, List.headD_cons, IsList] at h1
  have h2 := congrArg List.length (IsList.unique h h1.2.2)
  simp at h2
  omega

theorem IsList.nodup {next : Nat → Nat} : ∀ {xs : List Nat} {p : Nat},
    IsList next p xs → xs.Nodup
  | [], _, _ => List.nodup_nil
  | x :: xs, p, h => by
    simp only [IsList] at h
    exact List.nodup_cons.2 ⟨IsList.not_mem h.2.2, IsList.nodup h.2.2⟩

theorem IsList.ne_zero {next : Nat → Nat} : ∀ {xs : List Nat} {p : Nat},
    IsList next p xs → ∀ x ∈ xs, x ≠ 0
  | [], _, _ => by simp
  | x :: xs, p, h => by
    simp only [IsList] at h
    intro y hy
    rcases List.mem_cons.1 hy with rfl | hy
    · exact h.2.1
    · exact IsList.ne_zero h.2.2 y hy

theorem IsList.congr_next {next next2 : Nat → Nat} : ∀ {xs : List Nat} {p : Nat},
    (∀ x ∈ xs, next2 x = next x) → IsList next p xs → IsList next2 p xs
  | [], _, _, h => h
  | x :: xs, p, hx, h => by
    simp only [IsList] at h ⊢
    refine ⟨h.1, h.2.1, ?_⟩
    rw [hx x (List.mem_cons_self _ _)]
    exact IsList.congr_next (fun y hy => hx y (List.mem_cons_of_mem _ hy)) h.2.2

theorem IsList.nil_iff {next : Nat → Nat} {xs : List Nat} {p : Nat}
    (h : IsList next p xs) : p = 0 ↔ xs = [] := by
  cases xs with
  | nil => simpa [IsList] using h
  | cons x xs =>
    simp only [IsList] at h
    simp only [reduceCtorEq, iff_false]
    omega

theorem walk_eq (next : Nat → Nat) : ∀ (fuel : Nat) (ss fs : List Nat) (f s d : Nat),
    IsList next s ss → IsList next f fs → fs = ss.drop d → ss ≠ [] → fs.length / 2 < fuel →
    walk next fuel f s = some (ss.getD (fs.length / 2) 0)
  | 0, _, _, _, _, _, _, _, _, _, h => by omega
  | fuel + 1, ss, fs, f, s, d, hs, hf, hd, hne, hfuel => by
    obtain ⟨x, ss1, rfl⟩ := List.exists_cons_of_ne_nil hne
    simp only [IsList] at hs
    obtain ⟨rfl, hx, hs⟩ := hs
    match fs, hf, hd, hfuel with
    | [], hf, hd, hfuel =>
      simp only [IsList] at hf
      simp [walk, hf]
    | [a], hf, hd, hfuel =>
      simp only [IsList] at hf
      obtain ⟨rfl, _, hf⟩ := hf
      simp [walk, hf]
    | a :: b :: fs1, hf, hd, hfuel =>
      simp only [IsList] at hf
      obtain ⟨rfl, ha, hb, hb0, hf⟩ := hf
      have hlen : (f :: b :: fs1).length = (s :: ss1).length - d := by
        rw [hd, List.length_drop]
      have hne1 : ss1 ≠ [] := by
        intro h0
        subst h0
        simp at hlen
        omega
      have hd1 : fs1 = ss1.drop (d + 1) := by
        have := congrArg (List.drop 2) hd
        simpa [List.drop_drop, Nat.add_comm] using this
      have ih := walk_eq next fuel ss1 fs1 (next b) (next s) (d + 1) hs hf hd1 hne1
        (by simp only [List.length_cons] at hfuel; omega)
      have e : (f :: b :: fs1).length / 2 = fs1.length / 2 + 1 := by
        simp only [List.length_cons]; omega
      rw [e]
      simp only [walk, ne_eq, ha, not_false_eq_true, hb, hb0, and_self, ↓reduceIte, ih,
        List.getD_cons_succ]

theorem IsList.take_update {next : Nat → Nat} : ∀ {xs : List Nat} {p : Nat} (m : Nat),
    IsList next p xs → m < xs.length →
    IsList (Function.update next (xs.getD m 0) 0) p (xs.take (m + 1))
  | [], _, _, _, h => by simp at h
  | x :: xs, p, 0, h, _ => by
    simp only [IsList] at h
    simp [IsList, h.1, h.2.1]
  | x :: xs, p, m + 1, h, hm => by
    simp only [IsList] at h
    have hx : x ∉ xs := IsList.not_mem h.2.2
    have hm1 : m < xs.length := by simpa using hm
    have hne : x ≠ xs.getD m 0 := by
      intro e
      apply hx
      rw [e, List.getD_eq_getElem _ _ hm1]
      exact List.getElem_mem _
    simp only [List.getD_cons_succ, List.take_succ_cons, IsList, Function.update_noteq hne]
    exact ⟨h.1, h.2.1, IsList.take_update m h.2.2 hm1⟩

theorem getD_not_mem_drop {xs : List Nat} (hn : xs.Nodup) {m : Nat} (hm : m < xs.length) :
    xs.getD m 0 ∉ xs.drop (m + 1) := by
  intro h
  rw [List.getD_eq_getElem _ _ hm] at h
  obtain ⟨j, hj, e⟩ := List.getElem_of_mem h
  rw [List.getElem_drop] at e
  have := (List.Nodup.getElem_inj_iff hn).1 e
  omega

theorem getD_eq_head_iff {xs : List Nat} (hn : xs.Nodup) {m : Nat} (hm : m < xs.length) :
    xs.getD m 0 = xs.headD 0 ↔ m = 0 := by
  cases xs with
  | nil => simp at hm
  | cons x xs =>
    cases m with
    | zero => simp
    | succ m =>
      simp only [List.getD_cons_succ, List.headD_cons, add_eq_zero, one_ne_zero, and_false,
        iff_false]
      have hm1 : m < xs.length := by simpa using hm
      rw [List.getD_eq_getElem _ _ hm1]
      intro e
      exact (List.nodup_cons.1 hn).1 (e ▸ List.getElem_mem _)

theorem IsList.head_eq {next : Nat → Nat} {xs : List Nat} {p : Nat}
    (h : IsList next p xs) : p = xs.headD 0 := by
  cases xs with
  | nil => simpa [IsList] using h
  | cons x xs => simp only [IsList] at h; simpa using h.1

theorem IsList.tail {next : Nat → Nat} {xs : List Nat} {p : Nat}
    (h : IsList next p xs) (hne : xs ≠ []) : IsList next (next p) xs.tail := by
  cases xs with
  | nil => exact absurd rfl hne
  | cons x xs => simp only [IsList] at h; simpa [h.1] using h.2.2

theorem stealHalf_spec (s : Kmem) (c i : Nat) (xs : List Nat) (hic : i ≠ c)
    (hxs : IsList s.next (s.freelist i) xs) (hne : xs ≠ []) :
    (stealHalf s c i (xs.getD (xs.length / 2) 0)).1 = xs.headD 0 ∧
    IsList (stealHalf s c i (xs.getD (xs.length / 2) 0)).2.next
      ((stealHalf s c i (xs.getD (xs.length / 2) 0)).2.freelist c)
      (xs.take (xs.length / 2 + 1)).tail ∧
    IsList (stealHalf s c i (xs.getD (xs.length / 2) 0)).2.next
      ((stealHalf s c i (xs.getD (xs.length / 2) 0)).2.freelist i)
      (xs.drop (xs.length / 2 + 1)) ∧
    (∀ j, j ≠ c → j ≠ i →
      (stealHalf s c i (xs.getD (xs.length / 2) 0)).2.freelist j = s.freelist j) ∧
    (∀ p, p ∉ xs → (stealHalf s c i (xs.getD (xs.length / 2) 0)).2.next p = s.next p) := by
  have hlen : 0 < xs.length := List.length_pos.2 hne
  have hm : xs.length / 2 < xs.length := Nat.div_lt_self hlen (by decide)
  have hnd := hxs.nodup
  have hhd := hxs.head_eq
  have hsl := getD_eq_head_iff hnd hm
  have hci : c ≠ i := fun e => hic e.symm
  by_cases h0 : xs.length / 2 = 0
  · have hl1 : xs.length = 1 := by omega
    obtain ⟨x, rfl⟩ := List.length_eq_one.1 hl1
    simp only [IsList] at hxs
    obtain ⟨hx, hx0, hnx⟩ := hxs
    simp [stealHalf, Kmem.setFreelist, Kmem.setNext, hx, hic, hci, Function.update_noteq,
      IsList, hnx]
    intro j hj1 hj2
    simp [Function.update_noteq, hj1, hj2]
  · have hslne : xs.getD (xs.length / 2) 0 ≠ s.freelist i := by
      rw [hhd]; exact fun e => h0 (hsl.1 e)
    have htake := IsList.take_update (xs.length / 2) hxs hm
    have hdrop := IsList.drop (xs.length / 2) hxs
    have hdm : xs.drop (xs.length / 2) =
        xs.getD (xs.length / 2) 0 :: xs.drop (xs.length / 2 + 1) := by
      rw [List.getD_eq_getElem _ _ hm]
      exact List.drop_eq_getElem_cons hm
    rw [hdm] at hdrop
    simp only [List.headD_cons, IsList] at hdrop
    have hdrop2 : IsList (Function.update s.next (xs.getD (xs.length / 2) 0) 0)
        (s.next (xs.getD (xs.length / 2) 0)) (xs.drop (xs.length / 2 + 1)) := by
      refine IsList.congr_next ?_ hdrop.2.2
      intro y hy
      refine Function.update_noteq (fun e => getD_not_mem_drop hnd hm ?_) _ _
      rw [← e]; exact hy
    have htl := IsList.tail htake (by
      intro e
      have := congrArg List.length e
      simp only [List.length_take, List.length_nil] at this
      omega)
    simp only [stealHalf, Kmem.setFreelist, Kmem.setNext, Function.update_same,
      Function.update_noteq hic, hslne, ↓reduceIte, Function.update_noteq hci]
    refine ⟨hhd, htl, hdrop2, ?_, ?_⟩
    · intro j hj1 hj2
      simp [Function.update_noteq, hj1, hj2]
    · intro p hp
      refine Function.update_noteq (fun e => hp ?_) _ _
      rw [e, List.getD_eq_getElem _ _ hm]
      exact List.getElem_mem _

theorem stealHalf_fst (s : Kmem) (c i sl : Nat) (hic : i ≠ c) :
    (stealHalf s c i sl).1 = s.freelist i := by
  have hci : c ≠ i := fun e => hic e.symm
  unfold stealHalf
  by_cases h : sl = s.freelist i
  · simp [Kmem.setFreelist, Kmem.setNext, h, Function.update_noteq hci, Function.update_noteq hic]
  · simp [Kmem.setFreelist, Kmem.setNext, h, Function.update_noteq hci, Function.update_noteq hic]

theorem kallocSteal_empty (fuel c : Nat) (s : Kmem) : ∀ (is : List Nat),
    (∀ i ∈ is, i ≠ c → s.freelist i = 0) → kallocSteal fuel c is 0 s = some (0, s)
  | [], _ => rfl
  | i :: is, h => by
    have ih := kallocSteal_empty fuel c s is (fun j hj => h j (List.mem_cons_of_mem _ hj))
    by_cases hic : i = c
    · simp [kallocSteal, hic, ih]
    · simp [kallocSteal, hic, h i (List.mem_cons_self _ _) hic, ih]

theorem kallocSteal_first (fuel c : Nat) (s : Kmem) : ∀ (is : List Nat),
    (∃ i ∈ is, i ≠ c ∧ s.freelist i ≠ 0) →
    ∃ i ∈ is, i ≠ c ∧ s.freelist i ≠ 0 ∧
      kallocSteal fuel c is 0 s =
        (walk s.next fuel (s.freelist i) (s.freelist i)).map (stealHalf s c i)
  | [], h => by simp at h
  | i :: is, h => by
    by_cases hic : i = c
    · have h2 : ∃ j ∈ is, j ≠ c ∧ s.freelist j ≠ 0 := by
        obtain ⟨j, hj, hjc, hj0⟩ := h
        rcases List.mem_cons.1 hj with rfl | hj
        · exact absurd hic hjc
        · exact ⟨j, hj, hjc, hj0⟩
      obtain ⟨j, hj, hjc, hj0, e⟩ := kallocSteal_first fuel c s is h2
      exact ⟨j, List.mem_cons_of_mem _ hj, hjc, hj0, by simp [kallocSteal, hic, e]⟩
    · by_cases hi0 : s.freelist i = 0
      · have h2 : ∃ j ∈ is, j ≠ c ∧ s.freelist j ≠ 0 := by
          obtain ⟨j, hj, hjc, hj0⟩ := h
          rcases List.mem_cons.1 hj with rfl | hj
          · exact absurd hi0 hj0
          · exact ⟨j, hj, hjc, hj0⟩
        obtain ⟨j, hj, hjc, hj0, e⟩ := kallocSteal_first fuel c s is h2
        exact ⟨j, List.mem_cons_of_mem _ hj, hjc, hj0, by simp [kallocSteal, hic, hi0, e]⟩
      · refine ⟨i, List.mem_cons_self _ _, hic, hi0, ?_⟩
        simp only [kallocSteal, hic, ↓reduceIte, ne_eq, hi0, not_false_eq_true,
          stealHalf_fst s c i _ hic]
        cases walk s.next fuel (s.freelist i) (s.freelist i) <;> rfl

/-- The steal path of `kalloc`: with an empty local list and a donor `i`
whose list is `xs`, the call returns the head of `xs` and the memory that
`stealHalf` leaves, the returned page filled with junk. -/
theorem kalloc_steal_eq (NCPU fuel : Nat) (s : Kmem) (c : Nat)
    (hc0 : s.freelist c = 0) (h : ∃ i, i < NCPU ∧ i ≠ c ∧ s.freelist i ≠ 0)
    (hfuel : ∀ i xs, i < NCPU → IsList s.next (s.freelist i) xs → xs.length / 2 < fuel)
    (hwf : ∀ i, i < NCPU → ∃ xs, IsList s.next (s.freelist i) xs) :
    ∃ i xs, i < NCPU ∧ i ≠ c ∧ xs ≠ [] ∧ IsList s.next (s.freelist i) xs ∧
      kalloc NCPU fuel s c =
        .ret (xs.headD 0)
          ((stealHalf s c i (xs.getD (xs.length / 2) 0)).2.setNext (xs.headD 0) JUNK5) := by
  obtain ⟨i0, hi0, hi0c, hi00⟩ := h
  obtain ⟨i, hi, hic, hi0, e⟩ := kallocSteal_first fuel c s (List.range NCPU)
    ⟨i0, List.mem_range.2 hi0, hi0c, hi00⟩
  have hiN := List.mem_range.1 hi
  obtain ⟨xs, hxs⟩ := hwf i hiN
  have hne : xs ≠ [] := fun e0 => hi0 (hxs.nil_iff.2 e0)
  have hw := walk_eq s.next fuel xs xs (s.freelist i) (s.freelist i) 0 hxs hxs rfl hne
    (hfuel i xs hiN hxs)
  refine ⟨i, xs, hiN, hic, hne, hxs, ?_⟩
  have hr := (stealHalf_spec s c i xs hic hxs hne).1
  have hr0 : xs.headD 0 ≠ 0 := by
    rw [← hxs.head_eq]; exact hi0
  simp only [kalloc, hc0, ne_eq, not_true_eq_false, ↓reduceIte, e, hw, Option.map_some',
    hr, hr0, not_false_eq_true]

theorem total_two (NCPU A B : Nat) (hA : A < NCPU) (hB : B < NCPU) (hAB : B ≠ A)
    (la lb : List Nat) :
    total NCPU (fun i => if i = A then la else if i = B then lb else []) =
      la.length + lb.length := by
  unfold total
  rw [Finset.sum_eq_add A B (fun e => hAB e.symm)]
  · simp [hAB]
  · intro c _ hc
    simp [hc.1, hc.2]
  · intro h; exact absurd (Finset.mem_range.2 hA) h
  · intro h; exact absurd (Finset.mem_range.2 hB) h

theorem total_update (NCPU c : Nat) (hc : c < NCPU) (L : Nat → List Nat) (l : List Nat) :
    total NCPU (Function.update L c l) + (L c).length = total NCPU L + l.length := by
  unfold total
  have hmem : c ∈ Finset.range NCPU := Finset.mem_range.2 hc
  rw [← Finset.add_sum_erase _ _ hmem, ← Finset.add_sum_erase _ (fun i => (L i).length) hmem]
  have : ∑ x in (Finset.range NCPU).erase c, (Function.update L c l x).length =
      ∑ x in (Finset.range NCPU).erase c, (L x).length := by
    refine Finset.sum_congr rfl fun x hx => ?_
    rw [Function.update_noteq (Finset.ne_of_mem_erase hx)]
  rw [this, Function.update_same]
  omega

/-- The fast path of `kalloc`: a non-empty local list `x :: rest` is popped. -/
theorem kalloc_pop (NCPU fuel : Nat) (s : Kmem) (c : Nat) (L : Nat → List Nat)
    (hc : c < NCPU) (hwf : FreeLists NCPU s L) (hne : L c ≠ []) :
    ∃ s1, kalloc NCPU fuel s c = .ret ((L c).headD 0) s1 ∧ (L c).headD 0 ≠ 0 ∧
      FreeLists NCPU s1 (Function.update L c (L c).tail) := by
  obtain ⟨x, rest, hL⟩ := List.exists_cons_of_ne_nil hne
  have hl := hwf.1 c hc
  rw [hL] at hl
  have hnd := hl.nodup
  simp only [IsList] at hl
  obtain ⟨hx, hx0, hrest⟩ := hl
  refine ⟨(s.setFreelist c (s.next x)).setNext x JUNK5, by simp only [kalloc, hx, ne_eq, hx0,
    not_false_eq_true, ↓reduceIte, hL, List.headD_cons], by simpa [hL] using hx0, ?_, ?_⟩
  · intro j hj
    by_cases hjc : j = c
    · subst hjc
      simp only [Kmem.setNext, Kmem.setFreelist, Function.update_same, hL, List.tail_cons]
      exact IsList.congr_next (fun y hy => Function.update_noteq
        (fun (e : y = x) => (List.nodup_cons.1 hnd).1 (e ▸ hy)) _ _) hrest
    · simp only [Kmem.setNext, Kmem.setFreelist, Function.update_noteq hjc]
      refine IsList.congr_next (fun y hy => Function.update_noteq (fun (e : y = x) => ?_) _ _)
        (hwf.1 j hj)
      exact hwf.2 j c hj hc hjc hy (by rw [hL, e]; exact List.mem_cons_self _ _)
  · intro j l hj hl hjl
    by_cases hjc : j = c
    · have hlc : l ≠ c := fun e => hjl (hjc.trans e.symm)
      subst hjc
      simp only [Function.update_same, Function.update_noteq hlc]
      exact fun y hy => hwf.2 j l hj hl hjl (List.mem_of_mem_tail hy)
    · by_cases hlc : l = c
      · subst hlc
        simp only [Function.update_same, Function.update_noteq hjc]
        exact fun y hy hy2 => hwf.2 j l hj hl hjl hy (List.mem_of_mem_tail hy2)
      · simp only [Function.update_noteq hjc, Function.update_noteq hlc]
        exact hwf.2 j l hj hl hjl

/-- The steal path of `kalloc` on well-formed free lists: the donor `i`, whose
list is `x :: ys`, keeps what follows the midpoint of its list, the caller
the pages before it, but for `x`, which is returned. -/
theorem kalloc_steal (NCPU fuel : Nat) (s : Kmem) (c : Nat) (L : Nat → List Nat)
    (hc : c < NCPU) (hwf : FreeLists NCPU s L) (hc0 : L c = [])
    (h : ∃ i, i < NCPU ∧ L i ≠ [])
    (hfuel : ∀ i, i < NCPU → (L i).length / 2 < fuel) :
    ∃ i x ys s1, i < NCPU ∧ i ≠ c ∧ L i = x :: ys ∧
      kalloc NCPU fuel s c = .ret x s1 ∧ x ≠ 0 ∧
      FreeLists NCPU s1 (Function.update (Function.update L i
        (ys.drop ((ys.length + 1) / 2))) c (ys.take ((ys.length + 1) / 2))) := by
  have hfc : s.freelist c = 0 := (hwf.1 c hc).nil_iff.2 hc0
  obtain ⟨i0, hi0, hi0ne⟩ := h
  have hi0c : i0 ≠ c := fun e => hi0ne (e ▸ hc0)
  obtain ⟨i, xs, hi, hic, hne, hxs, e⟩ := kalloc_steal_eq NCPU fuel s c hfc
    ⟨i0, hi0, hi0c, fun e => hi0ne ((hwf.1 i0 hi0).nil_iff.1 e)⟩
    (fun j ys hj hys => by rw [IsList.unique hys (hwf.1 j hj)]; exact hfuel j hj)
    (fun j hj => ⟨L j, hwf.1 j hj⟩)
  have hLi := IsList.unique (hwf.1 i hi) hxs
  obtain ⟨_, hla, hlb, hoth, hnext⟩ := stealHalf_spec s c i xs hic hxs hne
  have hnd := hxs.nodup
  have hci : c ≠ i := fun e => hic e.symm
  obtain ⟨x, ys1, rfl⟩ := List.exists_cons_of_ne_nil hne
  have hx0 : x ≠ 0 := hxs.ne_zero x (List.mem_cons_self _ _)
  simp only [List.headD_cons, List.take_succ_cons, List.tail_cons, List.drop_succ_cons,
    List.length_cons] at hla hlb e hoth hnext
  generalize (stealHalf s c i ((x :: ys1).getD ((ys1.length + 1) / 2) 0)).2 = s2 at *
  have hxn : x ∉ ys1 := (List.nodup_cons.1 hnd).1
  have hxa : x ∉ ys1.take ((ys1.length + 1) / 2) := fun h => hxn (List.mem_of_mem_take h)
  have hxb : x ∉ ys1.drop ((ys1.length + 1) / 2) := fun h => hxn (List.mem_of_mem_drop h)
  have hsub : ∀ y, y ∈ ys1 → y ∈ L i := fun y hy => by rw [hLi]; exact List.mem_cons_of_mem _ hy
  refine ⟨i, x, ys1, _, hi, hic, hLi, e, hx0, ?_, ?_⟩
  · intro j hj
    by_cases hjc : j = c
    · subst hjc
      simp only [Function.update_same, Kmem.setNext]
      exact IsList.congr_next (fun y hy => Function.update_noteq
        (fun (e : y = x) => hxa (e ▸ hy)) _ _) hla
    · by_cases hji : j = i
      · subst hji
        simp only [Function.update_noteq hjc, Function.update_same, Kmem.setNext]
        exact IsList.congr_next (fun y hy => Function.update_noteq
          (fun (e : y = x) => hxb (e ▸ hy)) _ _) hlb
      · simp only [Function.update_noteq hjc, Function.update_noteq hji, Kmem.setNext]
        rw [hoth j hjc hji]
        have hdis := hwf.2 j i hj hi hji
        refine IsList.congr_next (fun y hy => ?_) (hwf.1 j hj)
        have hy2 : y ∉ x :: ys1 := by rw [← hLi]; exact fun h2 => hdis hy h2
        rw [Function.update_noteq (fun (e : y = x) => hy2 (e ▸ List.mem_cons_self _ _))]
        exact hnext y hy2
  · have htd : List.Disjoint (ys1.take ((ys1.length + 1) / 2)) (ys1.drop ((ys1.length + 1) / 2)) :=
      List.disjoint_take_drop (List.nodup_cons.1 hnd).2 (le_refl _)
    intro j l hj hl hjl
    by_cases hjc : j = c
    · have hlc : l ≠ c := fun e => hjl (hjc.trans e.symm)
      subst hjc
      simp only [Function.update_same, Function.update_noteq hlc]
      by_cases hli : l = i
      · subst hli
        simp only [Function.update_same]
        exact htd
      · simp only [Function.update_noteq hli]
        exact fun y hy hy2 => hwf.2 i l hi hl (fun e => hli e.symm)
          (hsub y (List.mem_of_mem_take hy)) hy2
    · simp only [Function.update_noteq hjc]
      by_cases hlc : l = c
      · subst hlc
        simp only [Function.update_same]
        by_cases hji : j = i
        · subst hji
          simp only [Function.update_same]
          exact htd.symm
        · simp only [Function.update_noteq hji]
          exact fun y hy hy2 => hwf.2 j i hj hi hji hy (hsub y (List.mem_of_mem_take hy2))
      · simp only [Function.update_noteq hlc]
        by_cases hji : j = i
        · have hli : l ≠ i := fun e => hjl (hji.trans e.symm)
          subst hji
          simp only [Function.update_same, Function.update_noteq hli]
          exact fun y hy hy2 => hwf.2 j l hj hl hjl (hsub y (List.mem_of_mem_drop hy)) hy2
        · simp only [Function.update_noteq hji]
          by_cases hli : l = i
          · subst hli
            simp only [Function.update_same]
            exact fun y hy hy2 => hwf.2 j l hj hl hjl hy (hsub y (List.mem_of_mem_drop hy2))
          · simp only [Function.update_noteq hli]
            exact hwf.2 j l hj hl hjl

theorem exampleMem_freeLists : FreeLists 2 exampleMem exampleLists := by
  refine ⟨fun i hi => ?_, fun i j hi hj hij => ?_⟩
  · interval_cases i <;> decide
  · interval_cases i <;> interval_cases j <;>
      first | exact absurd rfl hij | simp [exampleLists, List.Disjoint]

/-- Linking a page that is on no free list at the head of the list of CPU
`c` keeps the free lists well formed. -/
theorem kfree_freeLists (NCPU : Nat) (s : Kmem) (c pa : Nat) (L : Nat → List Nat)
    (hpa : pa ≠ 0) (hc : c < NCPU) (hwf : FreeLists NCPU s L)
    (hfree : ∀ i, i < NCPU → pa ∉ L i) :
    FreeLists NCPU (((s.setNext pa JUNK1).setNext pa
      ((s.setNext pa JUNK1).freelist c)).setFreelist c pa) (Function.update L c (pa :: L c)) := by
  have hcongr : ∀ j, j < NCPU → IsList (Function.update (Function.update s.next pa JUNK1) pa
      (s.freelist c)) (s.freelist j) (L j) := fun j hj =>
    IsList.congr_next (fun y hy => by
      have hne : y ≠ pa := fun e => hfree j hj (e ▸ hy)
      simp [Function.update_noteq hne]) (hwf.1 j hj)
  refine ⟨fun j hj => ?_, fun j l hj hl hjl => ?_⟩
  · by_cases hjc : j = c
    · subst hjc
      simp only [Kmem.setNext, Kmem.setFreelist, Function.update_same, IsList, true_and]
      exact ⟨hpa, hcongr j hj⟩
    · simp only [Kmem.setNext, Kmem.setFreelist, Function.update_noteq hjc]
      exact hcongr j hj
  · by_cases hjc : j = c
    · have hlc : l ≠ c := fun e => hjl (hjc.trans e.symm)
      subst hjc
      simp only [Function.update_same, Function.update_noteq hlc]
      intro y hy hy2
      rcases List.mem_cons.1 hy with rfl | hy
      · exact hfree l hl hy2
      · exact hwf.2 j l hj hl hjl hy hy2
    · by_cases hlc : l = c
      · subst hlc
        simp only [Function.update_same, Function.update_noteq hjc]
        intro y hy hy2
        rcases List.mem_cons.1 hy2 with rfl | hy2
        · exact hfree j hj hy
        · exact hwf.2 j l hj hl hjl hy hy2
      · simp only [Function.update_noteq hjc, Function.update_noteq hlc]
        exact hwf.2 j l hj hl hjl

/-- A page of a list is still reached when only its own `next` field has
changed. -/
theorem IsList.mem_of_update {next next2 : Nat → Nat} {pa : Nat}
    (hagree : ∀ r, r ≠ pa → next2 r = next r) : ∀ {xs ys : List Nat} {q : Nat},
    IsList next q xs → pa ∈ xs → IsList next2 q ys → pa ∈ ys
  | [], _, _, _, h, _ => by simp at h
  | x :: xs, [], q, h1, _, h2 => by
    simp only [IsList] at h1 h2
    omega
  | x :: xs, y :: ys, q, h1, hpa, h2 => by
    simp only [IsList] at h1 h2
    obtain ⟨rfl, _, h1⟩ := h1
    obtain ⟨rfl, _, h2⟩ := h2
    by_cases hq : q = pa
    · exact hq ▸ List.mem_cons_self _ _
    · rw [hagree q hq] at h2
      rcases List.mem_cons.1 hpa with e | hpa
      · exact absurd e.symm hq
      · exact List.mem_cons_of_mem _ (IsList.mem_of_update hagree h1 hpa h2)

end Kalloc

/-! ## The page allocator: the claims -/

namespace Kalloc

/-- C7 (steal conservation): on a CPU `A` with an empty list, when CPU `B`
holds the `k ≥ 1` pages `xs` and every other list is empty, `kalloc` returns a
non-null page of `xs`; afterwards `A` holds `k / 2` pages, `B` holds
`k - 1 - k / 2`, the other lists are still empty, the total is `k - 1`, and
the returned page followed by the pages of `A` and of `B` is `xs` itself. -/
theorem kalloc_steal_conservation (NCPU fuel : Nat) (s : Kmem) (A B : Nat) (xs : List Nat)
    (hA : A < NCPU) (hB : B < NCPU) (hAB : B ≠ A)
    (hempty : ∀ i, i < NCPU → i ≠ B → s.freelist i = 0)
    (hxs : IsList s.next (s.freelist B) xs) (hk : 1 ≤ xs.length)
    (hfuel : xs.length / 2 < fuel) :
    ∃ r s1 la lb, kalloc NCPU fuel s A = .ret r s1 ∧ r ≠ 0 ∧ r ∈ xs ∧
      FreeLists NCPU s1 (fun i => if i = A then la else if i = B then lb else []) ∧
      total NCPU (fun i => if i = A then la else if i = B then lb else []) = xs.length - 1 ∧
      la.length = xs.length / 2 ∧ lb.length = xs.length - 1 - xs.length / 2 ∧
      la.length ≤ lb.length + 1 ∧ lb.length ≤ la.length ∧
      r :: (la ++ lb) = xs := by
  have hne : xs ≠ [] := List.length_pos.1 hk
  have hB0 : s.freelist B ≠ 0 := fun e => hne (hxs.nil_iff.1 e)
  have hlists : ∀ i, i < NCPU → ∃ ys, IsList s.next (s.freelist i) ys := by
    intro i hi
    by_cases hiB : i = B
    · exact ⟨xs, hiB ▸ hxs⟩
    · exact ⟨[], by simpa [IsList] using hempty i hi hiB⟩
  have hf : ∀ i ys, i < NCPU → IsList s.next (s.freelist i) ys → ys.length / 2 < fuel := by
    intro i ys hi hys
    by_cases hiB : i = B
    · rw [IsList.unique hys (hiB ▸ hxs)]; exact hfuel
    · have : ys = [] := hys.nil_iff.1 (hempty i hi hiB)
      simp only [this, List.length_nil, Nat.zero_div]; omega
  obtain ⟨i, ys, hi, hiA, _, hys, e⟩ := kalloc_steal_eq NCPU fuel s A (hempty A hA hAB.symm)
    ⟨B, hB, hAB, hB0⟩ hf hlists
  have hiB : i = B := by
    by_contra hiB
    have h0 := hempty i hi hiB
    have : ys = [] := hys.nil_iff.1 h0
    contradiction
  subst hiB
  obtain rfl := IsList.unique hys hxs
  obtain ⟨_, hla, hlb, hoth, hnext⟩ := stealHalf_spec s A i ys hAB hxs hne
  have hnd := hxs.nodup
  have hm : ys.length / 2 < ys.length := Nat.div_lt_self hk (by decide)
  obtain ⟨x, ys1, rfl⟩ := List.exists_cons_of_ne_nil hne
  have hx0 : x ≠ 0 := hxs.ne_zero x (List.mem_cons_self _ _)
  have hxn : x ∉ ys1 := (List.nodup_cons.1 hnd).1
  simp only [List.headD_cons, List.take_succ_cons, List.tail_cons, List.drop_succ_cons] at *
  have hxa : x ∉ ys1.take ((x :: ys1).length / 2) := fun h => hxn (List.mem_of_mem_take h)
  have hxb : x ∉ ys1.drop ((x :: ys1).length / 2) := fun h => hxn (List.mem_of_mem_drop h)
  refine ⟨x, _, ys1.take ((x :: ys1).length / 2), ys1.drop ((x :: ys1).length / 2), e, hx0,
    List.mem_cons_self _ _, ⟨?_, ?_⟩, ?_, ?_, ?_, ?_, ?_, ?_⟩
  · intro j hj
    by_cases hjA : j = A
    · subst hjA
      simp only [↓reduceIte, Kmem.setNext]
      exact IsList.congr_next (fun y hy => Function.update_noteq (fun (e : y = x) => hxa (e ▸ hy)) _ _) hla
    · by_cases hjB : j = i
      · subst hjB
        simp only [hjA, ↓reduceIte, Kmem.setNext]
        exact IsList.congr_next (fun y hy => Function.update_noteq (fun (e : y = x) => hxb (e ▸ hy)) _ _) hlb
      · simp only [hjA, hjB, ↓reduceIte, IsList, Kmem.setNext]
        rw [hoth j hjA hjB]
        exact hempty j hj hjB
  · intro j l hj hl hjl
    by_cases hjA : j = A
    · by_cases hlB : l = i
      · have hlA : l ≠ A := hlB ▸ hAB
        simp only [hjA, hlB, ↓reduceIte, hAB]
        exact List.disjoint_take_drop (List.nodup_cons.1 hnd).2 (le_refl _)
      · have hlA : l ≠ A := fun e => hjl (hjA.trans e.symm)
        simp [hjA, hlB, hlA]
    · by_cases hjB : j = i
      · by_cases hlA : l = A
        · simp only [hjA, hjB, hlA, ↓reduceIte, hAB]
          exact (List.disjoint_take_drop (List.nodup_cons.1 hnd).2 (le_refl _)).symm
        · have hlB : l ≠ i := fun e => hjl (hjB.trans e.symm)
          simp [hjA, hjB, hlA, hlB]
      · simp [hjA, hjB]
  · rw [total_two NCPU A i hA hB hAB]
    simp only [List.length_take, List.length_drop, List.length_cons] at *
    omega
  · simp only [List.length_take, List.length_cons] at *
    omega
  · simp only [List.length_drop, List.length_cons] at *
    omega
  · simp only [List.length_take, List.length_drop, List.length_cons] at *
    omega
  · simp only [List.length_take, List.length_drop, List.length_cons] at *
    omega
  · simp

/-- C8 (exhaustion): on well-formed free lists `kalloc` always returns; the
result is null exactly when every list is empty, and then the memory is
unchanged; a non-null result leaves well-formed lists with one page fewer. -/
theorem kalloc_exhaustion (NCPU fuel : Nat) (s : Kmem) (c : Nat) (L : Nat → List Nat)
    (hc : c < NCPU) (hwf : FreeLists NCPU s L)
    (hfuel : ∀ i, i < NCPU → (L i).length / 2 < fuel) :
    ∃ r s1, kalloc NCPU fuel s c = .ret r s1 ∧
      (r = 0 ↔ ∀ i, i < NCPU → L i = []) ∧
      (r = 0 → s1.freelist = s.freelist ∧ s1.next = s.next) ∧
      (r ≠ 0 → ∃ L1, FreeLists NCPU s1 L1 ∧ total NCPU L1 + 1 = total NCPU L) := by
  by_cases hLc : L c = []
  · by_cases hall : ∃ i, i < NCPU ∧ L i ≠ []
    · obtain ⟨i, x, ys, s1, hi, hic, hLi, e, hx0, hfl⟩ :=
        kalloc_steal NCPU fuel s c L hc hwf hLc hall hfuel
      refine ⟨x, s1, e, ?_, fun h => absurd h hx0, fun _ => ⟨_, hfl, ?_⟩⟩
      · simp only [hx0, false_iff, not_forall]
        exact ⟨i, hi, by simp [hLi]⟩
      · have h1 := total_update NCPU c hc (Function.update L i (ys.drop ((ys.length + 1) / 2)))
          (ys.take ((ys.length + 1) / 2))
        have h2 := total_update NCPU i hi L (ys.drop ((ys.length + 1) / 2))
        rw [Function.update_noteq (fun e => hic e.symm), hLc] at h1
        rw [hLi] at h2
        simp only [List.length_nil, List.length_take, List.length_drop, List.length_cons]
          at h1 h2
        omega
    · have hall2 : ∀ i, i < NCPU → L i = [] := by
        intro i hi
        by_contra h
        exact hall ⟨i, hi, h⟩
      have hfc : s.freelist c = 0 := (hwf.1 c hc).nil_iff.2 hLc
      have hst := kallocSteal_empty fuel c s (List.range NCPU) (fun i hi _ =>
        (hwf.1 i (List.mem_range.1 hi)).nil_iff.2 (hall2 i (List.mem_range.1 hi)))
      refine ⟨0, s, by simp [kalloc, hfc, hst], by simpa using hall2, fun _ => ⟨rfl, rfl⟩,
        fun h => absurd rfl h⟩
  · obtain ⟨s1, e, hx0, hfl⟩ := kalloc_pop NCPU fuel s c L hc hwf hLc
    refine ⟨_, s1, e, ?_, fun h => absurd h hx0, fun _ => ⟨_, hfl, ?_⟩⟩
    · simp only [hx0, false_iff, not_forall]
      exact ⟨c, hc, hLc⟩
    · have h1 := total_update NCPU c hc L (L c).tail
      have h2 : (L c).length = (L c).tail.length + 1 := by
        cases hl : L c with
        | nil => exact absurd hl hLc
        | cons x xs => simp
      omega

/-- Witness of C7: CPU 0 steals from CPU 1, which holds three pages. -/
theorem kalloc_steal_conservation_witness :
    ∃ r s1 la lb, kalloc 2 2 exampleMem 0 = .ret r s1 ∧ r ≠ 0 ∧ r ∈ [0x1000, 0x2000, 0x3000] ∧
      FreeLists 2 s1 (fun i => if i = 0 then la else if i = 1 then lb else []) ∧
      total 2 (fun i => if i = 0 then la else if i = 1 then lb else []) =
        [0x1000, 0x2000, 0x3000].length - 1 ∧
      la.length = [0x1000, 0x2000, 0x3000].length / 2 ∧
      lb.length = [0x1000, 0x2000, 0x3000].length - 1 - [0x1000, 0x2000, 0x3000].length / 2 ∧
      la.length ≤ lb.length + 1 ∧ lb.length ≤ la.length ∧
      r :: (la ++ lb) = [0x1000, 0x2000, 0x3000] :=
  kalloc_steal_conservation 2 2 exampleMem 0 1 [0x1000, 0x2000, 0x3000] (by decide) (by decide)
    (by decide) (fun i hi hne => by interval_cases i <;> first | rfl | exact absurd rfl hne)
    (by decide) (by decide) (by decide)

/-- Witness of C8: `kalloc` on CPU 0 of the example memory. -/
theorem kalloc_exhaustion_witness :
    ∃ r s1, kalloc 2 2 exampleMem 0 = .ret r s1 ∧
      (r = 0 ↔ ∀ i, i < 2 → exampleLists i = []) ∧
      (r = 0 → s1.freelist = exampleMem.freelist ∧ s1.next = exampleMem.next) ∧
      (r ≠ 0 → ∃ L1, FreeLists 2 s1 L1 ∧ total 2 L1 + 1 = total 2 exampleLists) :=
  kalloc_exhaustion 2 2 exampleMem 0 exampleLists (by decide) exampleMem_freeLists
    (fun i hi => by interval_cases i <;> decide)

/-- Counterexample to C9: `kfree(0x2000)` on CPU 0 while the page is on the
list of CPU 1 returns, and the list of CPU 1, which was `0x1000, 0x2000,
0x3000`, is cut to `0x1000, 0x2000`. -/
theorem kfree_cuts_other_list :
    FreeLists 2 exampleMem exampleLists ∧
    ∃ s1, kfree 0x1000 0x8000 exampleMem 0 0x2000 = .ret () s1 ∧
      ¬ IsList s1.next (s1.freelist 1) (exampleLists 1) ∧
      IsList s1.next (s1.freelist 1) [0x1000, 0x2000] :=
  ⟨exampleMem_freeLists, _, rfl, by decide, by decide⟩

/-- C9, amended: `kfree(pa)` on CPU `c` calls `panic` exactly when `pa` is
misaligned, below `end` or not below `PHYSTOP`, and then the memory is
unchanged; otherwise, when `pa` is on no free list (and `end` is not the null
address), it returns, `pa` heads the list of CPU `c`, followed by the previous
list, and the lists of the other CPUs are unchanged. -/
theorem kfree_spec (END PHYSTOP NCPU : Nat) (s : Kmem) (c pa : Nat) :
    ((kfree END PHYSTOP s c pa).aborts = true ↔
      (pa % PGSIZE ≠ 0 ∨ pa < END ∨ pa ≥ PHYSTOP)) ∧
    ((pa % PGSIZE ≠ 0 ∨ pa < END ∨ pa ≥ PHYSTOP) →
      kfree END PHYSTOP s c pa = .abort "kfree" s) ∧
    (¬ (pa % PGSIZE ≠ 0 ∨ pa < END ∨ pa ≥ PHYSTOP) →
      ∀ L : Nat → List Nat, 0 < END → c < NCPU → FreeLists NCPU s L →
      (∀ i, i < NCPU → pa ∉ L i) →
      ∃ s1, kfree END PHYSTOP s c pa = .ret () s1 ∧
        FreeLists NCPU s1 (Function.update L c (pa :: L c)) ∧
        ∀ i, i ≠ c → s1.freelist i = s.freelist i) := by
  by_cases hbad : pa % PGSIZE ≠ 0 ∨ pa < END ∨ pa ≥ PHYSTOP
  · simp only [kfree, hbad, ↓reduceIte, Outcome.aborts, not_true_eq_false, false_implies,
      and_self, forall_const]
  · refine ⟨by simp only [kfree, hbad, ↓reduceIte, Outcome.aborts, Bool.false_eq_true],
      fun h => absurd h hbad, fun _ L hEND hc hwf hfree => ⟨_, by simp only [kfree, hbad,
        ↓reduceIte], kfree_freeLists NCPU s c pa L ?_ hc hwf hfree, fun i hi => ?_⟩⟩
    · push_neg at hbad; omega
    · simp only [Kmem.setNext, Kmem.setFreelist, Function.update_noteq hi]

/-- Witness of C9: `kfree(0x4000)` on CPU 0 of the example memory. -/
theorem kfree_spec_witness :
    ∃ s1, kfree 0x1000 0x8000 exampleMem 0 0x4000 = .ret () s1 ∧
      FreeLists 2 s1 (Function.update exampleLists 0 (0x4000 :: exampleLists 0)) ∧
      ∀ i, i ≠ 0 → s1.freelist i = exampleMem.freelist i :=
  (kfree_spec 0x1000 0x8000 2 exampleMem 0 0x4000).2.2 (by decide) exampleLists (by decide)
    (by decide) exampleMem_freeLists (fun i hi => by interval_cases i <;> decide)

/-- Counterexample to C10: `0x2000` is on the free list of CPU 1, and
`kfree(0x2000)` on CPU 1 does not abort: it returns with `0x2000` linked a
second time, at the head of a list that now cycles. -/
theorem kfree_double_free_returns :
    IsList exampleMem.next (exampleMem.freelist 1) [0x1000, 0x2000, 0x3000] ∧
    (kfree 0x1000 0x8000 exampleMem 1 0x2000).aborts = false ∧
    ∃ s1, kfree 0x1000 0x8000 exampleMem 1 0x2000 = .ret () s1 ∧
      s1.freelist 1 = 0x2000 ∧ s1.next 0x2000 = 0x1000 ∧ s1.next 0x1000 = 0x2000 :=
  ⟨by decide, by decide, _, rfl, by decide, by decide, by decide⟩

/-- C10, amended: a double free is not detected.  When `pa` is page-aligned
and inside `[end, PHYSTOP)`, `kfree(pa)` returns although `pa` is already on
the free list of some CPU `d`; it links `pa` at the head of the list of the
calling CPU again, after which the free lists are no longer well formed
(`pa` is on two lists, or the list of the caller cycles). -/
theorem kfree_double_free (END PHYSTOP NCPU : Nat) (s : Kmem) (c d pa : Nat) (xs : List Nat)
    (hc : c < NCPU) (hd : d < NCPU)
    (hxs : IsList s.next (s.freelist d) xs) (hpa : pa ∈ xs)
    (hal : pa % PGSIZE = 0) (hlo : END ≤ pa) (hhi : pa < PHYSTOP) :
    (kfree END PHYSTOP s c pa).aborts = false ∧
    ∃ s1, kfree END PHYSTOP s c pa = .ret () s1 ∧
      s1.freelist c = pa ∧ s1.next pa = s.freelist c ∧
      (∀ i, i ≠ c → s1.freelist i = s.freelist i) ∧
      (∀ r, r ≠ pa → s1.next r = s.next r) ∧
      ∀ L1, ¬ FreeLists NCPU s1 L1 := by
  have hok : ¬ (pa % PGSIZE ≠ 0 ∨ pa < END ∨ pa ≥ PHYSTOP) := by
    push_neg; exact ⟨hal, hlo, hhi⟩
  have h1 : (((s.setNext pa JUNK1).setNext pa ((s.setNext pa JUNK1).freelist c)).setFreelist
      c pa).freelist c = pa := by simp [Kmem.setNext, Kmem.setFreelist]
  have h2 : (((s.setNext pa JUNK1).setNext pa ((s.setNext pa JUNK1).freelist c)).setFreelist
      c pa).next pa = s.freelist c := by simp [Kmem.setNext, Kmem.setFreelist]
  have h3 : ∀ i, i ≠ c → (((s.setNext pa JUNK1).setNext pa
      ((s.setNext pa JUNK1).freelist c)).setFreelist c pa).freelist i = s.freelist i :=
    fun i hi => by simp [Kmem.setNext, Kmem.setFreelist, Function.update_noteq hi]
  have h4 : ∀ r, r ≠ pa → (((s.setNext pa JUNK1).setNext pa
      ((s.setNext pa JUNK1).freelist c)).setFreelist c pa).next r = s.next r :=
    fun r hr => by simp [Kmem.setNext, Kmem.setFreelist, Function.update_noteq hr]
  refine ⟨by simp only [kfree, hok, ↓reduceIte, Outcome.aborts],
    ((s.setNext pa JUNK1).setNext pa ((s.setNext pa JUNK1).freelist c)).setFreelist c pa,
    by simp only [kfree, hok, ↓reduceIte], h1, h2, h3, h4, fun L1 hL => ?_⟩
  generalize ((s.setNext pa JUNK1).setNext pa ((s.setNext pa JUNK1).freelist c)).setFreelist
    c pa = s1 at h1 h2 h3 h4 hL
  have hpa0 : pa ≠ 0 := hxs.ne_zero pa hpa
  have hLc := hL.1 c hc
  rw [h1] at hLc
  cases hl : L1 c with
  | nil =>
    rw [hl] at hLc
    exact hpa0 hLc
  | cons y rest =>
    rw [hl] at hLc
    simp only [IsList] at hLc
    obtain ⟨rfl, _, hrest⟩ := hLc
    by_cases hdc : d = c
    · subst hdc
      rw [h2] at hrest
      have hin := IsList.mem_of_update h4 hxs hpa hrest
      rw [← h2] at hrest
      exact IsList.not_mem hrest hin
    · have hLd := hL.1 d hd
      rw [h3 d hdc] at hLd
      have hin := IsList.mem_of_update h4 hxs hpa hLd
      exact hL.2 d c hd hc hdc hin (by rw [hl]; exact List.mem_cons_self _ _)

/-- Witness of C10: the double free of `0x2000` on CPU 1 of the example. -/
theorem kfree_double_free_witness :
    (kfree 0x1000 0x8000 exampleMem 1 0x2000).aborts = false ∧
    ∃ s1, kfree 0x1000 0x8000 exampleMem 1 0x2000 = .ret () s1 ∧
      s1.freelist 1 = 0x2000 ∧ s1.next 0x2000 = exampleMem.freelist 1 ∧
      (∀ i, i ≠ 1 → s1.freelist i = exampleMem.freelist i) ∧
      (∀ r, r ≠ 0x2000 → s1.next r = exampleMem.next r) ∧
      ∀ L1, ¬ FreeLists 2 s1 L1 :=
  kfree_double_free 0x1000 0x8000 2 exampleMem 1 1 0x2000 [0x1000, 0x2000, 0x3000]
    (by decide) (by decide) (by decide) (by decide) (by decide) (by decide) (by decide)

end Kalloc

/-! ## The buffer cache: bucket lists as circular doubly linked chains -/

namespace Bio

@[simp] theorem log_node (s : State) (e : Ev) : (s.log e).node = s.node := rfl

theorem scan_next (s : State) (f : Ptr → Bool) (i : Nat) :
    ∀ (xs : List Nat) (a : Ptr) (fuel : Nat),
    List.Chain' (Link s) (a :: (xs.map Ptr.buf ++ [Ptr.head i])) → xs.length < fuel →
    scan (fun b => (s.node b).next) f (.head i) fuel (s.node a).next =
      some ((xs.find? (fun j => f (.buf j))).map Ptr.buf)
  | [], a, fuel, h, hf => by
    obtain ⟨n, rfl⟩ : ∃ n, fuel = n + 1 := ⟨fuel - 1, by omega⟩
    simp only [List.map_nil, List.nil_append, List.chain'_cons, List.chain'_singleton,
      and_true] at h
    simp [scan, h.1]
  | x :: xs, a, fuel, h, hf => by
    obtain ⟨n, rfl⟩ : ∃ n, fuel = n + 1 := ⟨fuel - 1, by omega⟩
    simp only [List.map_cons, List.cons_append, List.chain'_cons] at h
    have ih := scan_next s f i xs (.buf x) n h.2 (by simpa using hf)
    rw [h.1.1]
    by_cases hfx : f (.buf x) = true
    · simp [scan, hfx]
    · simp [scan, hfx, ih]

theorem scan_prev (s : State) (f : Ptr → Bool) (i : Nat) :
    ∀ (xs : List Nat) (z : Ptr) (fuel : Nat),
    List.Chain' (Link s) (Ptr.head i :: (xs.map Ptr.buf ++ [z])) → xs.length < fuel →
    scan (fun b => (s.node b).prev) f (.head i) fuel (s.node z).prev =
      some ((xs.reverse.find? (fun j => f (.buf j))).map Ptr.buf) := by
  intro xs
  induction xs using List.reverseRecOn with
  | nil =>
    intro z fuel h hf
    obtain ⟨n, rfl⟩ : ∃ n, fuel = n + 1 := ⟨fuel - 1, by omega⟩
    simp only [List.map_nil, List.nil_append, List.chain'_cons, List.chain'_singleton,
      and_true] at h
    simp [scan, h.2]
  | append_singleton ys y ih =>
    intro z fuel h hf
    obtain ⟨n, rfl⟩ : ∃ n, fuel = n + 1 := ⟨fuel - 1, by omega⟩
    have h1 : List.Chain' (Link s) ((Ptr.head i :: (ys.map Ptr.buf ++ [Ptr.buf y])) ++ [z]) := by
      simpa using h
    rw [List.chain'_append] at h1
    obtain ⟨hc, -, hl⟩ := h1
    have hlink : Link s (.buf y) z := by
      apply hl
      · rw [← List.cons_append, List.getLast?_concat]; rfl
      · simp
    have ih2 := ih (.buf y) n hc (by simpa using hf)
    rw [hlink.2]
    by_cases hfx : f (.buf y) = true
    · simp [scan, hfx]
    · simp [scan, hfx, ih2]

theorem setNext_next (s : State) (p v q : Ptr) :
    ((s.setNext p v).node q).next = if q = p then v else (s.node q).next := by
  by_cases h : q = p
  · subst h; simp [State.setNext]
  · simp [State.setNext, Function.update_noteq h, h]

theorem setNext_prev (s : State) (p v q : Ptr) :
    ((s.setNext p v).node q).prev = (s.node q).prev := by
  by_cases h : q = p
  · subst h; simp [State.setNext]
  · simp [State.setNext, Function.update_noteq h]

theorem setPrev_prev (s : State) (p v q : Ptr) :
    ((s.setPrev p v).node q).prev = if q = p then v else (s.node q).prev := by
  by_cases h : q = p
  · subst h; simp [State.setPrev]
  · simp [State.setPrev, Function.update_noteq h, h]

theorem setPrev_next (s : State) (p v q : Ptr) :
    ((s.setPrev p v).node q).next = (s.node q).next := by
  by_cases h : q = p
  · subst h; simp [State.setPrev]
  · simp [State.setPrev, Function.update_noteq h]

theorem setNext_data (s : State) (p v q : Ptr) :
    ((s.setNext p v).node q).data = (s.node q).data := by
  by_cases h : q = p
  · subst h; simp [State.setNext, Buf.data]
  · simp [State.setNext, Function.update_noteq h]

theorem setPrev_data (s : State) (p v q : Ptr) :
    ((s.setPrev p v).node q).data = (s.node q).data := by
  by_cases h : q = p
  · subst h; simp [State.setPrev, Buf.data]
  · simp [State.setPrev, Function.update_noteq h]

theorem relink_next (s : State) (b : Ptr) (idx : Nat)
    (h1 : (s.node b).prev ≠ b) (h2 : (s.node b).prev ≠ .head idx) (p : Ptr) :
    ((relink s b idx).node p).next =
      if p = .head idx then b
      else if p = b then (s.node (.head idx)).next
      else if p = (s.node b).prev then (s.node b).next
      else (s.node p).next := by
  have h1' : b ≠ (s.node b).prev := fun e => h1 e.symm
  have h2' : Ptr.head idx ≠ (s.node b).prev := fun e => h2 e.symm
  simp only [relink, setNext_next, setNext_prev, setPrev_prev, setPrev_next, h1', h2',
    ↓reduceIte]

theorem relink_prev (s : State) (b : Ptr) (idx : Nat)
    (h1 : (s.node b).prev ≠ b) (h2 : (s.node b).prev ≠ .head idx) (p : Ptr) :
    ((relink s b idx).node p).prev =
      if p = b then .head idx
      else if p = (s.node (.head idx)).next then b
      else if p = (s.node b).next then (s.node b).prev
      else (s.node p).prev := by
  have h1' : b ≠ (s.node b).prev := fun e => h1 e.symm
  have h2' : Ptr.head idx ≠ (s.node b).prev := fun e => h2 e.symm
  simp only [relink, setNext_next, setNext_prev, setPrev_prev, setPrev_next, h1', h2',
    ↓reduceIte]

theorem relink_data (s : State) (b : Ptr) (idx : Nat) (p : Ptr) :
    ((relink s b idx).node p).data = (s.node p).data := by
  simp only [relink, setNext_data, setPrev_data]

theorem relink_trace (s : State) (b : Ptr) (idx : Nat) :
    (relink s b idx).trace = s.trace := rfl

/-- A chain survives a change of state that keeps `next` of every node but
the last and `prev` of every node but the first. -/
theorem chain_frame (s s1 : State) : ∀ (l : List Ptr), l.Nodup →
    List.Chain' (Link s) l →
    (∀ u ∈ l, some u ≠ l.getLast? → (s1.node u).next = (s.node u).next) →
    (∀ v ∈ l, some v ≠ l.head? → (s1.node v).prev = (s.node v).prev) →
    List.Chain' (Link s1) l
  | [], _, _, _, _ => List.chain'_nil
  | [a], _, _, _, _ => List.chain'_singleton a
  | a :: b :: t, hnd, hc, hn, hp => by
    rw [List.chain'_cons] at hc ⊢
    have hat : a ∉ b :: t := (List.nodup_cons.1 hnd).1
    have hlast : (a :: b :: t).getLast? = (b :: t).getLast? := by
      simp [List.getLast?_cons_cons]
    refine ⟨⟨?_, ?_⟩, chain_frame s s1 (b :: t) (List.nodup_cons.1 hnd).2 hc.2 ?_ ?_⟩
    · rw [hn a (List.mem_cons_self _ _), hc.1.1]
      rw [hlast]
      intro e
      exact hat (List.mem_of_mem_getLast? e.symm)
    · rw [hp b (List.mem_cons_of_mem _ (List.mem_cons_self _ _)), hc.1.2]
      simp only [List.head?_cons, ne_eq, Option.some.injEq]
      exact fun e => hat (e ▸ List.mem_cons_self _ _)
    · intro u hu hne
      exact hn u (List.mem_cons_of_mem _ hu) (hlast ▸ hne)
    · intro v hv _
      refine hp v (List.mem_cons_of_mem _ hv) ?_
      simp only [List.head?_cons, ne_eq, Option.some.injEq]
      exact fun e => hat (e ▸ hv)

/-- A chain survives a change of state that keeps the pointers of its nodes. -/
theorem chain_same (s s1 : State) (l : List Ptr) (hc : List.Chain' (Link s) l)
    (hn : ∀ u ∈ l, (s1.node u).next = (s.node u).next)
    (hp : ∀ v ∈ l, (s1.node v).prev = (s.node v).prev) :
    List.Chain' (Link s1) l := by
  rw [List.Chain'.iff_mem] at hc
  refine hc.imp ?_
  rintro a b ⟨ha, hb, h1, h2⟩
  exact ⟨by rw [hn a ha, h1], by rw [hp b hb, h2]⟩

theorem mem_bufs {xs : List Nat} {z u : Ptr} (h : u ∈ xs.map Ptr.buf ++ [z]) :
    u = z ∨ ∃ x, x ∈ xs ∧ u = .buf x := by
  rcases List.mem_append.1 h with h | h
  · obtain ⟨x, hx, rfl⟩ := List.mem_map.1 h
    exact Or.inr ⟨x, hx, rfl⟩
  · exact Or.inl (List.mem_singleton.1 h)

theorem mem_head_bufs {xs : List Nat} {z u : Ptr} (h : u ∈ z :: xs.map Ptr.buf) :
    u = z ∨ ∃ x, x ∈ xs ∧ u = .buf x := by
  rcases List.mem_cons.1 h with h | h
  · exact Or.inl h
  · obtain ⟨x, hx, rfl⟩ := List.mem_map.1 h
    exact Or.inr ⟨x, hx, rfl⟩

theorem nodup_bufs {xs : List Nat} (h : xs.Nodup) (i : Nat) :
    (xs.map Ptr.buf ++ [Ptr.head i]).Nodup := by
  refine List.Nodup.append (h.map fun a b e => by injection e) (List.nodup_singleton _) ?_
  intro u hu hu2
  obtain ⟨x, _, rfl⟩ := List.mem_map.1 hu
  simp at hu2

theorem nodup_head_bufs {xs : List Nat} (h : xs.Nodup) (i : Nat) :
    (Ptr.head i :: xs.map Ptr.buf).Nodup := by
  refine List.nodup_cons.2 ⟨?_, h.map fun a b e => by injection e⟩
  intro hu
  obtain ⟨x, _, e⟩ := List.mem_map.1 hu
  cases e

/-- In a bucket list the head points to the first node of the rest of the
cycle and the rest is itself a chain. -/
theorem Bucket.head_next {s : State} {i : Nat} {xs : List Nat} (h : Bucket s i xs) :
    (xs.map Ptr.buf ++ [Ptr.head i]).head? = some (s.node (.head i)).next ∧
    List.Chain' (Link s) (xs.map Ptr.buf ++ [Ptr.head i]) := by
  unfold Bucket at h
  cases xs with
  | nil =>
    simp only [List.map_nil, List.nil_append, List.chain'_cons, List.chain'_singleton,
      and_true] at h
    simp [h.1]
  | cons x xs =>
    simp only [List.map_cons, List.cons_append, List.chain'_cons] at h
    simp [h.1.1, h.2]

/-- The pointer surgery of the steal path: unlinking buffer `j` from bucket
`i` and inserting it at the front of bucket `idx` keeps the buckets well
formed. -/
theorem relink_lists (NBUCKET : Nat) (s : State) (L : Nat → List Nat) (i idx j : Nat)
    (hL : Lists NBUCKET s L) (hi : i < NBUCKET) (hidx : idx < NBUCKET) (hne : i ≠ idx)
    (hj : j ∈ L i) :
    Lists NBUCKET (relink s (.buf j) idx)
      (Function.update (Function.update L i ((L i).erase j)) idx (j :: L idx)) := by
  obtain ⟨hB, hN, hD⟩ := hL
  obtain ⟨pre, post, hsplit⟩ := List.append_of_mem hj
  have hndi := hN i hi
  rw [hsplit] at hndi
  have hndpre : pre.Nodup := (List.nodup_append.1 hndi).1
  have hndpost : post.Nodup := (List.nodup_cons.1 (List.nodup_append.1 hndi).2.1).2
  have hjpost : j ∉ post := (List.nodup_cons.1 (List.nodup_append.1 hndi).2.1).1
  have hjpre : j ∉ pre := fun h => (List.nodup_append.1 hndi).2.2 h (List.mem_cons_self _ _)
  have hprepost : ∀ x, x ∈ pre → x ∉ post := fun x hx hx2 =>
    (List.nodup_append.1 hndi).2.2 hx (List.mem_cons_of_mem _ hx2)
  have herase : (L i).erase j = pre ++ post := by
    rw [hsplit, List.erase_append_right _ hjpre, List.erase_cons_head]
  have hjidx : j ∉ L idx := fun h => hD i idx hi hidx hne hj h
  have hprei : ∀ x, x ∈ pre → x ∈ L i := fun x hx => by
    rw [hsplit]; exact List.mem_append_left _ hx
  have hposti : ∀ x, x ∈ post → x ∈ L i := fun x hx => by
    rw [hsplit]; exact List.mem_append_right _ (List.mem_cons_of_mem _ hx)
  -- the old chains
  have hci : List.Chain' (Link s) ((Ptr.head i :: pre.map Ptr.buf) ++
      Ptr.buf j :: (post.map Ptr.buf ++ [Ptr.head i])) := by
    have := hB i hi
    simpa [Bucket, hsplit] using this
  obtain ⟨hA, hbB⟩ := List.chain'_split.1 hci
  rw [List.chain'_append] at hA
  obtain ⟨hAc, -, hAl⟩ := hA
  obtain ⟨pb, hpb⟩ : ∃ pb, (Ptr.head i :: pre.map Ptr.buf).getLast? = some pb := by
    rw [List.getLast?_eq_getLast _ (List.cons_ne_nil _ _)]; exact ⟨_, rfl⟩
  have hlpb : Link s pb (.buf j) := hAl pb hpb (.buf j) rfl
  obtain ⟨nb, hnb⟩ : ∃ nb, (post.map Ptr.buf ++ [Ptr.head i]).head? = some nb := by
    cases post <;> simp
  have hBc : List.Chain' (Link s) (post.map Ptr.buf ++ [Ptr.head i]) := hbB.tail
  have hlnb : Link s (.buf j) nb := by
    obtain ⟨B1, hB1⟩ : ∃ B1, post.map Ptr.buf ++ [Ptr.head i] = nb :: B1 := by
      cases hp : post.map Ptr.buf ++ [Ptr.head i] with
      | nil => simp at hp
      | cons a t => rw [hp] at hnb; simp at hnb; exact ⟨t, by rw [hnb]⟩
    rw [hB1, List.chain'_cons] at hbB
    exact hbB.1
  obtain ⟨hh, hCc⟩ := (hB idx hidx).head_next
  -- where the three neighbours live
  have hpbA := mem_head_bufs (List.mem_of_mem_getLast? hpb)
  have hnbB := mem_bufs (List.mem_of_mem_head? hnb)
  have hhC := mem_bufs (List.mem_of_mem_head? hh)
  have e1 : pb ≠ .buf j := by
    rcases hpbA with rfl | ⟨x, hx, rfl⟩
    · simp
    · intro e; injection e with e; exact hjpre (e ▸ hx)
  have e2 : pb ≠ .head idx := by
    rcases hpbA with rfl | ⟨x, hx, rfl⟩
    · intro e; injection e with e; exact hne e
    · simp
  have e3 : nb ≠ .buf j := by
    rcases hnbB with rfl | ⟨x, hx, rfl⟩
    · simp
    · intro e; injection e with e; exact hjpost (e ▸ hx)
  have e4 : (s.node (.head idx)).next ≠ .buf j := by
    rcases hhC with e | ⟨x, hx, e⟩ <;> rw [e]
    · simp
    · intro e; injection e with e; exact hjidx (e ▸ hx)
  have e5 : nb ≠ (s.node (.head idx)).next := by
    rcases hhC with e | ⟨x, hx, e⟩ <;> rw [e] <;> rcases hnbB with rfl | ⟨y, hy, rfl⟩
    · intro e; injection e with e; exact hne e
    · simp
    · simp
    · intro e; injection e with e
      exact hD i idx hi hidx hne (hposti y hy) (e ▸ hx)
  have hprevb : (s.node (.buf j)).prev = pb := hlpb.2
  have hnextb : (s.node (.buf j)).next = nb := hlnb.1
  have hN1 := relink_next s (.buf j) idx (by rw [hprevb]; exact e1) (by rw [hprevb]; exact e2)
  have hP1 := relink_prev s (.buf j) idx (by rw [hprevb]; exact e1) (by rw [hprevb]; exact e2)
  rw [hprevb, hnextb] at hN1 hP1
  generalize (s.node (.head idx)).next = h at *
  generalize relink s (.buf j) idx = s1 at *
  refine ⟨fun k hk => ?_, fun k hk => ?_, fun k l hk hl hkl => ?_⟩
  · by_cases hkidx : k = idx
    · subst hkidx
      simp only [Function.update_same, Bucket, List.map_cons, List.cons_append]
      obtain ⟨C1, hC1⟩ : ∃ C1, (L k).map Ptr.buf ++ [Ptr.head k] = h :: C1 := by
        cases hp : (L k).map Ptr.buf ++ [Ptr.head k] with
        | nil => simp at hp
        | cons a t => rw [hp] at hh; simp at hh; exact ⟨t, by rw [hh]⟩
      have hndC := nodup_bufs (hN k hidx) k
      rw [List.chain'_cons, hC1, List.chain'_cons, ← hC1]
      refine ⟨⟨by simp [hN1], by simp [hP1]⟩, ⟨by simp [hN1], by simp [hP1, e4]⟩, ?_⟩
      refine chain_frame s s1 _ hndC hCc (fun u hu hlast => ?_) (fun v hv hfirst => ?_)
      · rw [List.getLast?_concat] at hlast
        rcases mem_bufs hu with rfl | ⟨x, hx, rfl⟩
        · exact absurd rfl hlast
        · have : Ptr.buf x ≠ pb := by
            rcases hpbA with rfl | ⟨y, hy, rfl⟩
            · simp
            · intro e; injection e with e
              exact hD i k hi hidx hne (hprei y hy) (e ▸ hx)
          have hxj : x ≠ j := fun e => hjidx (e ▸ hx)
          simp [hN1, this, hxj]
      · rw [hh] at hfirst
        have hvh : v ≠ h := fun e => hfirst (by rw [e])
        have hvj : v ≠ .buf j := by
          rcases mem_bufs hv with rfl | ⟨x, hx, rfl⟩
          · simp
          · intro e; injection e with e; exact hjidx (e ▸ hx)
        have hvnb : v ≠ nb := by
          rcases mem_bufs hv with rfl | ⟨x, hx, rfl⟩ <;> rcases hnbB with rfl | ⟨y, hy, rfl⟩
          · intro e; injection e with e; exact hne e.symm
          · simp
          · simp
          · intro e; injection e with e
            exact hD i k hi hidx hne (hposti y hy) (e ▸ hx)
        simp [hP1, hvh, hvj, hvnb]
    · simp only [Function.update_noteq hkidx]
      by_cases hki : k = i
      · subst hki
        simp only [Function.update_same, herase, Bucket, List.map_append]
        have : Ptr.head k :: (pre.map Ptr.buf ++ post.map Ptr.buf ++ [Ptr.head k]) =
            (Ptr.head k :: pre.map Ptr.buf) ++ (post.map Ptr.buf ++ [Ptr.head k]) := by simp
        rw [this, List.chain'_append]
        refine ⟨?_, ?_, ?_⟩
        · refine chain_frame s s1 _ (nodup_head_bufs hndpre k) hAc
            (fun u hu hlast => ?_) (fun v hv hfirst => ?_)
          · rw [hpb] at hlast
            have hupb : u ≠ pb := fun e => hlast (by rw [e])
            have huj : u ≠ .buf j := by
              rcases mem_head_bufs hu with rfl | ⟨x, hx, rfl⟩
              · simp
              · intro e; injection e with e; exact hjpre (e ▸ hx)
            have huh : u ≠ .head idx := by
              rcases mem_head_bufs hu with rfl | ⟨x, hx, rfl⟩
              · intro e; injection e with e; exact hne e
              · simp
            simp [hN1, hupb, huj, huh]
          · simp only [List.head?_cons, ne_eq, Option.some.injEq] at hfirst
            rcases mem_head_bufs hv with rfl | ⟨x, hx, rfl⟩
            · exact absurd rfl hfirst
            · have hxj : x ≠ j := fun e => hjpre (e ▸ hx)
              have hvh : Ptr.buf x ≠ h := by
                rcases hhC with rfl | ⟨y, hy, rfl⟩
                · simp
                · intro e; injection e with e
                  exact hD k idx hi hidx hne (hprei x hx) (e ▸ hy)
              have hvnb : Ptr.buf x ≠ nb := by
                rcases hnbB with rfl | ⟨y, hy, rfl⟩
                · simp
                · intro e; injection e with e
                  exact hprepost x hx (e ▸ hy)
              simp [hP1, hxj, hvh, hvnb]
        · refine chain_frame s s1 _ (nodup_bufs hndpost k) hBc
            (fun u hu hlast => ?_) (fun v hv hfirst => ?_)
          · rw [List.getLast?_concat] at hlast
            rcases mem_bufs hu with rfl | ⟨x, hx, rfl⟩
            · exact absurd rfl hlast
            · have hxj : x ≠ j := fun e => hjpost (e ▸ hx)
              have hupb : Ptr.buf x ≠ pb := by
                rcases hpbA with rfl | ⟨y, hy, rfl⟩
                · simp
                · intro e; injection e with e
                  exact hprepost y hy (e ▸ hx)
              simp [hN1, hxj, hupb]
          · rw [hnb] at hfirst
            have hvnb : v ≠ nb := fun e => hfirst (by rw [e])
            have hvj : v ≠ .buf j := by
              rcases mem_bufs hv with rfl | ⟨x, hx, rfl⟩
              · simp
              · intro e; injection e with e; exact hjpost (e ▸ hx)
            have hvh : v ≠ h := by
              rcases mem_bufs hv with rfl | ⟨x, hx, rfl⟩ <;> rcases hhC with rfl | ⟨y, hy, rfl⟩
              · intro e; injection e with e; exact hne e
              · simp
              · simp
              · intro e; injection e with e
                exact hD k idx hi hidx hne (hposti x hx) (e ▸ hy)
            simp [hP1, hvnb, hvj, hvh]
        · intro x hx y hy
          rw [hpb] at hx
          rw [hnb] at hy
          cases hx
          cases hy
          exact ⟨by simp [hN1, e1, e2], by simp [hP1, e3, e5]⟩
      · simp only [Function.update_noteq hki]
        have hmem : ∀ u ∈ Ptr.head k :: ((L k).map Ptr.buf ++ [Ptr.head k]),
            u = .head k ∨ ∃ x, x ∈ L k ∧ u = .buf x := by
          intro u hu
          rcases List.mem_cons.1 hu with h | h
          · exact Or.inl h
          · exact mem_bufs h
        have hkx : ∀ x, x ∈ L k → x ≠ j := fun x hx e => hD k i hk hi hki hx (e ▸ hj)
        refine chain_same s s1 _ (hB k hk) (fun u hu => ?_) (fun v hv => ?_)
        · have hupb : u ≠ pb := by
            rcases hmem u hu with rfl | ⟨x, hx, rfl⟩ <;> rcases hpbA with rfl | ⟨y, hy, rfl⟩
            · intro e; injection e with e; exact hki e
            · simp
            · simp
            · intro e; injection e with e
              exact hD k i hk hi hki hx (e ▸ hprei y hy)
          rcases hmem u hu with rfl | ⟨x, hx, rfl⟩
          · have : Ptr.head k ≠ Ptr.head idx := fun e => by injection e with e; exact hkidx e
            simp [hN1, hupb, this]
          · simp [hN1, hupb, hkx x hx]
        · have hvnb : v ≠ nb := by
            rcases hmem v hv with rfl | ⟨x, hx, rfl⟩ <;> rcases hnbB with rfl | ⟨y, hy, rfl⟩
            · intro e; injection e with e; exact hki e
            · simp
            · simp
            · intro e; injection e with e
              exact hD k i hk hi hki hx (e ▸ hposti y hy)
          have hvh : v ≠ h := by
            rcases hmem v hv with rfl | ⟨x, hx, rfl⟩ <;> rcases hhC with rfl | ⟨y, hy, rfl⟩
            · intro e; injection e with e; exact hkidx e
            · simp
            · simp
            · intro e; injection e with e
              exact hD k idx hk hidx hkidx hx (e ▸ hy)
          rcases hmem v hv with rfl | ⟨x, hx, rfl⟩
          · simp [hP1, hvnb, hvh]
          · simp [hP1, hvnb, hvh, hkx x hx]
  · by_cases hkidx : k = idx
    · subst hkidx
      simp only [Function.update_same]
      exact List.nodup_cons.2 ⟨hjidx, hN k hidx⟩
    · simp only [Function.update_noteq hkidx]
      by_cases hki : k = i
      · subst hki
        simp only [Function.update_same]
        exact (hN k hi).erase j
      · simp only [Function.update_noteq hki]
        exact hN k hk
  · have hsub : ∀ x, x ∈ (L i).erase j → x ∈ L i := fun x hx => List.mem_of_mem_erase hx
    have hjer : j ∉ (L i).erase j := (hN i hi).not_mem_erase
    by_cases hkidx : k = idx
    · have hlidx : l ≠ idx := fun e => hkl (hkidx.trans e.symm)
      subst hkidx
      simp only [Function.update_same, Function.update_noteq hlidx]
      by_cases hli : l = i
      · subst hli
        simp only [Function.update_same]
        intro x hx hx2
        rcases List.mem_cons.1 hx with rfl | hx
        · exact hjer hx2
        · exact hD k l hk hl hkl hx (hsub x hx2)
      · simp only [Function.update_noteq hli]
        intro x hx hx2
        rcases List.mem_cons.1 hx with rfl | hx
        · exact hD i l hi hl (fun e => hli e.symm) hj hx2
        · exact hD k l hk hl hkl hx hx2
    · simp only [Function.update_noteq hkidx]
      by_cases hlidx : l = idx
      · subst hlidx
        simp only [Function.update_same]
        by_cases hki : k = i
        · subst hki
          simp only [Function.update_same]
          intro x hx hx2
          rcases List.mem_cons.1 hx2 with rfl | hx2
          · exact hjer hx
          · exact hD k l hk hl hkl (hsub x hx) hx2
        · simp only [Function.update_noteq hki]
          intro x hx hx2
          rcases List.mem_cons.1 hx2 with rfl | hx2
          · exact hD k i hk hi hki hx hj
          · exact hD k l hk hl hkl hx hx2
      · simp only [Function.update_noteq hlidx]
        by_cases hki : k = i
        · have hli : l ≠ i := fun e => hkl (hki.trans e.symm)
          subst hki
          simp only [Function.update_same, Function.update_noteq hli]
          exact fun x hx hx2 => hD k l hk hl hkl (hsub x hx) hx2
        · simp only [Function.update_noteq hki]
          by_cases hli : l = i
          · subst hli
            simp only [Function.update_same]
            exact fun x hx hx2 => hD k l hk hl hkl hx (hsub x hx2)
          · simp only [Function.update_noteq hli]
            exact hD k l hk hl hkl

theorem setNext_valid (s : State) (p : Ptr) (v : Ptr) (q : Ptr) :
    ((s.setNext p v).node q).valid = (s.node q).valid := by
  by_cases h : q = p
  · subst h; simp [State.setNext]
  · simp [State.setNext, Function.update_noteq h]

theorem setNext_dev (s : State) (p : Ptr) (v : Ptr) (q : Ptr) :
    ((s.setNext p v).node q).dev = (s.node q).dev := by
  by_cases h : q = p
  · subst h; simp [State.setNext]
  · simp [State.setNext, Function.update_noteq h]

theorem setNext_blockno (s : State) (p : Ptr) (v : Ptr) (q : Ptr) :
    ((s.setNext p v).node q).blockno = (s.node q).blockno := by
  by_cases h : q = p
  · subst h; simp [State.setNext]
  · simp [State.setNext, Function.update_noteq h]

theorem setNext_lock (s : State) (p : Ptr) (v : Ptr) (q : Ptr) :
    ((s.setNext p v).node q).lock = (s.node q).lock := by
  by_cases h : q = p
  · subst h; simp [State.setNext]
  · simp [State.setNext, Function.update_noteq h]

theorem setNext_refcnt (s : State) (p : Ptr) (v : Ptr) (q : Ptr) :
    ((s.setNext p v).node q).refcnt = (s.node q).refcnt := by
  by_cases h : q = p
  · subst h; simp [State.setNext]
  · simp [State.setNext, Function.update_noteq h]

theorem setPrev_valid (s : State) (p : Ptr) (v : Ptr) (q : Ptr) :
    ((s.setPrev p v).node q).valid = (s.node q).valid := by
  by_cases h : q = p
  · subst h; simp [State.setPrev]
  · simp [State.setPrev, Function.update_noteq h]

theorem setPrev_dev (s : State) (p : Ptr) (v : Ptr) (q : Ptr) :
    ((s.setPrev p v).node q).dev = (s.node q).dev := by
  by_cases h : q = p
  · subst h; simp [State.setPrev]
  · simp [State.setPrev, Function.update_noteq h]

theorem setPrev_blockno (s : State) (p : Ptr) (v : Ptr) (q : Ptr) :
    ((s.setPrev p v).node q).blockno = (s.node q).blockno := by
  by_cases h : q = p
  · subst h; simp [State.setPrev]
  · simp [State.setPrev, Function.update_noteq h]

theorem setPrev_lock (s : State) (p : Ptr) (v : Ptr) (q : Ptr) :
    ((s.setPrev p v).node q).lock = (s.node q).lock := by
  by_cases h : q = p
  · subst h; simp [State.setPrev]
  · simp [State.setPrev, Function.update_noteq h]

theorem setPrev_refcnt (s : State) (p : Ptr) (v : Ptr) (q : Ptr) :
    ((s.setPrev p v).node q).refcnt = (s.node q).refcnt := by
  by_cases h : q = p
  · subst h; simp [State.setPrev]
  · simp [State.setPrev, Function.update_noteq h]

theorem setRefcnt_valid (s : State) (p : Ptr) (v : Nat) (q : Ptr) :
    ((s.setRefcnt p v).node q).valid = (s.node q).valid := by
  by_cases h : q = p
  · subst h; simp [State.setRefcnt]
  · simp [State.setRefcnt, Function.update_noteq h]

theorem setRefcnt_dev (s : State) (p : Ptr) (v : Nat) (q : Ptr) :
    ((s.setRefcnt p v).node q).dev = (s.node q).dev := by
  by_cases h : q = p
  · subst h; simp [State.setRefcnt]
  · simp [State.setRefcnt, Function.update_noteq h]

theorem setRefcnt_blockno (s : State) (p : Ptr) (v : Nat) (q : Ptr) :
    ((s.setRefcnt p v).node q).blockno = (s.node q).blockno := by
  by_cases h : q = p
  · subst h; simp [State.setRefcnt]
  · simp [State.setRefcnt, Function.update_noteq h]

theorem setRefcnt_lock (s : State) (p : Ptr) (v : Nat) (q : Ptr) :
    ((s.setRefcnt p v).node q).lock = (s.node q).lock := by
  by_cases h : q = p
  · subst h; simp [State.setRefcnt]
  · simp [State.setRefcnt, Function.update_noteq h]

theorem setRefcnt_refcnt (s : State) (p : Ptr) (v : Nat) (q : Ptr) :
    ((s.setRefcnt p v).node q).refcnt = if q = p then v else (s.node q).refcnt := by
  by_cases h : q = p
  · subst h; simp [State.setRefcnt]
  · simp [State.setRefcnt, Function.update_noteq h, h]

theorem setRefcnt_prev (s : State) (p : Ptr) (v : Nat) (q : Ptr) :
    ((s.setRefcnt p v).node q).prev = (s.node q).prev := by
  by_cases h : q = p
  · subst h; simp [State.setRefcnt]
  · simp [State.setRefcnt, Function.update_noteq h]

theorem setRefcnt_next (s : State) (p : Ptr) (v : Nat) (q : Ptr) :
    ((s.setRefcnt p v).node q).next = (s.node q).next := by
  by_cases h : q = p
  · subst h; simp [State.setRefcnt]
  · simp [State.setRefcnt, Function.update_noteq h]

theorem setRefcnt_trace (s : State) (p : Ptr) (v : Nat) :
    (s.setRefcnt p v).trace = s.trace := rfl

theorem setDev_valid (s : State) (p : Ptr) (v : Nat) (q : Ptr) :
    ((s.setDev p v).node q).valid = (s.node q).valid := by
  by_cases h : q = p
  · subst h; simp [State.setDev]
  · simp [State.setDev, Function.update_noteq h]

theorem setDev_dev (s : State) (p : Ptr) (v : Nat) (q : Ptr) :
    ((s.setDev p v).node q).dev = if q = p then v else (s.node q).dev := by
  by_cases h : q = p
  · subst h; simp [State.setDev]
  · simp [State.setDev, Function.update_noteq h, h]

theorem setDev_blockno (s : State) (p : Ptr) (v : Nat) (q : Ptr) :
    ((s.setDev p v).node q).blockno = (s.node q).blockno := by
  by_cases h : q = p
  · subst h; simp [State.setDev]
  · simp [State.setDev, Function.update_noteq h]

theorem setDev_lock (s : State) (p : Ptr) (v : Nat) (q : Ptr) :
    ((s.setDev p v).node q).lock = (s.node q).lock := by
  by_cases h : q = p
  · subst h; simp [State.setDev]
  · simp [State.setDev, Function.update_noteq h]

theorem setDev_refcnt (s : State) (p : Ptr) (v : Nat) (q : Ptr) :
    ((s.setDev p v).node q).refcnt = (s.node q).refcnt := by
  by_cases h : q = p
  · subst h; simp [State.setDev]
  · simp [State.setDev, Function.update_noteq h]

theorem setDev_prev (s : State) (p : Ptr) (v : Nat) (q : Ptr) :
    ((s.setDev p v).node q).prev = (s.node q).prev := by
  by_cases h : q = p
  · subst h; simp [State.setDev]
  · simp [State.setDev, Function.update_noteq h]

theorem setDev_next (s : State) (p : Ptr) (v : Nat) (q : Ptr) :
    ((s.setDev p v).node q).next = (s.node q).next := by
  by_cases h : q = p
  · subst h; simp [State.setDev]
  · simp [State.setDev, Function.update_noteq h]

theorem setDev_trace (s : State) (p : Ptr) (v : Nat) :
    (s.setDev p v).trace = s.trace := rfl

theorem setBlockno_valid (s : State) (p : Ptr) (v : Nat) (q : Ptr) :
    ((s.setBlockno p v).node q).valid = (s.node q).valid := by
  by_cases h : q = p
  · subst h; simp [State.setBlockno]
  · simp [State.setBlockno, Function.update_noteq h]

theorem setBlockno_dev (s : State) (p : Ptr) (v : Nat) (q : Ptr) :
    ((s.setBlockno p v).node q).dev = (s.node q).dev := by
  by_cases h : q = p
  · subst h; simp [State.setBlockno]
  · simp [State.setBlockno, Function.update_noteq h]

theorem setBlockno_blockno (s : State) (p : Ptr) (v : Nat) (q : Ptr) :
    ((s.setBlockno p v).node q).blockno = if q = p then v else (s.node q).blockno := by
  by_cases h : q = p
  · subst h; simp [State.setBlockno]
  · simp [State.setBlockno, Function.update_noteq h, h]

theorem setBlockno_lock (s : State) (p : Ptr) (v : Nat) (q : Ptr) :
    ((s.setBlockno p v).node q).lock = (s.node q).lock := by
  by_cases h : q = p
  · subst h; simp [State.setBlockno]
  · simp [State.setBlockno, Function.update_noteq h]

theorem setBlockno_refcnt (s : State) (p : Ptr) (v : Nat) (q : Ptr) :
    ((s.setBlockno p v).node q).refcnt = (s.node q).refcnt := by
  by_cases h : q = p
  · subst h; simp [State.setBlockno]
  · simp [State.setBlockno, Function.update_noteq h]

theorem setBlockno_prev (s : State) (p : Ptr) (v : Nat) (q : Ptr) :
    ((s.setBlockno p v).node q).prev = (s.node q).prev := by
  by_cases h : q = p
  · subst h; simp [State.setBlockno]
  · simp [State.setBlockno, Function.update_noteq h]

theorem setBlockno_next (s : State) (p : Ptr) (v : Nat) (q : Ptr) :
    ((s.setBlockno p v).node q).next = (s.node q).next := by
  by_cases h : q = p
  · subst h; simp [State.setBlockno]
  · simp [State.setBlockno, Function.update_noteq h]

theorem setBlockno_trace (s : State) (p : Ptr) (v : Nat) :
    (s.setBlockno p v).trace = s.trace := rfl

theorem setValid_valid (s : State) (p : Ptr) (v : Nat) (q : Ptr) :
    ((s.setValid p v).node q).valid = if q = p then v else (s.node q).valid := by
  by_cases h : q = p
  · subst h; simp [State.setValid]
  · simp [State.setValid, Function.update_noteq h, h]

theorem setValid_dev (s : State) (p : Ptr) (v : Nat) (q : Ptr) :
    ((s.setValid p v).node q).dev = (s.node q).dev := by
  by_cases h : q = p
  · subst h; simp [State.setValid]
  · simp [State.setValid, Function.update_noteq h]

theorem setValid_blockno (s : State) (p : Ptr) (v : Nat) (q : Ptr) :
    ((s.setValid p v).node q).blockno = (s.node q).blockno := by
  by_cases h : q = p
  · subst h; simp [State.setValid]
  · simp [State.setValid, Function.update_noteq h]

theorem setValid_lock (s : State) (p : Ptr) (v : Nat) (q : Ptr) :
    ((s.setValid p v).node q).lock = (s.node q).lock := by
  by_cases h : q = p
  · subst h; simp [State.setValid]
  · simp [State.setValid, Function.update_noteq h]

theorem setValid_refcnt (s : State) (p : Ptr) (v : Nat) (q : Ptr) :
    ((s.setValid p v).node q).refcnt = (s.node q).refcnt := by
  by_cases h : q = p
  · subst h; simp [State.setValid]
  · simp [State.setValid, Function.update_noteq h]

theorem setValid_prev (s : State) (p : Ptr) (v : Nat) (q : Ptr) :
    ((s.setValid p v).node q).prev = (s.node q).prev := by
  by_cases h : q = p
  · subst h; simp [State.setValid]
  · simp [State.setValid, Function.update_noteq h]

theorem setValid_next (s : State) (p : Ptr) (v : Nat) (q : Ptr) :
    ((s.setValid p v).node q).next = (s.node q).next := by
  by_cases h : q = p
  · subst h; simp [State.setValid]
  · simp [State.setValid, Function.update_noteq h]

theorem setValid_trace (s : State) (p : Ptr) (v : Nat) :
    (s.setValid p v).trace = s.trace := rfl

theorem setLock_valid (s : State) (p : Ptr) (v : Option Nat) (q : Ptr) :
    ((s.setLock p v).node q).valid = (s.node q).valid := by
  by_cases h : q = p
  · subst h; simp [State.setLock]
  · simp [State.setLock, Function.update_noteq h]

theorem setLock_dev (s : State) (p : Ptr) (v : Option Nat) (q : Ptr) :
    ((s.setLock p v).node q).dev = (s.node q).dev := by
  by_cases h : q = p
  · subst h; simp [State.setLock]
  · simp [State.setLock, Function.update_noteq h]

theorem setLock_blockno (s : State) (p : Ptr) (v : Option Nat) (q : Ptr) :
    ((s.setLock p v).node q).blockno = (s.node q).blockno := by
  by_cases h : q = p
  · subst h; simp [State.setLock]
  · simp [State.setLock, Function.update_noteq h]

theorem setLock_lock (s : State) (p : Ptr) (v : Option Nat) (q : Ptr) :
    ((s.setLock p v).node q).lock = if q = p then v else (s.node q).lock := by
  by_cases h : q = p
  · subst h; simp [State.setLock]
  · simp [State.setLock, Function.update_noteq h, h]

theorem setLock_refcnt (s : State) (p : Ptr) (v : Option Nat) (q : Ptr) :
    ((s.setLock p v).node q).refcnt = (s.node q).refcnt := by
  by_cases h : q = p
  · subst h; simp [State.setLock]
  · simp [State.setLock, Function.update_noteq h]

theorem setLock_prev (s : State) (p : Ptr) (v : Option Nat) (q : Ptr) :
    ((s.setLock p v).node q).prev = (s.node q).prev := by
  by_cases h : q = p
  · subst h; simp [State.setLock]
  · simp [State.setLock, Function.update_noteq h]

theorem setLock_next (s : State) (p : Ptr) (v : Option Nat) (q : Ptr) :
    ((s.setLock p v).node q).next = (s.node q).next := by
  by_cases h : q = p
  · subst h; simp [State.setLock]
  · simp [State.setLock, Function.update_noteq h]

theorem setLock_trace (s : State) (p : Ptr) (v : Option Nat) :
    (s.setLock p v).trace = s.trace := rfl

theorem setNext_trace (s : State) (p v : Ptr) : (s.setNext p v).trace = s.trace := rfl

theorem setPrev_trace (s : State) (p v : Ptr) : (s.setPrev p v).trace = s.trace := rfl

/-- Bucket lists only depend on the list pointers. -/
theorem Lists.congr_links {NBUCKET : Nat} {s s1 : State} {L : Nat → List Nat}
    (h : Lists NBUCKET s L)
    (hn : ∀ p, (s1.node p).next = (s.node p).next)
    (hp : ∀ p, (s1.node p).prev = (s.node p).prev) : Lists NBUCKET s1 L :=
  ⟨fun i hi => chain_same s s1 _ (h.1 i hi) (fun u _ => hn u) (fun v _ => hp v), h.2.1, h.2.2⟩

/-- One iteration of the second loop of `binit`: a buffer that is in no list
is inserted at the front of bucket 0. -/
theorem insert_lists (NBUCKET : Nat) (s : State) (L : Nat → List Nat) (j : Nat)
    (hL : Lists NBUCKET s L) (h0 : 0 < NBUCKET) (hj : ∀ k, k < NBUCKET → j ∉ L k) :
    Lists NBUCKET
      (((((s.setNext (.buf j) (s.node (.head 0)).next).setPrev (.buf j) (.head 0)).setLock
        (.buf j) none).setPrev (s.node (.head 0)).next (.buf j)).setNext (.head 0) (.buf j))
      (Function.update L 0 (j :: L 0)) := by
  obtain ⟨hB, hN, hD⟩ := hL
  obtain ⟨hh, hCc⟩ := (hB 0 h0).head_next
  have hhC := mem_bufs (List.mem_of_mem_head? hh)
  have e4 : (s.node (.head 0)).next ≠ .buf j := by
    rcases hhC with e | ⟨x, hx, e⟩ <;> rw [e]
    · simp
    · intro e; injection e with e; exact hj 0 h0 (e ▸ hx)
  have hN1 : ∀ p, ((((((s.setNext (.buf j) (s.node (.head 0)).next).setPrev (.buf j)
      (.head 0)).setLock (.buf j) none).setPrev (s.node (.head 0)).next (.buf j)).setNext
      (.head 0) (.buf j)).node p).next =
      if p = .head 0 then .buf j else if p = .buf j then (s.node (.head 0)).next
      else (s.node p).next := by
    intro p
    simp only [setNext_next, setPrev_next, setLock_next]
  have hP1 : ∀ p, ((((((s.setNext (.buf j) (s.node (.head 0)).next).setPrev (.buf j)
      (.head 0)).setLock (.buf j) none).setPrev (s.node (.head 0)).next (.buf j)).setNext
      (.head 0) (.buf j)).node p).prev =
      if p = (s.node (.head 0)).next then .buf j else if p = .buf j then .head 0
      else (s.node p).prev := by
    intro p
    simp only [setNext_prev, setPrev_prev, setLock_prev]
  generalize (s.node (.head 0)).next = h at *
  generalize (((((s.setNext (.buf j) h).setPrev (.buf j) (.head 0)).setLock
    (.buf j) none).setPrev h (.buf j)).setNext (.head 0) (.buf j)) = s1 at *
  refine ⟨fun k hk => ?_, fun k hk => ?_, fun k l hk hl hkl => ?_⟩
  · by_cases hk0 : k = 0
    · subst hk0
      simp only [Function.update_same, Bucket, List.map_cons, List.cons_append]
      obtain ⟨C1, hC1⟩ : ∃ C1, (L 0).map Ptr.buf ++ [Ptr.head 0] = h :: C1 := by
        cases hp : (L 0).map Ptr.buf ++ [Ptr.head 0] with
        | nil => simp at hp
        | cons a t => rw [hp] at hh; simp at hh; exact ⟨t, by rw [hh]⟩
      have hndC := nodup_bufs (hN 0 h0) 0
      rw [List.chain'_cons, hC1, List.chain'_cons, ← hC1]
      refine ⟨⟨by simp [hN1], by simp [hP1, e4.symm]⟩, ⟨by simp [hN1], by simp [hP1]⟩, ?_⟩
      refine chain_frame s s1 _ hndC hCc (fun u hu hlast => ?_) (fun v hv hfirst => ?_)
      · rw [List.getLast?_concat] at hlast
        rcases mem_bufs hu with rfl | ⟨x, hx, rfl⟩
        · exact absurd rfl hlast
        · have hxj : x ≠ j := fun e => hj 0 h0 (e ▸ hx)
          simp [hN1, hxj]
      · rw [hh] at hfirst
        have hvh : v ≠ h := fun e => hfirst (by rw [e])
        have hvj : v ≠ .buf j := by
          rcases mem_bufs hv with rfl | ⟨x, hx, rfl⟩
          · simp
          · intro e; injection e with e; exact hj 0 h0 (e ▸ hx)
        simp [hP1, hvh, hvj]
    · simp only [Function.update_noteq hk0]
      have hmem : ∀ u ∈ Ptr.head k :: ((L k).map Ptr.buf ++ [Ptr.head k]),
          u = .head k ∨ ∃ x, x ∈ L k ∧ u = .buf x := by
        intro u hu
        rcases List.mem_cons.1 hu with h | h
        · exact Or.inl h
        · exact mem_bufs h
      refine chain_same s s1 _ (hB k hk) (fun u hu => ?_) (fun v hv => ?_)
      · rcases hmem u hu with rfl | ⟨x, hx, rfl⟩
        · have : Ptr.head k ≠ Ptr.head 0 := fun e => by injection e with e; exact hk0 e
          simp [hN1, this]
        · have hxj : x ≠ j := fun e => hj k hk (e ▸ hx)
          simp [hN1, hxj]
      · have hvh : v ≠ h := by
          rcases hmem v hv with rfl | ⟨x, hx, rfl⟩ <;> rcases hhC with rfl | ⟨y, hy, rfl⟩
          · intro e; injection e with e; exact hk0 e
          · simp
          · simp
          · intro e; injection e with e
            exact hD k 0 hk h0 hk0 hx (e ▸ hy)
        rcases hmem v hv with rfl | ⟨x, hx, rfl⟩
        · simp [hP1, hvh]
        · have hxj : x ≠ j := fun e => hj k hk (e ▸ hx)
          simp [hP1, hvh, hxj]
  · by_cases hk0 : k = 0
    · subst hk0
      simp only [Function.update_same]
      exact List.nodup_cons.2 ⟨hj 0 h0, hN 0 h0⟩
    · simp only [Function.update_noteq hk0]
      exact hN k hk
  · by_cases hk0 : k = 0
    · have hl0 : l ≠ 0 := fun e => hkl (hk0.trans e.symm)
      subst hk0
      simp only [Function.update_same, Function.update_noteq hl0]
      intro x hx hx2
      rcases List.mem_cons.1 hx with rfl | hx
      · exact hj l hl hx2
      · exact hD 0 l hk hl hkl hx hx2
    · simp only [Function.update_noteq hk0]
      by_cases hl0 : l = 0
      · subst hl0
        simp only [Function.update_same]
        intro x hx hx2
        rcases List.mem_cons.1 hx2 with rfl | hx2
        · exact hj k hk hx
        · exact hD k 0 hk hl hkl hx hx2
      · simp only [Function.update_noteq hl0]
        exact hD k l hk hl hkl

theorem data_eq_iff (a b : Buf) :
    a.data = b.data ↔ a.valid = b.valid ∧ a.dev = b.dev ∧ a.blockno = b.blockno ∧
      a.lock = b.lock ∧ a.refcnt = b.refcnt := by
  cases a; cases b
  simp [Buf.data]

theorem binitHeads_next : ∀ (is : List Nat) (s : State) (p : Ptr),
    ((binitHeads is s).node p).next =
      if (∃ i ∈ is, p = .head i) then p else (s.node p).next
  | [], s, p => by simp [binitHeads]
  | i :: is, s, p => by
    simp only [binitHeads, binitHeads_next is, setPrev_next, setNext_next, List.mem_cons,
      exists_eq_or_imp]
    by_cases h1 : ∃ a ∈ is, p = .head a
    · simp [h1]
    · by_cases h2 : p = .head i
      · simp [h2]
      · simp [h1, h2]

theorem binitHeads_prev : ∀ (is : List Nat) (s : State) (p : Ptr),
    ((binitHeads is s).node p).prev =
      if (∃ i ∈ is, p = .head i) then p else (s.node p).prev
  | [], s, p => by simp [binitHeads]
  | i :: is, s, p => by
    simp only [binitHeads, binitHeads_prev is, setPrev_prev, setNext_prev, List.mem_cons,
      exists_eq_or_imp]
    by_cases h1 : ∃ a ∈ is, p = .head a
    · simp [h1]
    · by_cases h2 : p = .head i
      · simp [h2]
      · simp [h1, h2]

theorem binitHeads_data : ∀ (is : List Nat) (s : State) (p : Ptr),
    ((binitHeads is s).node p).data = (s.node p).data
  | [], s, p => rfl
  | i :: is, s, p => by
    simp only [binitHeads, binitHeads_data is, setPrev_data, setNext_data]

theorem binitHeads_trace : ∀ (is : List Nat) (s : State), (binitHeads is s).trace = s.trace
  | [], s => rfl
  | i :: is, s => by
    simp only [binitHeads, binitHeads_trace is, setPrev_trace, setNext_trace]

theorem binitBufs_lists (NBUCKET : Nat) (h0 : 0 < NBUCKET) :
    ∀ (js : List Nat) (s : State) (L : Nat → List Nat), Lists NBUCKET s L → js.Nodup →
    (∀ j ∈ js, ∀ k, k < NBUCKET → j ∉ L k) →
    Lists NBUCKET (binitBufs js s) (Function.update L 0 (js.reverse ++ L 0))
  | [], s, L, hL, _, _ => by simpa [binitBufs] using hL
  | j :: js, s, L, hL, hnd, hfresh => by
    have h1 := insert_lists NBUCKET s L j hL h0 (hfresh j (List.mem_cons_self _ _))
    have hjs : j ∉ js := (List.nodup_cons.1 hnd).1
    have h2 := binitBufs_lists NBUCKET h0 js _ _ h1 (List.nodup_cons.1 hnd).2 (by
      intro x hx k hk
      by_cases hk0 : k = 0
      · subst hk0
        simp only [Function.update_same, List.mem_cons, not_or]
        exact ⟨fun e => hjs (e ▸ hx), hfresh x (List.mem_cons_of_mem _ hx) 0 hk⟩
      · simp only [Function.update_noteq hk0]
        exact hfresh x (List.mem_cons_of_mem _ hx) k hk)
    simp only [Function.update_same, Function.update_idem] at h2
    simpa [binitBufs, setLock_next, setPrev_next, setNext_next] using h2

theorem binitBufs_fields : ∀ (js : List Nat) (s : State) (p : Ptr),
    ((binitBufs js s).node p).valid = (s.node p).valid ∧
    ((binitBufs js s).node p).dev = (s.node p).dev ∧
    ((binitBufs js s).node p).blockno = (s.node p).blockno ∧
    ((binitBufs js s).node p).refcnt = (s.node p).refcnt ∧
    ((s.node p).lock = none → ((binitBufs js s).node p).lock = none)
  | [], s, p => by simp [binitBufs]
  | j :: js, s, p => by
    obtain ⟨h1, h2, h3, h4, h5⟩ := binitBufs_fields js
      (((((s.setNext (.buf j) (s.node (.head 0)).next).setPrev (.buf j) (.head 0)).setLock
        (.buf j) none).setPrev (((s.setNext (.buf j) (s.node (.head 0)).next).setPrev (.buf j)
        (.head 0)).setLock (.buf j) none |>.node (.head 0)).next (.buf j)).setNext (.head 0)
        (.buf j)) p
    simp only [setNext_valid, setPrev_valid, setLock_valid, setNext_dev, setPrev_dev,
      setLock_dev, setNext_blockno, setPrev_blockno, setLock_blockno, setNext_refcnt,
      setPrev_refcnt, setLock_refcnt, setNext_lock, setPrev_lock, setLock_lock] at h1 h2 h3 h4 h5
    refine ⟨h1, h2, h3, h4, fun hl => h5 ?_⟩
    split <;> simp [hl]

theorem binitBufs_trace : ∀ (js : List Nat) (s : State), (binitBufs js s).trace = s.trace
  | [], s => rfl
  | j :: js, s => by
    simp only [binitBufs, binitBufs_trace js, setPrev_trace, setNext_trace, setLock_trace]

/-- After `binit` every buffer is in bucket 0, the buckets are well formed,
and every buffer is zeroed: identity `(0, 0)`, not valid, unused, unlocked. -/
theorem binit_wf (NBUF NBUCKET : Nat) (h0 : 0 < NBUCKET) :
    Wf NBUF NBUCKET (binit NBUF NBUCKET) (initLists NBUF) ∧
    (∀ p, ((binit NBUF NBUCKET).node p).data = (zeroState.node p).data) ∧
    (binit NBUF NBUCKET).trace = [] := by
  have hH : Lists NBUCKET (binitHeads (List.range NBUCKET) zeroState) (fun _ => []) := by
    refine ⟨fun i hi => ?_, fun _ _ => List.nodup_nil, fun _ _ _ _ _ => by simp [List.Disjoint]⟩
    simp only [Bucket, List.map_nil, List.nil_append, List.chain'_cons, List.chain'_singleton,
      and_true, Link, binitHeads_next, binitHeads_prev]
    have : ∃ k ∈ List.range NBUCKET, Ptr.head i = Ptr.head k := ⟨i, List.mem_range.2 hi, rfl⟩
    exact ⟨if_pos this, if_pos this⟩
  have hL := binitBufs_lists NBUCKET h0 (List.range NBUF) _ _ hH (List.nodup_range _)
    (fun _ _ _ _ => by simp)
  have hLe : Function.update (fun _ => ([] : List Nat)) 0 ((List.range NBUF).reverse ++ []) =
      initLists NBUF := by
    funext i
    by_cases hi : i = 0
    · subst hi; simp [initLists]
    · simp [initLists, hi, Function.update_noteq hi]
  rw [hLe] at hL
  refine ⟨⟨hL, fun i _ j hj => ?_, fun j hj => ⟨0, h0, ?_⟩⟩, fun p => ?_, ?_⟩
  · by_cases hi : i = 0
    · subst hi
      simpa [initLists] using hj
    · simp [initLists, hi] at hj
  · simpa [initLists] using hj
  · obtain ⟨h1, h2, h3, h4, h5⟩ := binitBufs_fields (List.range NBUF)
      (binitHeads (List.range NBUCKET) zeroState) p
    have hd := binitHeads_data (List.range NBUCKET) zeroState p
    rw [data_eq_iff] at hd ⊢
    obtain ⟨d1, d2, d3, d4, d5⟩ := hd
    refine ⟨?_, ?_, ?_, ?_, ?_⟩
    · rw [← d1]; exact h1
    · rw [← d2]; exact h2
    · rw [← d3]; exact h3
    · exact (h5 (by rw [d4]; rfl)).trans rfl
    · rw [← d5]; exact h4
  · simp only [binit, binitBufs_trace, binitHeads_trace]
    rfl

theorem Wf.length_le {NBUF NBUCKET : Nat} {s : State} {L : Nat → List Nat}
    (h : Wf NBUF NBUCKET s L) {i : Nat} (hi : i < NBUCKET) : (L i).length ≤ NBUF := by
  have hsub : L i ⊆ List.range NBUF := fun j hj => List.mem_range.2 (h.2.1 i hi j hj)
  simpa using ((h.1.2.1 i hi).subperm hsub).length_le

theorem Lists.of_node_eq {NBUCKET : Nat} {s s1 : State} {L : Nat → List Nat}
    (h : Lists NBUCKET s L) (e : s1.node = s.node) : Lists NBUCKET s1 L :=
  h.congr_links (fun p => by rw [e]) (fun p => by rw [e])

theorem hash_lt (NBUCKET : Nat) (h0 : 0 < NBUCKET) (x : Int) (hx : 0 ≤ hash_fn NBUCKET x) :
    (hash_fn NBUCKET x).toNat < NBUCKET := by
  have h1 : Int.tmod x NBUCKET < NBUCKET := Int.tmod_lt_of_pos x (by exact_mod_cast h0)
  unfold hash_fn at hx ⊢
  omega

/-- The steal loop finds nothing: every bucket it visits has no unused
buffer, and `bget` calls `panic`. -/
theorem bgetSteal_abort (fuel pid dev blockno idx NBUCKET : Nat) (L : Nat → List Nat) :
    ∀ (is : List Nat) (s : State), Lists NBUCKET s L → (∀ i ∈ is, i < NBUCKET) →
    (∀ i ∈ is, (L i).length < fuel) →
    (∀ i ∈ is, i ≠ idx → ∀ j ∈ L i, isFree s (.buf j) = false) →
    ∃ s1, bgetSteal fuel pid dev blockno idx is s = .abort "bget: no buffers" s1 ∧
      s1.node = s.node ∧ ∃ t, s1.trace = s.trace ++ t ∧ ∀ e ∈ t, e.isSpin = true
  | [], s, _, _, _, _ => ⟨s, rfl, rfl, [], by simp, by simp⟩
  | i :: is, s, hL, hlt, hfuel, hfree => by
    by_cases hi : i = idx
    · obtain ⟨s1, e, hn, ht⟩ := bgetSteal_abort fuel pid dev blockno idx NBUCKET L is s hL
        (fun k hk => hlt k (List.mem_cons_of_mem _ hk))
        (fun k hk => hfuel k (List.mem_cons_of_mem _ hk))
        (fun k hk => hfree k (List.mem_cons_of_mem _ hk))
      exact ⟨s1, by simp only [bgetSteal, hi, ↓reduceIte, e], hn, ht⟩
    · have hsc := scan_next s (fun b => (s.node b).refcnt == 0) i (L i) (.head i) fuel
        (hL.1 i (hlt i (List.mem_cons_self _ _))) (hfuel i (List.mem_cons_self _ _))
      have hnone : (L i).find? (fun j => (s.node (.buf j)).refcnt == 0) = none := by
        rw [List.find?_eq_none]
        intro j hj
        have := hfree i (List.mem_cons_self _ _) hi j hj
        simpa [isFree] using this
      rw [hnone] at hsc
      obtain ⟨s1, e, hn, t, ht, hsp⟩ := bgetSteal_abort fuel pid dev blockno idx NBUCKET L is
        (((((s.log (.release idx)).log (.acquire (if i < idx then i else idx))).log
          (.acquire (if i < idx then idx else i)))).log (.release i))
        (hL.of_node_eq rfl)
        (fun k hk => hlt k (List.mem_cons_of_mem _ hk))
        (fun k hk => hfuel k (List.mem_cons_of_mem _ hk))
        (fun k hk => hfree k (List.mem_cons_of_mem _ hk))
      refine ⟨s1, ?_, hn, ?_⟩
      · simp only [bgetSteal, hi, ↓reduceIte, log_node, hsc, Option.map_none']
        exact e
      · refine ⟨_, (by rw [ht]; simp only [State.log, List.append_assoc]; rfl), ?_⟩
        intro e he
        simp only [List.mem_append, List.mem_singleton] at he
        rcases he with rfl | rfl | rfl | rfl | he
        · rfl
        · rfl
        · rfl
        · rfl
        · exact hsp e he

/-- The steal loop finds an unused buffer `j`, the first of the first bucket
`i` that has one: it is moved to bucket `idx` and given the new identity. -/
theorem bgetSteal_found (fuel pid dev blockno idx NBUCKET : Nat) (L : Nat → List Nat)
    (i j : Nat) (post : List Nat) :
    ∀ (pre : List Nat) (s : State), Lists NBUCKET s L →
    (∀ k ∈ pre ++ i :: post, k < NBUCKET) →
    (∀ k ∈ pre ++ i :: post, (L k).length < fuel) →
    (∀ k ∈ pre, k ≠ idx → ∀ x ∈ L k, isFree s (.buf x) = false) →
    i ≠ idx → (L i).find? (fun x => isFree s (.buf x)) = some j →
    ∃ s1, s1.node = s.node ∧ (∃ t, s1.trace = s.trace ++ t ∧ ∀ e ∈ t, e.isSpin = true) ∧
      bgetSteal fuel pid dev blockno idx (pre ++ i :: post) s =
        acquiresleep (((reinit (relink s1 (.buf j) idx) (.buf j) dev blockno).log
          (.release i)).log (.release idx)) pid (.buf j)
  | [], s, hL, hlt, hfuel, _, hi, hfind => by
    have hsc := scan_next s (fun b => (s.node b).refcnt == 0) i (L i) (.head i) fuel
      (hL.1 i (hlt i (List.mem_cons_self _ _))) (hfuel i (List.mem_cons_self _ _))
    have hf2 : (L i).find? (fun x => (s.node (.buf x)).refcnt == 0) = some j := hfind
    rw [hf2] at hsc
    refine ⟨((s.log (.release idx)).log (.acquire (if i < idx then i else idx))).log
      (.acquire (if i < idx then idx else i)), rfl, ⟨[.release idx,
        .acquire (if i < idx then i else idx), .acquire (if i < idx then idx else i)],
        (by simp only [State.log, List.append_assoc]; rfl), (by
          intro e he
          simp only [List.mem_cons, List.mem_singleton, List.not_mem_nil, or_false] at he
          rcases he with rfl | rfl | rfl <;> rfl)⟩, ?_⟩
    simp only [List.nil_append, bgetSteal, hi, ↓reduceIte, log_node, hsc, Option.map_some']
  | k :: pre, s, hL, hlt, hfuel, hfree, hi, hfind => by
    by_cases hk : k = idx
    · obtain ⟨s1, hn, ht, e⟩ := bgetSteal_found fuel pid dev blockno idx NBUCKET L i j post
        pre s hL (fun x hx => hlt x (List.mem_cons_of_mem _ hx))
        (fun x hx => hfuel x (List.mem_cons_of_mem _ hx))
        (fun x hx => hfree x (List.mem_cons_of_mem _ hx)) hi hfind
      refine ⟨s1, hn, ht, ?_⟩
      rw [List.cons_append, bgetSteal, if_pos hk]
      exact e
    · have hsc := scan_next s (fun b => (s.node b).refcnt == 0) k (L k) (.head k) fuel
        (hL.1 k (hlt k (List.mem_cons_self _ _))) (hfuel k (List.mem_cons_self _ _))
      have hnone : (L k).find? (fun j => (s.node (.buf j)).refcnt == 0) = none := by
        rw [List.find?_eq_none]
        intro x hx
        have := hfree k (List.mem_cons_self _ _) hk x hx
        simpa [isFree] using this
      rw [hnone] at hsc
      obtain ⟨s1, hn, ⟨t, ht, hsp⟩, e⟩ := bgetSteal_found fuel pid dev blockno idx NBUCKET L i j post
        pre (((((s.log (.release idx)).log (.acquire (if k < idx then k else idx))).log
          (.acquire (if k < idx then idx else k)))).log (.release k))
        (hL.of_node_eq rfl) (fun x hx => hlt x (List.mem_cons_of_mem _ hx))
        (fun x hx => hfuel x (List.mem_cons_of_mem _ hx))
        (fun x hx => hfree x (List.mem_cons_of_mem _ hx)) hi hfind
      refine ⟨s1, hn, ⟨_, (by rw [ht]; simp only [State.log, List.append_assoc]; rfl), (by
        intro e he
        simp only [List.mem_append, List.mem_singleton] at he
        rcases he with rfl | rfl | rfl | rfl | he
        · rfl
        · rfl
        · rfl
        · rfl
        · exact hsp e he)⟩, ?_⟩
      rw [List.cons_append, bgetSteal, if_neg hk]
      simp only [log_node, hsc, Option.map_none']
      exact e

theorem find?_unique {α : Type} (p : α → Bool) : ∀ (l : List α) (j : α), j ∈ l → p j = true →
    (∀ x ∈ l, x ≠ j → p x = false) → l.find? p = some j
  | [], _, h, _, _ => by simp at h
  | a :: l, j, h, hp, hu => by
    by_cases ha : a = j
    · subst ha; simp [hp]
    · have hj : j ∈ l := by
        rcases List.mem_cons.1 h with e | e
        · exact absurd e.symm ha
        · exact e
      rw [List.find?_cons, hu a (List.mem_cons_self _ _) ha]
      exact find?_unique p l j hj hp (fun x hx => hu x (List.mem_cons_of_mem _ hx))

theorem Wf.congr_wf {NBUF NBUCKET : Nat} {s s1 : State} {L : Nat → List Nat}
    (h : Wf NBUF NBUCKET s L)
    (hn : ∀ p, (s1.node p).next = (s.node p).next)
    (hp : ∀ p, (s1.node p).prev = (s.node p).prev) : Wf NBUF NBUCKET s1 L :=
  ⟨h.1.congr_links hn hp, h.2⟩

theorem bucketOf_lt (NBUCKET blockno : Nat) (h0 : 0 < NBUCKET)
    (hh : 0 ≤ hash_fn NBUCKET (toInt blockno)) : bucketOf NBUCKET blockno < NBUCKET :=
  hash_lt NBUCKET h0 _ hh

theorem reinit_next (s : State) (b : Ptr) (dev blockno : Nat) (p : Ptr) :
    ((reinit s b dev blockno).node p).next = (s.node p).next := by
  simp only [reinit, setRefcnt_next, setValid_next, setBlockno_next, setDev_next]

theorem reinit_prev (s : State) (b : Ptr) (dev blockno : Nat) (p : Ptr) :
    ((reinit s b dev blockno).node p).prev = (s.node p).prev := by
  simp only [reinit, setRefcnt_prev, setValid_prev, setBlockno_prev, setDev_prev]

theorem reinit_trace (s : State) (b : Ptr) (dev blockno : Nat) :
    (reinit s b dev blockno).trace = s.trace := rfl

theorem reinit_other (s : State) (b : Ptr) (dev blockno : Nat) (p : Ptr) (h : p ≠ b) :
    ((reinit s b dev blockno).node p).data = (s.node p).data := by
  rw [data_eq_iff]
  simp only [reinit, setRefcnt_valid, setValid_valid, setBlockno_valid, setDev_valid,
    setRefcnt_dev, setValid_dev, setBlockno_dev, setDev_dev, setRefcnt_blockno,
    setValid_blockno, setBlockno_blockno, setDev_blockno, setRefcnt_lock, setValid_lock,
    setBlockno_lock, setDev_lock, setRefcnt_refcnt, setValid_refcnt, setBlockno_refcnt,
    setDev_refcnt, h, ↓reduceIte, and_self]

theorem reinit_self (s : State) (b : Ptr) (dev blockno : Nat) :
    ((reinit s b dev blockno).node b).dev = dev ∧
    ((reinit s b dev blockno).node b).blockno = blockno ∧
    ((reinit s b dev blockno).node b).valid = 0 ∧
    ((reinit s b dev blockno).node b).refcnt = 1 ∧
    ((reinit s b dev blockno).node b).lock = (s.node b).lock := by
  simp only [reinit, setRefcnt_valid, setValid_valid, setBlockno_valid, setDev_valid,
    setRefcnt_dev, setValid_dev, setBlockno_dev, setDev_dev, setRefcnt_blockno,
    setValid_blockno, setBlockno_blockno, setDev_blockno, setRefcnt_lock, setValid_lock,
    setBlockno_lock, setDev_lock, setRefcnt_refcnt, setValid_refcnt, setBlockno_refcnt,
    setDev_refcnt, ↓reduceIte, and_self]

/-- The first loop of `bget` finds buffer `j`: a hit. -/
theorem bget_hit (NBUF NBUCKET fuel : Nat) (s : State) (pid dev blockno : Nat)
    (L : Nat → List Nat) (j : Nat) (hwf : Wf NBUF NBUCKET s L) (h0 : 0 < NBUCKET)
    (hh : 0 ≤ hash_fn NBUCKET (toInt blockno)) (hfuel : NBUF < fuel)
    (hfind : (L (bucketOf NBUCKET blockno)).find? (fun x => isCached s dev blockno (.buf x)) =
      some j) :
    bget NBUCKET fuel s pid dev blockno =
      acquiresleep (((s.log (.acquire (bucketOf NBUCKET blockno))).setRefcnt (.buf j)
        (((s.node (.buf j)).refcnt + 1) % UINT)).log (.release (bucketOf NBUCKET blockno)))
        pid (.buf j) ∧
    Selected NBUF NBUCKET s L dev blockno j
      (((s.log (.acquire (bucketOf NBUCKET blockno))).setRefcnt (.buf j)
        (((s.node (.buf j)).refcnt + 1) % UINT)).log (.release (bucketOf NBUCKET blockno))) L := by
  have hidx := bucketOf_lt NBUCKET blockno h0 hh
  have hsc := scan_next s (fun b => isCached s dev blockno b) (bucketOf NBUCKET blockno)
    (L (bucketOf NBUCKET blockno)) (.head (bucketOf NBUCKET blockno)) fuel (hwf.1.1 _ hidx)
    (lt_of_le_of_lt (hwf.length_le hidx) hfuel)
  rw [hfind] at hsc
  have hjmem := List.mem_of_find?_eq_some hfind
  have hjc := List.find?_some hfind
  simp only [isCached, Bool.and_eq_true, beq_iff_eq] at hjc
  constructor
  · unfold isCached at hsc
    simp only [bget, not_lt.2 hh, ↓reduceIte, log_node]
    unfold bucketOf at hsc
    simp only [hsc, Option.map_some']
    rfl
  · refine ⟨hwf.2.1 _ hidx j hjmem, hwf.congr_wf (fun p => ?_) (fun p => ?_),
      ⟨[.acquire (bucketOf NBUCKET blockno), .release (bucketOf NBUCKET blockno)], ?_, ?_⟩,
      fun p hp => ?_, ?_, ?_, ?_, ?_, Or.inl ⟨hfind, rfl, ?_, ?_⟩⟩
    · simp only [log_node, setRefcnt_next]
    · simp only [log_node, setRefcnt_prev]
    · simp only [State.log, setRefcnt_trace, List.append_assoc]; rfl
    · intro e he
      simp only [List.mem_cons, List.mem_singleton, List.not_mem_nil, or_false] at he
      rcases he with rfl | rfl <;> rfl
    · rw [data_eq_iff]
      simp only [log_node, setRefcnt_valid, setRefcnt_dev, setRefcnt_blockno, setRefcnt_lock,
        setRefcnt_refcnt, hp, ↓reduceIte, and_self]
    · simp only [log_node, setRefcnt_dev]; exact hjc.1
    · simp only [log_node, setRefcnt_blockno]; exact hjc.2
    · simp only [log_node, setRefcnt_lock]
    · rw [← hfind]
      congr 1
      funext x
      simp only [isCached, log_node, setRefcnt_dev, setRefcnt_blockno]
    · simp only [log_node, setRefcnt_valid]
    · simp only [log_node, setRefcnt_refcnt, ↓reduceIte]

/-- The first two loops of `bget` when the block is not cached: the scans
over bucket `idx`. -/
theorem bget_miss (NBUF NBUCKET fuel : Nat) (s : State) (pid dev blockno : Nat)
    (L : Nat → List Nat) (hwf : Wf NBUF NBUCKET s L) (h0 : 0 < NBUCKET)
    (hh : 0 ≤ hash_fn NBUCKET (toInt blockno)) (hfuel : NBUF < fuel)
    (hfind : (L (bucketOf NBUCKET blockno)).find? (fun x => isCached s dev blockno (.buf x)) =
      none) :
    bget NBUCKET fuel s pid dev blockno =
      match (L (bucketOf NBUCKET blockno)).reverse.find? (fun x => isFree s (.buf x)) with
      | some j => acquiresleep ((reinit (s.log (.acquire (bucketOf NBUCKET blockno))) (.buf j)
          dev blockno).log (.release (bucketOf NBUCKET blockno))) pid (.buf j)
      | none => bgetSteal fuel pid dev blockno (bucketOf NBUCKET blockno) (List.range NBUCKET)
          (s.log (.acquire (bucketOf NBUCKET blockno))) := by
  have hidx := bucketOf_lt NBUCKET blockno h0 hh
  have hlen := lt_of_le_of_lt (hwf.length_le hidx) hfuel
  have hsc := scan_next s (fun b => isCached s dev blockno b) (bucketOf NBUCKET blockno)
    (L (bucketOf NBUCKET blockno)) (.head (bucketOf NBUCKET blockno)) fuel (hwf.1.1 _ hidx) hlen
  rw [hfind] at hsc
  have hsc2 := scan_prev s (fun b => isFree s b) (bucketOf NBUCKET blockno)
    (L (bucketOf NBUCKET blockno)) (.head (bucketOf NBUCKET blockno)) fuel (hwf.1.1 _ hidx) hlen
  unfold isCached at hsc
  unfold isFree at hsc2
  unfold bucketOf at hsc hsc2
  simp only [bget, not_lt.2 hh, ↓reduceIte, log_node, hsc, Option.map_none', hsc2]
  unfold bucketOf isFree
  cases List.find? (fun x => (s.node (Ptr.buf x)).refcnt == 0)
    (L (hash_fn NBUCKET (toInt blockno)).toNat).reverse <;> rfl

/-- The second loop of `bget` finds the unused buffer `j` of bucket `idx`
nearest to `head.prev`: it is recycled in place. -/
theorem bget_recycle (NBUF NBUCKET fuel : Nat) (s : State) (pid dev blockno : Nat)
    (L : Nat → List Nat) (j : Nat) (hwf : Wf NBUF NBUCKET s L) (h0 : 0 < NBUCKET)
    (hh : 0 ≤ hash_fn NBUCKET (toInt blockno)) (hfuel : NBUF < fuel)
    (hfind : (L (bucketOf NBUCKET blockno)).find? (fun x => isCached s dev blockno (.buf x)) =
      none)
    (hfree : (L (bucketOf NBUCKET blockno)).reverse.find? (fun x => isFree s (.buf x)) =
      some j) :
    bget NBUCKET fuel s pid dev blockno =
      acquiresleep ((reinit (s.log (.acquire (bucketOf NBUCKET blockno))) (.buf j)
        dev blockno).log (.release (bucketOf NBUCKET blockno))) pid (.buf j) ∧
    Selected NBUF NBUCKET s L dev blockno j
      ((reinit (s.log (.acquire (bucketOf NBUCKET blockno))) (.buf j)
        dev blockno).log (.release (bucketOf NBUCKET blockno))) L := by
  have hidx := bucketOf_lt NBUCKET blockno h0 hh
  have hjmem : j ∈ L (bucketOf NBUCKET blockno) :=
    List.mem_reverse.1 (List.mem_of_find?_eq_some hfree)
  have hjf := List.find?_some hfree
  simp only [isFree, beq_iff_eq] at hjf
  obtain ⟨r1, r2, r3, r4, r5⟩ := reinit_self (s.log (.acquire (bucketOf NBUCKET blockno)))
    (.buf j) dev blockno
  constructor
  · rw [bget_miss NBUF NBUCKET fuel s pid dev blockno L hwf h0 hh hfuel hfind, hfree]
  · refine ⟨hwf.2.1 _ hidx j hjmem, hwf.congr_wf (fun p => ?_) (fun p => ?_),
      ⟨[.acquire (bucketOf NBUCKET blockno), .release (bucketOf NBUCKET blockno)], ?_, ?_⟩,
      fun p hp => ?_, ?_, ?_, ?_, ?_, Or.inr ⟨hfind, hjf, ?_, ?_, Or.inl ⟨hfree, rfl⟩⟩⟩
    · simp only [log_node, reinit_next]
    · simp only [log_node, reinit_prev]
    · simp only [State.log, reinit_trace, List.append_assoc]; rfl
    · intro e he
      simp only [List.mem_cons, List.mem_singleton, List.not_mem_nil, or_false] at he
      rcases he with rfl | rfl <;> rfl
    · simp only [log_node, reinit_other _ _ _ _ _ hp]
    · simpa only [log_node] using r1
    · simpa only [log_node] using r2
    · simpa only [log_node] using r5
    · refine find?_unique _ _ j hjmem ?_ (fun x hx hxj => ?_)
      · simp only [isCached, log_node] at r1 r2 ⊢
        simp [r1, r2]
      · have hne : Ptr.buf x ≠ Ptr.buf j := fun e => hxj (by injection e)
        have hd := reinit_other (s.log (.acquire (bucketOf NBUCKET blockno))) (.buf j) dev
          blockno (.buf x) hne
        rw [data_eq_iff] at hd
        have hx0 := List.find?_eq_none.1 hfind x hx
        simp only [isCached, log_node] at hd hx0 ⊢
        rw [hd.2.1, hd.2.2.1]
        simpa using hx0
    · simpa only [log_node] using r3
    · simpa only [log_node] using r4

theorem range_split (n i : Nat) (h : i < n) :
    ∃ post, List.range n = List.range i ++ i :: post := by
  obtain ⟨m, rfl⟩ : ∃ m, n = i + (m + 1) := ⟨n - i - 1, by omega⟩
  refine ⟨(List.range m).map (fun x => i + (x + 1)), ?_⟩
  rw [List.range_add, List.range_succ_eq_map]
  simp [Function.comp_def]

theorem find?_reverse_none {α : Type} (p : α → Bool) (l : List α) :
    l.reverse.find? p = none ↔ ∀ x ∈ l, p x = false := by
  rw [List.find?_eq_none]
  simp

/-- The third loop of `bget` finds the unused buffer `j`, the first of the
first bucket `i` other than `idx` that has one. -/
theorem bget_steal (NBUF NBUCKET fuel : Nat) (s : State) (pid dev blockno : Nat)
    (L : Nat → List Nat) (i j : Nat) (hwf : Wf NBUF NBUCKET s L) (h0 : 0 < NBUCKET)
    (hh : 0 ≤ hash_fn NBUCKET (toInt blockno)) (hfuel : NBUF < fuel)
    (hfind : (L (bucketOf NBUCKET blockno)).find? (fun x => isCached s dev blockno (.buf x)) =
      none)
    (hfree : ∀ x ∈ L (bucketOf NBUCKET blockno), isFree s (.buf x) = false)
    (hi : i < NBUCKET) (hne : i ≠ bucketOf NBUCKET blockno)
    (hpre : ∀ k, k < i → k ≠ bucketOf NBUCKET blockno → ∀ x ∈ L k, isFree s (.buf x) = false)
    (hfi : (L i).find? (fun x => isFree s (.buf x)) = some j) :
    ∃ s1, bget NBUCKET fuel s pid dev blockno = acquiresleep s1 pid (.buf j) ∧
      Selected NBUF NBUCKET s L dev blockno j s1
        (Function.update (Function.update L i ((L i).erase j))
          (bucketOf NBUCKET blockno) (j :: L (bucketOf NBUCKET blockno))) := by
  have hidx := bucketOf_lt NBUCKET blockno h0 hh
  obtain ⟨post, hr⟩ := range_split NBUCKET i hi
  have hmemr : ∀ k ∈ List.range i ++ i :: post, k < NBUCKET := fun k hk => by
    rw [← hr] at hk; exact List.mem_range.1 hk
  obtain ⟨s0, hn0, ⟨t, ht, hsp⟩, e⟩ := bgetSteal_found fuel pid dev blockno
    (bucketOf NBUCKET blockno) NBUCKET L i j post (List.range i)
    (s.log (.acquire (bucketOf NBUCKET blockno))) (hwf.1.of_node_eq rfl) hmemr
    (fun k hk => lt_of_le_of_lt (hwf.length_le (hmemr k hk)) hfuel)
    (fun k hk hk2 x hx => hpre k (List.mem_range.1 hk) hk2 x hx) hne hfi
  rw [log_node] at hn0
  have hjmem := List.mem_of_find?_eq_some hfi
  have hjf := List.find?_some hfi
  simp only [isFree, beq_iff_eq] at hjf
  have hjlt := hwf.2.1 i hi j hjmem
  have hjidx : j ∉ L (bucketOf NBUCKET blockno) := fun h => hwf.1.2.2 i _ hi hidx hne hjmem h
  obtain ⟨r1, r2, r3, r4, r5⟩ := reinit_self (relink s0 (.buf j) (bucketOf NBUCKET blockno))
    (.buf j) dev blockno
  have hrl := relink_lists NBUCKET s0 L i (bucketOf NBUCKET blockno) j (hwf.1.of_node_eq hn0)
    hi hidx hne hjmem
  have hdata : ∀ p, ((relink s0 (.buf j) (bucketOf NBUCKET blockno)).node p).data =
      (s.node p).data := fun p => by rw [relink_data, hn0]
  refine ⟨((reinit (relink s0 (.buf j) (bucketOf NBUCKET blockno)) (.buf j) dev blockno).log
    (.release i)).log (.release (bucketOf NBUCKET blockno)), ?_, hjlt,
    ⟨hrl.congr_links (fun p => ?_) (fun p => ?_), ?_, ?_⟩,
    ⟨.acquire (bucketOf NBUCKET blockno) :: (t ++ [.release i,
      .release (bucketOf NBUCKET blockno)]), ?_, ?_⟩,
    fun p hp => ?_, ?_, ?_, ?_, ?_, Or.inr ⟨hfind, hjf, ?_, ?_, Or.inr ⟨hfree, i, hi, hne, hpre,
      hfi, rfl⟩⟩⟩
  · rw [bget_miss NBUF NBUCKET fuel s pid dev blockno L hwf h0 hh hfuel hfind,
      (find?_reverse_none _ _).2 hfree, hr]
    exact e
  · simp only [log_node, reinit_next]
  · simp only [log_node, reinit_prev]
  · intro k hk x hx
    by_cases hk1 : k = bucketOf NBUCKET blockno
    · subst hk1
      simp only [Function.update_same, List.mem_cons] at hx
      rcases hx with rfl | hx
      · exact hjlt
      · exact hwf.2.1 _ hk x hx
    · simp only [Function.update_noteq hk1] at hx
      by_cases hk2 : k = i
      · subst hk2
        simp only [Function.update_same] at hx
        exact hwf.2.1 _ hk x (List.mem_of_mem_erase hx)
      · simp only [Function.update_noteq hk2] at hx
        exact hwf.2.1 _ hk x hx
  · intro x hx
    by_cases hxj : x = j
    · exact ⟨bucketOf NBUCKET blockno, hidx, by simp [hxj]⟩
    · obtain ⟨k, hk, hxk⟩ := hwf.2.2 x hx
      refine ⟨k, hk, ?_⟩
      by_cases hk1 : k = bucketOf NBUCKET blockno
      · subst hk1
        simp only [Function.update_same]
        exact List.mem_cons_of_mem _ hxk
      · simp only [Function.update_noteq hk1]
        by_cases hk2 : k = i
        · subst hk2
          simp only [Function.update_same]
          exact (List.mem_erase_of_ne hxj).2 hxk
        · simp only [Function.update_noteq hk2]
          exact hxk
  · simp only [State.log, reinit_trace, relink_trace, ht, List.append_assoc]; rfl
  · intro e he
    simp only [List.mem_append, List.mem_cons, List.mem_singleton, List.not_mem_nil,
      or_false] at he
    rcases he with rfl | he | rfl | rfl
    · rfl
    · exact hsp e he
    · rfl
    · rfl
  · simp only [log_node, reinit_other _ _ _ _ _ hp, hdata]
  · simpa only [log_node] using r1
  · simpa only [log_node] using r2
  · simp only [log_node, r5]
    exact ((data_eq_iff _ _).1 (hdata (.buf j))).2.2.2.1
  · simp only [Function.update_same, List.find?_cons, isCached, log_node, r1, r2, beq_self_eq_true,
      Bool.and_self]
  · simpa only [log_node] using r3
  · simpa only [log_node] using r4

/-- No loop of `bget` finds a buffer: the block is not cached and no buffer
is unused, and `bget` calls `panic`. -/
theorem bget_abort (NBUF NBUCKET fuel : Nat) (s : State) (pid dev blockno : Nat)
    (L : Nat → List Nat) (hwf : Wf NBUF NBUCKET s L) (h0 : 0 < NBUCKET)
    (hh : 0 ≤ hash_fn NBUCKET (toInt blockno)) (hfuel : NBUF < fuel)
    (hfind : (L (bucketOf NBUCKET blockno)).find? (fun x => isCached s dev blockno (.buf x)) =
      none)
    (hfree : ∀ k, k < NBUCKET → ∀ x ∈ L k, isFree s (.buf x) = false) :
    ∃ s1, bget NBUCKET fuel s pid dev blockno = .abort "bget: no buffers" s1 ∧
      s1.node = s.node ∧ ∃ t, s1.trace = s.trace ++ t ∧ ∀ e ∈ t, Ev.isSpin e = true := by
  have hidx := bucketOf_lt NBUCKET blockno h0 hh
  obtain ⟨s1, e, hn, t, ht, hsp⟩ := bgetSteal_abort fuel pid dev blockno
    (bucketOf NBUCKET blockno) NBUCKET L (List.range NBUCKET)
    (s.log (.acquire (bucketOf NBUCKET blockno))) (hwf.1.of_node_eq rfl)
    (fun k hk => List.mem_range.1 hk)
    (fun k hk => lt_of_le_of_lt (hwf.length_le (List.mem_range.1 hk)) hfuel)
    (fun k hk _ x hx => hfree k (List.mem_range.1 hk) x hx)
  refine ⟨s1, ?_, hn, .acquire (bucketOf NBUCKET blockno) :: t, ?_, ?_⟩
  · rw [bget_miss NBUF NBUCKET fuel s pid dev blockno L hwf h0 hh hfuel hfind,
      (find?_reverse_none _ _).2 (hfree _ hidx)]
    exact e
  · simp only [ht, State.log, List.append_assoc]; rfl
  · intro e he
    rcases List.mem_cons.1 he with rfl | he
    · rfl
    · exact hsp e he

/-- What `bget` does on a well-formed cache, for a block number whose bucket
index is not negative and with enough fuel: it calls `panic` when the block is
not cached and no buffer is unused, and otherwise reaches `acquiresleep` for a
selected buffer. -/
theorem bget_select (NBUF NBUCKET fuel : Nat) (s : State) (pid dev blockno : Nat)
    (L : Nat → List Nat) (hwf : Wf NBUF NBUCKET s L) (h0 : 0 < NBUCKET)
    (hh : 0 ≤ hash_fn NBUCKET (toInt blockno)) (hfuel : NBUF < fuel) :
    ((L (bucketOf NBUCKET blockno)).find? (fun x => isCached s dev blockno (.buf x)) = none ∧
      (∀ j, j < NBUF → isFree s (.buf j) = false) ∧
      ∃ s1, bget NBUCKET fuel s pid dev blockno = .abort "bget: no buffers" s1 ∧
        s1.node = s.node ∧ ∃ t, s1.trace = s.trace ++ t ∧ ∀ e ∈ t, Ev.isSpin e = true) ∨
    (∃ j s1 L1, bget NBUCKET fuel s pid dev blockno = acquiresleep s1 pid (.buf j) ∧
      Selected NBUF NBUCKET s L dev blockno j s1 L1) := by
  have hidx := bucketOf_lt NBUCKET blockno h0 hh
  cases hfind : (L (bucketOf NBUCKET blockno)).find?
      (fun x => isCached s dev blockno (.buf x)) with
  | some j =>
    obtain ⟨e, hsel⟩ := bget_hit NBUF NBUCKET fuel s pid dev blockno L j hwf h0 hh hfuel hfind
    exact Or.inr ⟨j, _, L, e, hsel⟩
  | none =>
    cases hfree : (L (bucketOf NBUCKET blockno)).reverse.find?
        (fun x => isFree s (.buf x)) with
    | some j =>
      obtain ⟨e, hsel⟩ := bget_recycle NBUF NBUCKET fuel s pid dev blockno L j hwf h0 hh hfuel
        hfind hfree
      exact Or.inr ⟨j, _, L, e, hsel⟩
    | none =>
      have hfree2 := (find?_reverse_none _ _).1 hfree
      by_cases hex : ∃ i, i < NBUCKET ∧ i ≠ bucketOf NBUCKET blockno ∧
          ∃ x ∈ L i, isFree s (.buf x) = true
      · classical
        have hmin : ∀ m, m < Nat.find hex → ¬ (m < NBUCKET ∧ m ≠ bucketOf NBUCKET blockno ∧
            ∃ x ∈ L m, isFree s (.buf x) = true) := fun m hm => Nat.find_min hex hm
        obtain ⟨hi, hne, x, hx, hxf⟩ := Nat.find_spec hex
        generalize Nat.find hex = i at hmin hi hne hx
        have hsome : ((L i).find? (fun x => isFree s (.buf x))).isSome := by
          rw [List.find?_isSome]
          exact ⟨x, hx, hxf⟩
        obtain ⟨j, hj⟩ := Option.isSome_iff_exists.1 hsome
        obtain ⟨s1, e, hsel⟩ := bget_steal NBUF NBUCKET fuel s pid dev blockno L i j hwf h0 hh
          hfuel hfind hfree2 hi hne (fun k hk hk2 y hy => by
            by_contra hc
            exact hmin k hk ⟨lt_trans hk hi, hk2, y, hy, by simpa using hc⟩) hj
        exact Or.inr ⟨j, s1, _, e, hsel⟩
      · have hall : ∀ k, k < NBUCKET → ∀ x ∈ L k, isFree s (.buf x) = false := by
          intro k hk x hx
          by_cases hk2 : k = bucketOf NBUCKET blockno
          · exact hfree2 x (hk2 ▸ hx)
          · by_contra hc
            exact hex ⟨k, hk, hk2, x, hx, by simpa using hc⟩
        refine Or.inl ⟨rfl, fun j hj => ?_, bget_abort NBUF NBUCKET fuel s pid dev blockno L hwf
          h0 hh hfuel hfind hall⟩
        obtain ⟨k, hk, hjk⟩ := hwf.2.2 j hj
        exact hall k hk j hjk

theorem acquiresleep_free (s : State) (pid : Nat) (b : Ptr) (h : (s.node b).lock = none) :
    acquiresleep s pid b = .ret b ((s.setLock b (some pid)).log (.acquiresleep b)) := by
  simp only [acquiresleep, h]

theorem acquiresleep_held (s : State) (pid q : Nat) (b : Ptr) (h : (s.node b).lock = some q) :
    acquiresleep s pid b = .sleeps b s := by
  simp only [acquiresleep, h]

theorem acquiresleep_ret (s s1 : State) (pid : Nat) (b c : Ptr)
    (h : acquiresleep s pid b = .ret c s1) :
    c = b ∧ (s.node b).lock = none ∧ s1 = (s.setLock b (some pid)).log (.acquiresleep b) := by
  unfold acquiresleep at h
  cases hl : (s.node b).lock with
  | none =>
    rw [hl] at h
    simp only [Outcome.ret.injEq] at h
    exact ⟨h.1.symm, rfl, h.2.symm⟩
  | some q =>
    rw [hl] at h
    cases h

theorem scan_mono (step : Ptr → Ptr) (f : Ptr → Bool) (stop : Ptr) :
    ∀ (fuel fuel1 : Nat) (b : Ptr) (r : Option Ptr), fuel ≤ fuel1 →
    scan step f stop fuel b = some r → scan step f stop fuel1 b = some r
  | 0, _, _, _, _, h => by simp [scan] at h
  | fuel + 1, fuel1, b, r, hle, h => by
    obtain ⟨n, rfl⟩ : ∃ n, fuel1 = n + 1 := ⟨fuel1 - 1, by omega⟩
    simp only [scan] at h ⊢
    by_cases h1 : b = stop
    · simpa [h1] using h
    · by_cases h2 : f b = true
      · simpa [h1, h2] using h
      · simp only [h1, h2, ↓reduceIte, Bool.false_eq_true] at h ⊢
        exact scan_mono step f stop fuel n (step b) r (by omega) h

theorem scan_mono2 (step : Ptr → Ptr) (f : Ptr → Bool) (stop : Ptr) (fuel fuel1 : Nat) (b : Ptr)
    (hle : fuel ≤ fuel1) (h : scan step f stop fuel b ≠ none) :
    scan step f stop fuel1 b = scan step f stop fuel b := by
  cases hs : scan step f stop fuel b with
  | none => exact absurd hs h
  | some r => exact scan_mono step f stop fuel fuel1 b r hle hs

/-- More fuel does not change a run of the steal loop that had enough. -/
theorem bgetSteal_mono (fuel fuel1 pid dev blockno idx : Nat) (hle : fuel ≤ fuel1) :
    ∀ (is : List Nat) (s : State), bgetSteal fuel pid dev blockno idx is s ≠ .fuelOut →
    bgetSteal fuel1 pid dev blockno idx is s = bgetSteal fuel pid dev blockno idx is s
  | [], _, _ => rfl
  | i :: is, s, h => by
    by_cases hi : i = idx
    · simp only [bgetSteal, hi, ↓reduceIte] at h ⊢
      exact bgetSteal_mono fuel fuel1 pid dev blockno idx hle is s h
    · simp only [bgetSteal, hi, ↓reduceIte, log_node] at h ⊢
      cases hs : scan (fun b => (s.node b).next) (fun b => (s.node b).refcnt == 0) (.head i)
          fuel (s.node (.head i)).next with
      | none => rw [hs] at h; exact absurd rfl h
      | some r =>
        rw [scan_mono _ _ _ fuel fuel1 _ r hle hs]
        rw [hs] at h
        cases r with
        | none => exact bgetSteal_mono fuel fuel1 pid dev blockno idx hle is _ h
        | some b => rfl

/-- More fuel does not change a call of `bget` that had enough. -/
theorem bget_mono (NBUCKET fuel fuel1 : Nat) (s : State) (pid dev blockno : Nat)
    (hle : fuel ≤ fuel1) (h : bget NBUCKET fuel s pid dev blockno ≠ .fuelOut) :
    bget NBUCKET fuel1 s pid dev blockno = bget NBUCKET fuel s pid dev blockno := by
  unfold bget at h ⊢
  by_cases hh : hash_fn NBUCKET (toInt blockno) < 0
  · simp only [hh, ↓reduceIte]
  · simp only [hh, ↓reduceIte, log_node] at h ⊢
    cases hs : scan (fun b => (s.node b).next)
        (fun b => (s.node b).dev == dev && (s.node b).blockno == blockno)
        (.head (hash_fn NBUCKET (toInt blockno)).toNat) fuel
        (s.node (.head (hash_fn NBUCKET (toInt blockno)).toNat)).next with
    | none => rw [hs] at h; exact absurd rfl h
    | some r =>
      rw [scan_mono _ _ _ fuel fuel1 _ r hle hs]
      rw [hs] at h
      cases r with
      | some b => rfl
      | none =>
        simp only at h ⊢
        cases hs2 : scan (fun b => (s.node b).prev) (fun b => (s.node b).refcnt == 0)
            (.head (hash_fn NBUCKET (toInt blockno)).toNat) fuel
            (s.node (.head (hash_fn NBUCKET (toInt blockno)).toNat)).prev with
        | none => rw [hs2] at h; exact absurd rfl h
        | some r2 =>
          rw [scan_mono _ _ _ fuel fuel1 _ r2 hle hs2]
          rw [hs2] at h
          cases r2 with
          | some b => rfl
          | none => exact bgetSteal_mono fuel fuel1 pid dev blockno _ hle _ _ h

theorem bget_ret_hash (NBUCKET fuel : Nat) (s s1 : State) (pid dev blockno : Nat) (b : Ptr)
    (h : bget NBUCKET fuel s pid dev blockno = .ret b s1) :
    0 ≤ hash_fn NBUCKET (toInt blockno) := by
  by_contra hh
  simp only [bget, not_le.1 hh, ↓reduceIte] at h
  cases h

/-- A call of `bget` that returns, on a well-formed cache: the buffer it
returns was selected, its lock was free, and the caller now holds it. -/
theorem bget_ret (NBUF NBUCKET fuel : Nat) (s s2 : State) (pid dev blockno : Nat) (b : Ptr)
    (L : Nat → List Nat) (hwf : Wf NBUF NBUCKET s L) (h0 : 0 < NBUCKET)
    (h : bget NBUCKET fuel s pid dev blockno = .ret b s2) :
    ∃ j s1 L1, b = .buf j ∧ Selected NBUF NBUCKET s L dev blockno j s1 L1 ∧
      (s.node (.buf j)).lock = none ∧
      s2 = (s1.setLock (.buf j) (some pid)).log (.acquiresleep (.buf j)) := by
  have hh := bget_ret_hash NBUCKET fuel s s2 pid dev blockno b h
  have hm := bget_mono NBUCKET fuel (max fuel (NBUF + 1)) s pid dev blockno (le_max_left _ _)
    (by rw [h]; exact fun e => by cases e)
  rw [h] at hm
  rcases bget_select NBUF NBUCKET (max fuel (NBUF + 1)) s pid dev blockno L hwf h0 hh
    (by omega) with ⟨_, _, s1, e, _⟩ | ⟨j, s1, L1, e, hsel⟩
  · rw [hm] at e; cases e
  · rw [hm] at e
    obtain ⟨hb, hl, hs⟩ := acquiresleep_ret s1 s2 pid (.buf j) b e.symm
    exact ⟨j, s1, L1, hb, hsel, by rw [← hsel.lock_eq]; exact hl, hs⟩

theorem Selected.mem_idx {NBUF NBUCKET : Nat} {s s1 : State} {L L1 : Nat → List Nat}
    {dev blockno j : Nat} (h : Selected NBUF NBUCKET s L dev blockno j s1 L1) :
    j ∈ L1 (bucketOf NBUCKET blockno) :=
  List.mem_of_find?_eq_some h.first

theorem Selected.mem_old {NBUF NBUCKET : Nat} {s s1 : State} {L L1 : Nat → List Nat}
    {dev blockno j : Nat} (h : Selected NBUF NBUCKET s L dev blockno j s1 L1)
    {k x : Nat} (hx : x ∈ L1 k) (hxj : x ≠ j) : x ∈ L k := by
  rcases h.how with ⟨_, e, _⟩ | ⟨_, _, _, _, ⟨_, e⟩ | ⟨_, i, _, _, _, _, e⟩⟩
  · rw [e] at hx; exact hx
  · rw [e] at hx; exact hx
  · rw [e] at hx
    by_cases hk1 : k = bucketOf NBUCKET blockno
    · subst hk1
      simp only [Function.update_same, List.mem_cons] at hx
      rcases hx with hx | hx
      · exact absurd hx hxj
      · exact hx
    · simp only [Function.update_noteq hk1] at hx
      by_cases hk2 : k = i
      · subst hk2
        simp only [Function.update_same] at hx
        exact List.mem_of_mem_erase hx
      · simpa only [Function.update_noteq hk2] using hx

theorem Selected.mem_new {NBUF NBUCKET : Nat} {s s1 : State} {L L1 : Nat → List Nat}
    {dev blockno j : Nat} (h : Selected NBUF NBUCKET s L dev blockno j s1 L1)
    {k x : Nat} (hx : x ∈ L k) (hxj : x ≠ j) : x ∈ L1 k := by
  rcases h.how with ⟨_, e, _⟩ | ⟨_, _, _, _, ⟨_, e⟩ | ⟨_, i, _, _, _, _, e⟩⟩
  · rw [e]; exact hx
  · rw [e]; exact hx
  · rw [e]
    by_cases hk1 : k = bucketOf NBUCKET blockno
    · subst hk1
      simp only [Function.update_same, List.mem_cons]
      exact Or.inr hx
    · simp only [Function.update_noteq hk1]
      by_cases hk2 : k = i
      · subst hk2
        simp only [Function.update_same]
        exact (List.mem_erase_of_ne hxj).2 hx
      · simpa only [Function.update_noteq hk2] using hx

/-- The fields of the buffers other than the selected one are those of the
state before the call. -/
theorem Selected.other_fields {NBUF NBUCKET : Nat} {s s1 : State} {L L1 : Nat → List Nat}
    {dev blockno j : Nat} (h : Selected NBUF NBUCKET s L dev blockno j s1 L1)
    {p : Ptr} (hp : p ≠ .buf j) :
    (s1.node p).valid = (s.node p).valid ∧ (s1.node p).dev = (s.node p).dev ∧
    (s1.node p).blockno = (s.node p).blockno ∧ (s1.node p).lock = (s.node p).lock ∧
    (s1.node p).refcnt = (s.node p).refcnt :=
  (data_eq_iff _ _).1 (h.others p hp)

/-- The invariant holds once `bget` has selected and locked a buffer. -/
theorem Inv.selected {NBUF NBUCKET : Nat} {s s1 : State} {dev blockno j : Nat}
    {L L1 : Nat → List Nat} (hinv : Inv NBUF NBUCKET s L) (h0 : 0 < NBUCKET)
    (hh : 0 ≤ hash_fn NBUCKET (toInt blockno))
    (hsel : Selected NBUF NBUCKET s L dev blockno j s1 L1) (v : Option Nat) (e : Ev) :
    Inv NBUF NBUCKET ((s1.setLock (.buf j) v).log e) L1 := by
  have hidx := bucketOf_lt NBUCKET blockno h0 hh
  refine ⟨hsel.wf.congr_wf (fun p => ?_) (fun p => ?_), fun p => ?_, fun p => ?_,
    fun i hi x hx => ?_⟩
  · simp only [log_node, setLock_next]
  · simp only [log_node, setLock_prev]
  · simp only [log_node, setLock_valid]
    by_cases hp : p = .buf j
    · subst hp
      rcases hsel.how with ⟨_, _, e, _⟩ | ⟨_, _, e, _⟩
      · rw [e]; exact hinv.valid_le _
      · rw [e]; omega
    · rw [(hsel.other_fields hp).1]; exact hinv.valid_le _
  · simp only [log_node, setLock_refcnt]
    by_cases hp : p = .buf j
    · subst hp
      rcases hsel.how with ⟨_, _, _, e⟩ | ⟨_, _, _, e, _⟩
      · rw [e]; exact Nat.mod_lt _ (by decide)
      · rw [e]; decide
    · rw [(hsel.other_fields hp).2.2.2.2]; exact hinv.refcnt_lt _
  · simp only [log_node, setLock_blockno]
    by_cases hxj : x = j
    · subst hxj
      rw [hsel.blockno_eq]
      refine ⟨hh, ?_⟩
      by_contra hne
      exact hsel.wf.1.2.2 _ i hidx hi hne hsel.mem_idx hx
    · have hp : Ptr.buf x ≠ Ptr.buf j := fun e => hxj (by injection e)
      rw [(hsel.other_fields hp).2.2.1]
      exact hinv.hashed i hi x (hsel.mem_old hx hxj)

/-- The invariant holds after a call of `bget` that returns. -/
theorem Inv.after_bget {NBUF NBUCKET fuel : Nat} {s s2 : State} {pid dev blockno : Nat} {b : Ptr}
    {L : Nat → List Nat} (hinv : Inv NBUF NBUCKET s L) (h0 : 0 < NBUCKET)
    (h : bget NBUCKET fuel s pid dev blockno = .ret b s2) : ∃ L1, Inv NBUF NBUCKET s2 L1 := by
  obtain ⟨j, s1, L1, rfl, hsel, _, rfl⟩ := bget_ret NBUF NBUCKET fuel s s2 pid dev blockno b L
    hinv.wf h0 h
  exact ⟨L1, hinv.selected h0 (bget_ret_hash NBUCKET fuel s _ pid dev blockno _ h) hsel _ _⟩

theorem Inv.congr_fields {NBUF NBUCKET : Nat} {s s1 : State} {L : Nat → List Nat}
    (h : Inv NBUF NBUCKET s L)
    (hn : ∀ p, (s1.node p).next = (s.node p).next)
    (hp : ∀ p, (s1.node p).prev = (s.node p).prev)
    (hv : ∀ p, (s1.node p).valid ≤ 1) (hr : ∀ p, (s1.node p).refcnt < UINT)
    (hb : ∀ p, (s1.node p).blockno = (s.node p).blockno) : Inv NBUF NBUCKET s1 L :=
  ⟨h.wf.congr_wf hn hp, hv, hr, fun i hi j hj => by rw [hb]; exact h.hashed i hi j hj⟩

theorem hash_zero (NBUCKET : Nat) : hash_fn NBUCKET (toInt 0) = 0 := by
  simp [hash_fn, toInt, UINT]

theorem Inv.inv_binit (NBUF NBUCKET : Nat) (h0 : 0 < NBUCKET) :
    Inv NBUF NBUCKET (binit NBUF NBUCKET) (initLists NBUF) := by
  obtain ⟨hwf, hdata, _⟩ := binit_wf NBUF NBUCKET h0
  have hz : ∀ p, ((binit NBUF NBUCKET).node p).valid = 0 ∧
      ((binit NBUF NBUCKET).node p).blockno = 0 ∧
      ((binit NBUF NBUCKET).node p).refcnt = 0 := fun p => by
    have := (data_eq_iff _ _).1 (hdata p)
    exact ⟨this.1, this.2.2.1, this.2.2.2.2⟩
  refine ⟨hwf, fun p => by rw [(hz p).1]; omega, fun p => by rw [(hz p).2.2]; decide,
    fun i hi j hj => ?_⟩
  rw [(hz _).2.1, bucketOf, hash_zero]
  refine ⟨le_refl _, ?_⟩
  by_contra hi0
  have : i ≠ 0 := fun e => hi0 (by rw [e]; rfl)
  simp [initLists, this] at hj

theorem bread_ret (NBUCKET fuel : Nat) (s s2 : State) (pid dev blockno : Nat) (b : Ptr)
    (h : bread NBUCKET fuel s pid dev blockno = .ret b s2) :
    ∃ s1, bget NBUCKET fuel s pid dev blockno = .ret b s1 ∧
      s2 = if (s1.node b).valid = 0 then (s1.log (.disk_rw b false)).setValid b 1 else s1 := by
  unfold bread at h
  cases hg : bget NBUCKET fuel s pid dev blockno with
  | ret c s1 =>
    rw [hg] at h
    simp only at h
    by_cases hv : (s1.node c).valid = 0
    · simp only [hv, ↓reduceIte, Outcome.ret.injEq] at h
      obtain ⟨rfl, rfl⟩ := h
      exact ⟨s1, rfl, by simp [hv]⟩
    · simp only [hv, ↓reduceIte, Outcome.ret.injEq] at h
      obtain ⟨rfl, rfl⟩ := h
      exact ⟨s1, rfl, by simp [hv]⟩
  | abort m s1 => rw [hg] at h; cases h
  | sleeps c s1 => rw [hg] at h; cases h
  | fault => rw [hg] at h; cases h
  | fuelOut => rw [hg] at h; cases h

theorem bwrite_ret (s s1 : State) (pid : Nat) (b : Ptr) (h : bwrite s pid b = .ret () s1) :
    holdingsleep s pid b = true ∧ s1 = s.log (.disk_rw b true) := by
  unfold bwrite at h
  by_cases hh : holdingsleep s pid b = true
  · simp only [hh, Bool.not_true, Bool.false_eq_true, ↓reduceIte, Outcome.ret.injEq,
      true_and] at h
    exact ⟨hh, h.symm⟩
  · simp only [Bool.not_eq_true] at hh
    simp only [hh, Bool.not_false, ↓reduceIte] at h
    cases h

theorem brelse_ret (NBUCKET : Nat) (s s1 : State) (pid : Nat) (b : Ptr)
    (h : brelse NBUCKET s pid b = .ret () s1) :
    holdingsleep s pid b = true ∧ 0 ≤ hash_fn NBUCKET (toInt (s.node b).blockno) ∧
    s1 = ((((releasesleep s b).log (.acquire (bucketOf NBUCKET (s.node b).blockno))).setRefcnt b
      (((s.node b).refcnt + (UINT - 1)) % UINT)).log
        (.release (bucketOf NBUCKET (s.node b).blockno))) := by
  unfold brelse at h
  by_cases hh : holdingsleep s pid b = true
  · simp only [hh, Bool.not_true, Bool.false_eq_true, ↓reduceIte, releasesleep, log_node,
      setLock_blockno, setLock_refcnt] at h
    by_cases hx : hash_fn NBUCKET (toInt (s.node b).blockno) < 0
    · simp only [hx, ↓reduceIte] at h
      cases h
    · simp only [hx, ↓reduceIte, Outcome.ret.injEq, true_and] at h
      refine ⟨hh, not_lt.1 hx, ?_⟩
      rw [← h]
      simp only [releasesleep, log_node, bucketOf]
  · simp only [Bool.not_eq_true] at hh
    simp only [hh, Bool.not_false, ↓reduceIte] at h
    cases h

theorem bpin_ret (NBUCKET : Nat) (s s1 : State) (b : Ptr)
    (h : bpin NBUCKET s b = .ret () s1) :
    0 ≤ hash_fn NBUCKET (toInt (s.node b).blockno) ∧
    s1 = (((s.log (.acquire (bucketOf NBUCKET (s.node b).blockno))).setRefcnt b
      (((s.node b).refcnt + 1) % UINT)).log (.release (bucketOf NBUCKET (s.node b).blockno))) := by
  unfold bpin at h
  by_cases hx : hash_fn NBUCKET (toInt (s.node b).blockno) < 0
  · simp only [hx, ↓reduceIte] at h
    cases h
  · simp only [hx, ↓reduceIte, log_node, Outcome.ret.injEq, true_and] at h
    exact ⟨not_lt.1 hx, by rw [← h]; rfl⟩

theorem bunpin_ret (NBUCKET : Nat) (s s1 : State) (b : Ptr)
    (h : bunpin NBUCKET s b = .ret () s1) :
    0 ≤ hash_fn NBUCKET (toInt (s.node b).blockno) ∧
    s1 = (((s.log (.acquire (bucketOf NBUCKET (s.node b).blockno))).setRefcnt b
      (((s.node b).refcnt + (UINT - 1)) % UINT)).log
        (.release (bucketOf NBUCKET (s.node b).blockno))) := by
  unfold bunpin at h
  by_cases hx : hash_fn NBUCKET (toInt (s.node b).blockno) < 0
  · simp only [hx, ↓reduceIte] at h
    cases h
  · simp only [hx, ↓reduceIte, log_node, Outcome.ret.injEq, true_and] at h
    exact ⟨not_lt.1 hx, by rw [← h]; rfl⟩

/-- Every reachable state of the cache satisfies the invariant. -/
theorem Reachable.has_inv {NBUF NBUCKET : Nat} {s : State} (h0 : 0 < NBUCKET)
    (h : Reachable NBUF NBUCKET s) : ∃ L, Inv NBUF NBUCKET s L := by
  induction h with
  | init => exact ⟨_, Inv.inv_binit NBUF NBUCKET h0⟩
  | bget _ hg ih =>
    obtain ⟨L, hinv⟩ := ih
    exact hinv.after_bget h0 hg
  | bread _ hg ih =>
    obtain ⟨L, hinv⟩ := ih
    obtain ⟨s1, hg1, rfl⟩ := bread_ret _ _ _ _ _ _ _ _ hg
    obtain ⟨L1, hinv1⟩ := hinv.after_bget h0 hg1
    refine ⟨L1, ?_⟩
    split
    · refine hinv1.congr_fields (fun p => ?_) (fun p => ?_) (fun p => ?_) (fun p => ?_) (fun p => ?_)
      · simp only [setValid_next, log_node]
      · simp only [setValid_prev, log_node]
      · simp only [setValid_valid, log_node]
        split
        · omega
        · exact hinv1.valid_le p
      · simp only [setValid_refcnt, log_node]
        exact hinv1.refcnt_lt p
      · simp only [setValid_blockno, log_node]
    · exact hinv1
  | bwrite _ hg ih =>
    obtain ⟨L, hinv⟩ := ih
    obtain ⟨_, rfl⟩ := bwrite_ret _ _ _ _ hg
    exact ⟨L, hinv.congr_fields (fun _ => rfl) (fun _ => rfl) hinv.valid_le hinv.refcnt_lt
      (fun _ => rfl)⟩
  | brelse _ _ hg ih =>
    obtain ⟨L, hinv⟩ := ih
    obtain ⟨_, _, rfl⟩ := brelse_ret _ _ _ _ _ hg
    refine ⟨L, hinv.congr_fields (fun p => ?_) (fun p => ?_) (fun p => ?_) (fun p => ?_)
      (fun p => ?_)⟩
    · simp only [log_node, setRefcnt_next, releasesleep, setLock_next]
    · simp only [log_node, setRefcnt_prev, releasesleep, setLock_prev]
    · simp only [log_node, setRefcnt_valid, releasesleep, setLock_valid]
      exact hinv.valid_le p
    · simp only [log_node, setRefcnt_refcnt, releasesleep, setLock_refcnt]
      split
      · exact Nat.mod_lt _ (by decide)
      · exact hinv.refcnt_lt p
    · simp only [log_node, setRefcnt_blockno, releasesleep, setLock_blockno]
  | bpin _ _ hg ih =>
    obtain ⟨L, hinv⟩ := ih
    obtain ⟨_, rfl⟩ := bpin_ret _ _ _ _ hg
    refine ⟨L, hinv.congr_fields (fun p => ?_) (fun p => ?_) (fun p => ?_) (fun p => ?_)
      (fun p => ?_)⟩
    · simp only [log_node, setRefcnt_next]
    · simp only [log_node, setRefcnt_prev]
    · simp only [log_node, setRefcnt_valid]
      exact hinv.valid_le p
    · simp only [log_node, setRefcnt_refcnt]
      split
      · exact Nat.mod_lt _ (by decide)
      · exact hinv.refcnt_lt p
    · simp only [log_node, setRefcnt_blockno]
  | bunpin _ _ hg ih =>
    obtain ⟨L, hinv⟩ := ih
    obtain ⟨_, rfl⟩ := bunpin_ret _ _ _ _ hg
    refine ⟨L, hinv.congr_fields (fun p => ?_) (fun p => ?_) (fun p => ?_) (fun p => ?_)
      (fun p => ?_)⟩
    · simp only [log_node, setRefcnt_next]
    · simp only [log_node, setRefcnt_prev]
    · simp only [log_node, setRefcnt_valid]
      exact hinv.valid_le p
    · simp only [log_node, setRefcnt_refcnt]
      split
      · exact Nat.mod_lt _ (by decide)
      · exact hinv.refcnt_lt p
    · simp only [log_node, setRefcnt_blockno]

theorem Outcome.eq_ret_of_val? {α : Type} {o : Outcome α} {r : α} (h : o.val? = some r) :
    o = .ret r o.stateD := by
  cases o <;> simp [Outcome.val?] at h
  subst h
  rfl

theorem heldState_reachable : Reachable 3 2 heldState :=
  Reachable.bget Reachable.init (Outcome.eq_ret_of_val? (r := Ptr.buf 2) (by decide))

theorem find?_filter_of_imp {α : Type} (q r : α → Bool) : ∀ (l : List α),
    (∀ y ∈ l, q y = true → r y = true) → (l.filter r).find? q = l.find? q
  | [], _ => rfl
  | a :: l, h => by
    have ih := find?_filter_of_imp q r l (fun y hy => h y (List.mem_cons_of_mem _ hy))
    by_cases hr : r a = true
    · simp only [List.filter_cons, hr, ↓reduceIte, List.find?_cons, ih]
    · have hq : q a = false := by
        by_contra hq
        exact hr (h a (List.mem_cons_self _ _) (by simpa using hq))
      simp only [List.filter_cons, hr, Bool.false_eq_true, ↓reduceIte, List.find?_cons, hq, ih]

theorem find?_congr_mem {α : Type} (p q : α → Bool) : ∀ (l : List α),
    (∀ y ∈ l, q y = p y) → l.find? q = l.find? p
  | [], _ => rfl
  | a :: l, h => by
    simp only [List.find?_cons, h a (List.mem_cons_self _ _),
      find?_congr_mem p q l (fun y hy => h y (List.mem_cons_of_mem _ hy))]

theorem find?_filter_some {α : Type} (p r : α → Bool) (x : α) : ∀ (l : List α),
    l.find? p = some x → r x = true → (l.filter r).find? p = some x
  | [], h, _ => by simp at h
  | a :: l, h, hr => by
    by_cases hp : p a = true
    · simp only [List.find?_cons, hp, Option.some.injEq] at h
      subst h
      simp only [List.filter_cons, hr, ↓reduceIte, List.find?_cons, hp]
    · simp only [List.find?_cons, hp] at h
      have ih := find?_filter_some p r x l h hr
      by_cases hra : r a = true
      · simp only [List.filter_cons, hra, ↓reduceIte, List.find?_cons, hp, ih]
      · simp only [List.filter_cons, hra, Bool.false_eq_true, ↓reduceIte, ih]

/-- But for the selected buffer, `bget` keeps the order of every bucket. -/
theorem Selected.filter_eq {NBUF NBUCKET : Nat} {s s1 : State} {L L1 : Nat → List Nat}
    {dev blockno j : Nat} (h : Selected NBUF NBUCKET s L dev blockno j s1 L1)
    (hwf : Wf NBUF NBUCKET s L) (k : Nat) (hk : k < NBUCKET) :
    (L1 k).filter (fun y => decide (y ≠ j)) = (L k).filter (fun y => decide (y ≠ j)) := by
  rcases h.how with ⟨_, e, _⟩ | ⟨_, _, _, _, ⟨_, e⟩ | ⟨_, i, hi, _, _, _, e⟩⟩
  · rw [e]
  · rw [e]
  · rw [e]
    by_cases hk1 : k = bucketOf NBUCKET blockno
    · subst hk1
      simp [List.filter_cons]
    · simp only [Function.update_noteq hk1]
      by_cases hk2 : k = i
      · subst hk2
        simp only [Function.update_same]
        rw [(hwf.1.2.1 k hk).erase_eq_filter]
        simp only [List.filter_filter]
        congr 1
        funext y
        by_cases hy : y = j <;> simp [hy]
      · simp only [Function.update_noteq hk2]

/-- The uniqueness invariant holds after `bget` has selected and locked a
buffer. -/
theorem Uniq.after_selected {NBUF NBUCKET : Nat} {s s1 : State} {L L1 : Nat → List Nat}
    {dev blockno j : Nat} (hinv : Inv NBUF NBUCKET s L) (hu : Uniq NBUCKET s L)
    (h0 : 0 < NBUCKET) (hh : 0 ≤ hash_fn NBUCKET (toInt blockno))
    (hsel : Selected NBUF NBUCKET s L dev blockno j s1 L1) (v : Option Nat) (e : Ev) :
    Uniq NBUCKET ((s1.setLock (.buf j) v).log e) L1 := by
  have hidx := bucketOf_lt NBUCKET blockno h0 hh
  have hcached : ∀ d b y, isCached ((s1.setLock (.buf j) v).log e) d b y = isCached s1 d b y := by
    intro d b y
    simp only [isCached, log_node, setLock_dev, setLock_blockno]
  intro i hi x hx hnf
  by_cases hxj : x = j
  · subst hxj
    exfalso
    apply hnf
    have hii : i = bucketOf NBUCKET blockno := by
      by_contra hne
      exact hsel.wf.1.2.2 _ i hidx hi (fun e => hne e.symm) hsel.mem_idx hx
    subst hii
    unfold IsFirst
    simp only [log_node, setLock_dev, setLock_blockno, hsel.dev_eq, hsel.blockno_eq, hcached]
    exact hsel.first
  · have hp : Ptr.buf x ≠ Ptr.buf j := fun e => hxj (by injection e)
    obtain ⟨_, hd, hb, hl, hr⟩ := hsel.other_fields hp
    have hxL := hsel.mem_old hx hxj
    simp only [log_node, setLock_refcnt, setLock_lock, hp, ↓reduceIte, hr, hl]
    apply hu i hi x hxL
    intro hf
    apply hnf
    unfold IsFirst at hf ⊢
    simp only [log_node, setLock_dev, setLock_blockno, hd, hb, hcached]
    have hoff : ∀ y, y ≠ j → isCached s1 (s.node (.buf x)).dev (s.node (.buf x)).blockno (.buf y) =
        isCached s (s.node (.buf x)).dev (s.node (.buf x)).blockno (.buf y) := by
      intro y hy
      have hpy : Ptr.buf y ≠ Ptr.buf j := fun e => hy (by injection e)
      obtain ⟨_, hdy, hby, _, _⟩ := hsel.other_fields hpy
      simp only [isCached, hdy, hby]
    rcases hsel.how with ⟨hfind, eL, _⟩ | ⟨hfind, _, _⟩
    · rw [eL]
      rw [find?_congr_mem _ _ _ (fun y _ => ?_)]
      · exact hf
      · by_cases hy : y = j
        · subst hy
          have hc := List.find?_some hfind
          simp only [isCached, Bool.and_eq_true, beq_iff_eq] at hc
          simp only [isCached, hsel.dev_eq, hsel.blockno_eq, hc.1, hc.2]
        · exact hoff y hy
    · have hqj : isCached s1 (s.node (.buf x)).dev (s.node (.buf x)).blockno (.buf j) = false := by
        by_contra hc
        simp only [isCached, hsel.dev_eq, hsel.blockno_eq, Bool.not_eq_false, Bool.and_eq_true,
          beq_iff_eq] at hc
        have hib := (hinv.hashed i hi x hxL).2
        rw [← hc.2] at hib
        subst hib
        have := List.find?_eq_none.1 hfind x hxL
        simp [isCached, hc.1, hc.2] at this
      rw [← find?_filter_of_imp _ (fun y => decide (y ≠ j)) (L1 i) (fun y _ hy => by
        by_cases hyj : y = j
        · subst hyj; rw [hqj] at hy; cases hy
        · simpa using hyj)]
      rw [hsel.filter_eq hinv.wf i hi]
      rw [find?_congr_mem _ _ _ (fun y hy => hoff y (by simpa using (List.mem_filter.1 hy).2))]
      exact find?_filter_some _ _ x _ hf (by simpa using hxj)

/-- The uniqueness invariant holds after a change of `refcnt` and `lock` of a
buffer whose lock is held. -/
theorem Uniq.update_held {NBUCKET : Nat} {s s1 : State} {L : Nat → List Nat} {j : Nat}
    (hu : Uniq NBUCKET s L) (hl : (s.node (.buf j)).lock ≠ none)
    (hd : ∀ p, (s1.node p).dev = (s.node p).dev)
    (hb : ∀ p, (s1.node p).blockno = (s.node p).blockno)
    (hr : ∀ p, p ≠ Ptr.buf j → (s1.node p).refcnt = (s.node p).refcnt)
    (hk : ∀ p, p ≠ Ptr.buf j → (s1.node p).lock = (s.node p).lock) : Uniq NBUCKET s1 L := by
  have hfirst : ∀ l x, IsFirst s1 l x ↔ IsFirst s l x := by
    intro l x
    unfold IsFirst
    simp only [isCached, hd, hb]
  intro i hi x hx hnf
  rw [hfirst] at hnf
  by_cases hxj : x = j
  · subst hxj
    exact absurd (hu i hi x hx hnf).2 hl
  · have hp : Ptr.buf x ≠ Ptr.buf j := fun e => hxj (by injection e)
    rw [hr _ hp, hk _ hp]
    exact hu i hi x hx hnf

theorem ReachableHeld.to_reachable {NBUF NBUCKET : Nat} {s : State}
    (h : ReachableHeld NBUF NBUCKET s) : Reachable NBUF NBUCKET s := by
  induction h with
  | init => exact .init
  | bget _ hg ih => exact .bget ih hg
  | brelse _ hj hg ih => exact .brelse ih hj hg
  | bpin _ hj _ hg ih => exact .bpin ih hj hg
  | bunpin _ hj _ hg ih => exact .bunpin ih hj hg

theorem Uniq.uniq_binit (NBUF NBUCKET : Nat) (h0 : 0 < NBUCKET) :
    Uniq NBUCKET (binit NBUF NBUCKET) (initLists NBUF) := by
  intro i _ j _ _
  have := (data_eq_iff _ _).1 ((binit_wf NBUF NBUCKET h0).2.1 (.buf j))
  exact ⟨this.2.2.2.2, this.2.2.2.1⟩

/-- Every state reached under the lock discipline satisfies the invariant
and the uniqueness invariant. -/
theorem ReachableHeld.has_uniq {NBUF NBUCKET : Nat} {s : State} (h0 : 0 < NBUCKET)
    (h : ReachableHeld NBUF NBUCKET s) : ∃ L, Inv NBUF NBUCKET s L ∧ Uniq NBUCKET s L := by
  induction h with
  | init => exact ⟨_, Inv.inv_binit NBUF NBUCKET h0, Uniq.uniq_binit NBUF NBUCKET h0⟩
  | bget _ hg ih =>
    obtain ⟨L, hinv, hu⟩ := ih
    have hh := bget_ret_hash _ _ _ _ _ _ _ _ hg
    obtain ⟨j, s1, L1, rfl, hsel, _, rfl⟩ := bget_ret _ _ _ _ _ _ _ _ _ L hinv.wf h0 hg
    exact ⟨L1, hinv.selected h0 hh hsel _ _, hu.after_selected hinv h0 hh hsel _ _⟩
  | @brelse s s1 pid j _ _ hg ih =>
    obtain ⟨L, hinv, hu⟩ := ih
    obtain ⟨hhold, _, rfl⟩ := brelse_ret _ _ _ _ _ hg
    have hl : (s.node (.buf j)).lock ≠ none := by
      simp only [holdingsleep, beq_iff_eq] at hhold
      rw [hhold]; exact fun e => by cases e
    refine ⟨L, hinv.congr_fields (fun p => ?_) (fun p => ?_) (fun p => ?_) (fun p => ?_)
      (fun p => ?_), hu.update_held hl (fun p => ?_) (fun p => ?_) (fun p hp => ?_)
      (fun p hp => ?_)⟩
    · simp only [log_node, setRefcnt_next, releasesleep, setLock_next]
    · simp only [log_node, setRefcnt_prev, releasesleep, setLock_prev]
    · simp only [log_node, setRefcnt_valid, releasesleep, setLock_valid]
      exact hinv.valid_le p
    · simp only [log_node, setRefcnt_refcnt, releasesleep, setLock_refcnt]
      split
      · exact Nat.mod_lt _ (by decide)
      · exact hinv.refcnt_lt p
    · simp only [log_node, setRefcnt_blockno, releasesleep, setLock_blockno]
    · simp only [log_node, setRefcnt_dev, releasesleep, setLock_dev]
    · simp only [log_node, setRefcnt_blockno, releasesleep, setLock_blockno]
    · simp only [log_node, setRefcnt_refcnt, releasesleep, setLock_refcnt, hp, ↓reduceIte]
    · simp only [log_node, setRefcnt_lock, releasesleep, setLock_lock, hp, ↓reduceIte]
  | @bpin s s1 pid j _ _ hlock hg ih =>
    obtain ⟨L, hinv, hu⟩ := ih
    obtain ⟨_, rfl⟩ := bpin_ret _ _ _ _ hg
    have hl : (s.node (.buf j)).lock ≠ none := by rw [hlock]; exact fun e => by cases e
    refine ⟨L, hinv.congr_fields (fun p => ?_) (fun p => ?_) (fun p => ?_) (fun p => ?_)
      (fun p => ?_), hu.update_held hl (fun p => ?_) (fun p => ?_) (fun p hp => ?_)
      (fun p hp => ?_)⟩
    · simp only [log_node, setRefcnt_next]
    · simp only [log_node, setRefcnt_prev]
    · simp only [log_node, setRefcnt_valid]
      exact hinv.valid_le p
    · simp only [log_node, setRefcnt_refcnt]
      split
      · exact Nat.mod_lt _ (by decide)
      · exact hinv.refcnt_lt p
    · simp only [log_node, setRefcnt_blockno]
    · simp only [log_node, setRefcnt_dev]
    · simp only [log_node, setRefcnt_blockno]
    · simp only [log_node, setRefcnt_refcnt, hp, ↓reduceIte]
    · simp only [log_node, setRefcnt_lock]
  | @bunpin s s1 pid j _ _ hlock hg ih =>
    obtain ⟨L, hinv, hu⟩ := ih
    obtain ⟨_, rfl⟩ := bunpin_ret _ _ _ _ hg
    have hl : (s.node (.buf j)).lock ≠ none := by rw [hlock]; exact fun e => by cases e
    refine ⟨L, hinv.congr_fields (fun p => ?_) (fun p => ?_) (fun p => ?_) (fun p => ?_)
      (fun p => ?_), hu.update_held hl (fun p => ?_) (fun p => ?_) (fun p hp => ?_)
      (fun p hp => ?_)⟩
    · simp only [log_node, setRefcnt_next]
    · simp only [log_node, setRefcnt_prev]
    · simp only [log_node, setRefcnt_valid]
      exact hinv.valid_le p
    · simp only [log_node, setRefcnt_refcnt]
      split
      · exact Nat.mod_lt _ (by decide)
      · exact hinv.refcnt_lt p
    · simp only [log_node, setRefcnt_blockno]
    · simp only [log_node, setRefcnt_dev]
    · simp only [log_node, setRefcnt_blockno]
    · simp only [log_node, setRefcnt_refcnt, hp, ↓reduceIte]
    · simp only [log_node, setRefcnt_lock]

/-- Under the invariants, a buffer with a non-zero `refcnt` is the first match
of its identity in the bucket of its block number. -/
theorem Uniq.find_eq {NBUF NBUCKET : Nat} {s : State} {L : Nat → List Nat}
    (hinv : Inv NBUF NBUCKET s L) (hu : Uniq NBUCKET s L) {x : Nat} (hx : x < NBUF)
    (hr : (s.node (.buf x)).refcnt ≠ 0) :
    0 ≤ hash_fn NBUCKET (toInt (s.node (.buf x)).blockno) ∧
    (L (bucketOf NBUCKET (s.node (.buf x)).blockno)).find?
      (fun y => isCached s (s.node (.buf x)).dev (s.node (.buf x)).blockno (.buf y)) = some x := by
  obtain ⟨i, hi, hxi⟩ := hinv.wf.2.2 x hx
  obtain ⟨hh, hb⟩ := hinv.hashed i hi x hxi
  refine ⟨hh, ?_⟩
  rw [hb]
  by_contra hnf
  exact hr (hu i hi x hxi hnf).1

theorem heldState_reachableHeld : ReachableHeld 3 2 heldState :=
  ReachableHeld.bget ReachableHeld.init (Outcome.eq_ret_of_val? (r := Ptr.buf 2) (by decide))

theorem heldZero_reachableHeld : ReachableHeld 2 2 heldZero :=
  ReachableHeld.bget ReachableHeld.init (Outcome.eq_ret_of_val? (r := Ptr.buf 1) (by decide))

theorem scan_found (step : Ptr → Ptr) (f : Ptr → Bool) (stop : Ptr) :
    ∀ (fuel : Nat) (b r : Ptr), scan step f stop fuel b = some (some r) → f r = true
  | 0, _, _, h => by simp [scan] at h
  | fuel + 1, b, r, h => by
    simp only [scan] at h
    by_cases h1 : b = stop
    · simp [h1] at h
    · by_cases h2 : f b = true
      · simp only [h1, h2, ↓reduceIte, Option.some.injEq] at h
        exact h ▸ h2
      · simp only [h1, h2, ↓reduceIte, Bool.false_eq_true] at h
        exact scan_found step f stop fuel (step b) r h

theorem Evicts.of_same_node {s s0 s1 : State} (h : Evicts s0 s1) (e : s0.node = s.node) :
    Evicts s s1 := by
  obtain ⟨b, h1, h2⟩ := h
  exact ⟨b, by simpa only [e] using h1, by simpa only [e] using h2⟩

theorem Evicts.refl_node {s s1 : State} (e : s1.node = s.node) : Evicts s s1 :=
  ⟨.null, fun p _ => by simp only [e, and_self], Or.inl (by simp only [e, and_self])⟩

/-- Taking the sleep-lock of `b`, or sleeping on it, after a change that
evicts at most `b`. -/
theorem Evicts.acquiresleep {s s0 s1 : State} {pid : Nat} {b : Ptr}
    (hp : ∀ p, p ≠ b → (s0.node p).valid = (s.node p).valid ∧ (s0.node p).dev = (s.node p).dev ∧
      (s0.node p).blockno = (s.node p).blockno ∧ (s0.node p).refcnt = (s.node p).refcnt)
    (hb : ((s0.node b).valid = (s.node b).valid ∧ (s0.node b).dev = (s.node b).dev ∧
      (s0.node b).blockno = (s.node b).blockno) ∨ (s.node b).refcnt = 0)
    (h : (acquiresleep s0 pid b).state? = some s1) : Evicts s s1 := by
  unfold Bio.acquiresleep at h
  cases hl : (s0.node b).lock with
  | none =>
    rw [hl] at h
    simp only [Outcome.state?, Option.some.injEq] at h
    subst h
    exact ⟨b, fun p hpb => by simpa only [log_node, setLock_valid, setLock_dev, setLock_blockno,
      setLock_refcnt] using hp p hpb, by simpa only [log_node, setLock_valid, setLock_dev,
      setLock_blockno] using hb⟩
  | some q =>
    rw [hl] at h
    simp only [Outcome.state?, Option.some.injEq] at h
    subst h
    exact ⟨b, hp, hb⟩

theorem reinit_fields (s : State) (b : Ptr) (dev blockno : Nat) (p : Ptr) (h : p ≠ b) :
    ((reinit s b dev blockno).node p).valid = (s.node p).valid ∧
    ((reinit s b dev blockno).node p).dev = (s.node p).dev ∧
    ((reinit s b dev blockno).node p).blockno = (s.node p).blockno ∧
    ((reinit s b dev blockno).node p).refcnt = (s.node p).refcnt := by
  have := (data_eq_iff _ _).1 (reinit_other s b dev blockno p h)
  exact ⟨this.1, this.2.1, this.2.2.1, this.2.2.2.2⟩

theorem relink_fields (s : State) (b : Ptr) (idx : Nat) (p : Ptr) :
    ((relink s b idx).node p).valid = (s.node p).valid ∧
    ((relink s b idx).node p).dev = (s.node p).dev ∧
    ((relink s b idx).node p).blockno = (s.node p).blockno ∧
    ((relink s b idx).node p).refcnt = (s.node p).refcnt := by
  have := (data_eq_iff _ _).1 (relink_data s b idx p)
  exact ⟨this.1, this.2.1, this.2.2.1, this.2.2.2.2⟩

theorem bgetSteal_evicts (fuel pid dev blockno idx : Nat) :
    ∀ (is : List Nat) (s s1 : State),
    (bgetSteal fuel pid dev blockno idx is s).state? = some s1 → Evicts s s1
  | [], s, s1, h => by
    simp only [bgetSteal, Outcome.state?, Option.some.injEq] at h
    subst h
    exact Evicts.refl_node rfl
  | i :: is, s, s1, h => by
    by_cases hi : i = idx
    · simp only [bgetSteal, hi, ↓reduceIte] at h
      exact bgetSteal_evicts fuel pid dev blockno idx is s s1 h
    · simp only [bgetSteal, hi, ↓reduceIte, log_node] at h
      cases hs : scan (fun b => (s.node b).next) (fun b => (s.node b).refcnt == 0) (.head i)
          fuel (s.node (.head i)).next with
      | none => rw [hs] at h; cases h
      | some r =>
        rw [hs] at h
        cases r with
        | none =>
          exact (bgetSteal_evicts fuel pid dev blockno idx is _ s1 h).of_same_node rfl
        | some b =>
          have hf := scan_found _ _ _ _ _ _ hs
          simp only [beq_iff_eq] at hf
          refine Evicts.acquiresleep (s := s) (fun p hp => ?_) (Or.inr hf) h
          have h1 := reinit_fields (relink (((s.log (.release idx)).log
            (.acquire (if i < idx then i else idx))).log (.acquire (if i < idx then idx else i)))
            b idx) b dev blockno p hp
          have h2 := relink_fields (((s.log (.release idx)).log
            (.acquire (if i < idx then i else idx))).log (.acquire (if i < idx then idx else i)))
            b idx p
          simp only [log_node] at h1 h2 ⊢
          exact ⟨h1.1.trans h2.1, h1.2.1.trans h2.2.1, h1.2.2.1.trans h2.2.2.1,
            h1.2.2.2.trans h2.2.2.2⟩

/-- In every state, a call of `bget` that leaves a state has changed `valid`,
`dev`, `blockno` or `refcnt` of at most one buffer, and has changed the
identity or validity of that buffer only if it was unused. -/
theorem bget_evicts (NBUCKET fuel : Nat) (s s1 : State) (pid dev blockno : Nat)
    (h : (bget NBUCKET fuel s pid dev blockno).state? = some s1) : Evicts s s1 := by
  unfold bget at h
  by_cases hh : hash_fn NBUCKET (toInt blockno) < 0
  · simp only [hh, ↓reduceIte, Outcome.state?] at h
    cases h
  · simp only [hh, ↓reduceIte, log_node] at h
    cases hs : scan (fun b => (s.node b).next)
        (fun b => (s.node b).dev == dev && (s.node b).blockno == blockno)
        (.head (hash_fn NBUCKET (toInt blockno)).toNat) fuel
        (s.node (.head (hash_fn NBUCKET (toInt blockno)).toNat)).next with
    | none => rw [hs] at h; cases h
    | some r =>
      rw [hs] at h
      cases r with
      | some b =>
        refine Evicts.acquiresleep (s := s) (fun p hp => ?_) (Or.inl ?_) h
        · simp only [log_node, setRefcnt_valid, setRefcnt_dev, setRefcnt_blockno,
            setRefcnt_refcnt, hp, ↓reduceIte, and_self]
        · simp only [log_node, setRefcnt_valid, setRefcnt_dev, setRefcnt_blockno, and_self]
      | none =>
        simp only at h
        cases hs2 : scan (fun b => (s.node b).prev) (fun b => (s.node b).refcnt == 0)
            (.head (hash_fn NBUCKET (toInt blockno)).toNat) fuel
            (s.node (.head (hash_fn NBUCKET (toInt blockno)).toNat)).prev with
        | none => rw [hs2] at h; cases h
        | some r2 =>
          rw [hs2] at h
          cases r2 with
          | some b =>
            have hf := scan_found _ _ _ _ _ _ hs2
            simp only [beq_iff_eq] at hf
            refine Evicts.acquiresleep (s := s) (fun p hp => ?_) (Or.inr hf) h
            have h1 := reinit_fields (s.log (.acquire (hash_fn NBUCKET (toInt blockno)).toNat))
              b dev blockno p hp
            simpa only [log_node] using h1
          | none =>
            exact (bgetSteal_evicts fuel pid dev blockno _ _ _ s1 h).of_same_node rfl

theorem Counted.is_reachable {NBUF NBUCKET : Nat} {D : State → Nat → Prop} {s : State}
    {inc dec : Nat → Nat} (h : Counted NBUF NBUCKET D s inc dec) : Reachable NBUF NBUCKET s := by
  induction h with
  | init => exact .init
  | bget _ hg ih => exact .bget ih hg
  | brelse _ hj _ hg ih => exact .brelse ih hj hg
  | bpin _ hj hg ih => exact .bpin ih hj hg
  | bunpin _ hj _ hg ih => exact .bunpin ih hj hg

theorem count_inc (r a d : Nat) (hd : d ≤ a) (hr : r = (a - d) % UINT) :
    d ≤ a + 1 ∧ (r + 1) % UINT = (a + 1 - d) % UINT := by
  simp only [UINT] at *
  omega

theorem count_dec (r a d : Nat) (hd : d ≤ a) (hr : r = (a - d) % UINT) (h0 : r ≠ 0) :
    d + 1 ≤ a ∧ (r + (UINT - 1)) % UINT = (a - (d + 1)) % UINT := by
  simp only [UINT] at *
  omega

theorem heldState_counted (D : State → Nat → Prop) :
    Counted 3 2 D heldState (Function.update (fun _ => 0) 2 1) (fun _ => 0) :=
  Counted.bget Counted.init (Outcome.eq_ret_of_val? (r := Ptr.buf 2) (by decide))

theorem bread_of_bget (NBUCKET fuel : Nat) (s s1 : State) (pid dev blockno : Nat) (b : Ptr)
    (hg : bget NBUCKET fuel s pid dev blockno = .ret b s1) :
    bread NBUCKET fuel s pid dev blockno =
      .ret b (if (s1.node b).valid = 0 then (s1.log (.disk_rw b false)).setValid b 1 else s1) := by
  simp only [bread, hg]
  split <;> rfl

end Bio

/-! ## The buffer cache: the claims -/

namespace Bio

/-- C1, amended: in a reachable state, for a block number whose bucket index
is not negative, `bget` calls `panic("bget: no buffers")` exactly when no
buffer of bucket `hash(blockno)` has the identity `(dev, blockno)` and no
buffer of the pool has `refcnt` 0.  Otherwise it selects one of the `NBUF`
buffers, which gets the identity `(dev, blockno)` and a `refcnt` of 1 (a miss)
or of the old value plus 1 modulo `2^32` (a hit), so at least 1 unless the old
value was `2^32 - 1`: when the lock of that buffer is free the call returns it
with the lock held by the caller, and when the lock is held the call sleeps
on it instead of returning. -/
theorem bget_outcome (NBUF NBUCKET fuel : Nat) (s : State) (pid dev blockno : Nat)
    (h0 : 0 < NBUCKET) (hr : Reachable NBUF NBUCKET s)
    (hh : 0 ≤ hash_fn NBUCKET (toInt blockno)) (hfuel : NBUF < fuel) :
    ∃ L, Inv NBUF NBUCKET s L ∧
      ((bget NBUCKET fuel s pid dev blockno).aborts = true ↔
        ((∀ x ∈ L (bucketOf NBUCKET blockno), isCached s dev blockno (.buf x) = false) ∧
          ∀ j, j < NBUF → (s.node (.buf j)).refcnt ≠ 0)) ∧
      ((bget NBUCKET fuel s pid dev blockno).aborts = true →
        ∃ s1, bget NBUCKET fuel s pid dev blockno = .abort "bget: no buffers" s1 ∧
          s1.node = s.node) ∧
      ((bget NBUCKET fuel s pid dev blockno).aborts = false →
        ∃ j s1, j < NBUF ∧ (s1.node (.buf j)).dev = dev ∧ (s1.node (.buf j)).blockno = blockno ∧
          ((s1.node (.buf j)).refcnt = 1 ∨
            (s1.node (.buf j)).refcnt = ((s.node (.buf j)).refcnt + 1) % UINT) ∧
          ((s.node (.buf j)).refcnt ≠ UINT - 1 → 1 ≤ (s1.node (.buf j)).refcnt) ∧
          (((s.node (.buf j)).lock = none ∧
              bget NBUCKET fuel s pid dev blockno = .ret (.buf j) s1 ∧
              (s1.node (.buf j)).lock = some pid) ∨
            ((s.node (.buf j)).lock ≠ none ∧
              bget NBUCKET fuel s pid dev blockno = .sleeps (.buf j) s1))) := by
  obtain ⟨L, hinv⟩ := hr.has_inv h0
  refine ⟨L, hinv, ?_⟩
  rcases bget_select NBUF NBUCKET fuel s pid dev blockno L hinv.wf h0 hh hfuel with
    ⟨hnone, hfree, s1, e, hn, _⟩ | ⟨j, s1, L1, e, hsel⟩
  · have hcond : (∀ x ∈ L (bucketOf NBUCKET blockno), isCached s dev blockno (.buf x) = false) ∧
        ∀ j, j < NBUF → (s.node (.buf j)).refcnt ≠ 0 :=
      ⟨fun x hx => by simpa using List.find?_eq_none.1 hnone x hx,
        fun j hj => by simpa [isFree] using hfree j hj⟩
    rw [e]
    exact ⟨⟨fun _ => hcond, fun _ => rfl⟩, fun _ => ⟨s1, rfl, hn⟩, fun h => (by cases h)⟩
  · have hna : (bget NBUCKET fuel s pid dev blockno).aborts = false := by
      rw [e]; unfold acquiresleep; split <;> rfl
    have hrc : (s1.node (.buf j)).refcnt = 1 ∨
        (s1.node (.buf j)).refcnt = ((s.node (.buf j)).refcnt + 1) % UINT := by
      rcases hsel.how with ⟨_, _, _, e1⟩ | ⟨_, _, _, e1, _⟩
      · exact Or.inr e1
      · exact Or.inl e1
    have hge : (s.node (.buf j)).refcnt ≠ UINT - 1 → 1 ≤ (s1.node (.buf j)).refcnt := by
      intro hne
      have hlt := hinv.refcnt_lt (.buf j)
      rcases hrc with e1 | e1
      · omega
      · rw [e1, Nat.mod_eq_of_lt (by omega)]; omega
    refine ⟨?_, fun h => (by rw [hna] at h; cases h), fun _ => ?_⟩
    · rw [hna]
      refine ⟨fun h => (by cases h), fun hc => ?_⟩
      rcases hsel.how with ⟨hf, _⟩ | ⟨_, hz, _⟩
      · have h1 := hc.1 j (List.mem_of_find?_eq_some hf)
        have h2 := List.find?_some hf
        rw [h1] at h2; cases h2
      · exact absurd hz (hc.2 j hsel.lt)
    · cases hl : (s.node (.buf j)).lock with
      | none =>
        have hl1 : (s1.node (.buf j)).lock = none := by rw [hsel.lock_eq, hl]
        refine ⟨j, (s1.setLock (.buf j) (some pid)).log (.acquiresleep (.buf j)), hsel.lt, ?_, ?_,
          ?_, ?_, Or.inl ⟨hl, ?_, ?_⟩⟩
        · simp only [log_node, setLock_dev]; exact hsel.dev_eq
        · simp only [log_node, setLock_blockno]; exact hsel.blockno_eq
        · simpa only [log_node, setLock_refcnt] using hrc
        · simpa only [log_node, setLock_refcnt] using hge
        · rw [e, acquiresleep_free _ _ _ hl1]
        · simp only [log_node, setLock_lock, ↓reduceIte]
      | some q =>
        have hl1 : (s1.node (.buf j)).lock = some q := by rw [hsel.lock_eq, hl]
        exact ⟨j, s1, hsel.lt, hsel.dev_eq, hsel.blockno_eq, hrc, hge,
          Or.inr ⟨fun h => (by rw [hl] at h; cases h),
            (by rw [e, acquiresleep_held _ _ q _ hl1])⟩⟩

/-- Counterexample to C1: after process 1 has got block `(1, 5)` (buffer 2,
which it still holds), the state is reachable and two buffers are unused, yet
a second `bget(1, 5)` of process 1 neither aborts nor returns: it sleeps on
the lock of buffer 2. -/
theorem bget_sleeps_on_held_buffer :
    Reachable 3 2 heldState ∧ (heldState.node (.buf 0)).refcnt = 0 ∧
    (bget 2 4 heldState 1 1 5).aborts = false ∧
    (bget 2 4 heldState 1 1 5).val? = none ∧
    (bget 2 4 heldState 1 1 5).sleepsOn? = some (.buf 2) :=
  ⟨heldState_reachable, by decide, by decide, by decide, by decide⟩

/-- Witness of C1: `bget(1, 5)` right after `binit`, with 3 buffers and 2
buckets. -/
theorem bget_outcome_witness :
    ∃ L, Inv 3 2 (binit 3 2) L ∧
      ((bget 2 4 (binit 3 2) 1 1 5).aborts = true ↔
        ((∀ x ∈ L (bucketOf 2 5), isCached (binit 3 2) 1 5 (.buf x) = false) ∧
          ∀ j, j < 3 → ((binit 3 2).node (.buf j)).refcnt ≠ 0)) ∧
      ((bget 2 4 (binit 3 2) 1 1 5).aborts = true →
        ∃ s1, bget 2 4 (binit 3 2) 1 1 5 = .abort "bget: no buffers" s1 ∧
          s1.node = (binit 3 2).node) ∧
      ((bget 2 4 (binit 3 2) 1 1 5).aborts = false →
        ∃ j s1, j < 3 ∧ (s1.node (.buf j)).dev = 1 ∧ (s1.node (.buf j)).blockno = 5 ∧
          ((s1.node (.buf j)).refcnt = 1 ∨
            (s1.node (.buf j)).refcnt = (((binit 3 2).node (.buf j)).refcnt + 1) % UINT) ∧
          (((binit 3 2).node (.buf j)).refcnt ≠ UINT - 1 → 1 ≤ (s1.node (.buf j)).refcnt) ∧
          ((((binit 3 2).node (.buf j)).lock = none ∧
              bget 2 4 (binit 3 2) 1 1 5 = .ret (.buf j) s1 ∧
              (s1.node (.buf j)).lock = some 1) ∨
            (((binit 3 2).node (.buf j)).lock ≠ none ∧
              bget 2 4 (binit 3 2) 1 1 5 = .sleeps (.buf j) s1))) :=
  bget_outcome 3 2 4 (binit 3 2) 1 1 5 (by decide) Reachable.init (by decide) (by decide)

/-- Why C1 is stated for a bucket index that is not negative: the block number
`2^32 - 1` is `-1` as an `int`, `hash_fn` returns `-1`, and `bget` indexes
`hashtable` out of bounds. -/
theorem bget_negative_index :
    hash_fn 2 (toInt 4294967295) = -1 ∧ (bget 2 4 (binit 3 2) 1 1 4294967295).faults = true :=
  ⟨by decide, by decide⟩

/-- Why C1 bounds `refcnt` from below only when it does not wrap: after
`bget(1, 5)`, `bunpin` and `brelse`, buffer 2 is unlocked with `refcnt`
`2^32 - 1`, and the next `bget(1, 5)` returns it with `refcnt` 0. -/
theorem bget_returns_wrapped_refcnt :
    Reachable 3 2 wrappedState ∧ (wrappedState.node (.buf 2)).refcnt = 4294967295 ∧
    (bget 2 4 wrappedState 1 1 5).val? = some (.buf 2) ∧
    ((bget 2 4 wrappedState 1 1 5).stateD.node (.buf 2)).refcnt = 0 :=
  ⟨Reachable.brelse (Reachable.bunpin heldState_reachable (by decide)
      (Outcome.eq_ret_of_val? (r := ()) (by decide))) (by decide)
      (Outcome.eq_ret_of_val? (r := ()) (by decide)),
    by decide, by decide, by decide⟩

/-- Counterexample to C2: after process 1 has got block `(0, 0)`, buffer 1
caches it with `refcnt` 1, and a `bget(0, 0)` issued then by process 1 does
not return that buffer: it sleeps on its lock. -/
theorem bget_cached_does_not_return :
    ReachableHeld 2 2 heldZero ∧
    (heldZero.node (.buf 1)).dev = 0 ∧ (heldZero.node (.buf 1)).blockno = 0 ∧
    (heldZero.node (.buf 1)).refcnt = 1 ∧
    (bget 2 3 heldZero 1 0 0).val? = none ∧
    (bget 2 3 heldZero 1 0 0).sleepsOn? = some (.buf 1) :=
  ⟨heldZero_reachableHeld, by decide, by decide, by decide, by decide, by decide⟩

/-- C2, amended: in a state reached by calls of `bget`, `brelse`, `bpin` and
`bunpin` that return, the last three applied to buffers whose lock is held, no
two distinct buffers with a non-zero `refcnt` have the same `(dev, blockno)`;
and a `bget(dev, blockno)` issued while such a buffer exists selects that
buffer, changes no identity and adds 1 to its `refcnt` modulo `2^32`: it
returns the buffer when its lock is free and sleeps on its lock when it is
held. -/
theorem one_copy (NBUF NBUCKET : Nat) (s : State) (h0 : 0 < NBUCKET)
    (hr : ReachableHeld NBUF NBUCKET s) :
    (∀ x y, x < NBUF → y < NBUF → (s.node (.buf x)).dev = (s.node (.buf y)).dev →
      (s.node (.buf x)).blockno = (s.node (.buf y)).blockno →
      (s.node (.buf x)).refcnt ≠ 0 → (s.node (.buf y)).refcnt ≠ 0 → x = y) ∧
    (∀ fuel pid dev blockno x, NBUF < fuel → x < NBUF → (s.node (.buf x)).dev = dev →
      (s.node (.buf x)).blockno = blockno → (s.node (.buf x)).refcnt ≠ 0 →
      ∃ s1, (∀ p, (s1.node p).dev = (s.node p).dev ∧ (s1.node p).blockno = (s.node p).blockno) ∧
        (s1.node (.buf x)).refcnt = ((s.node (.buf x)).refcnt + 1) % UINT ∧
        (((s.node (.buf x)).lock = none ∧
            bget NBUCKET fuel s pid dev blockno = .ret (.buf x) s1 ∧
            (s1.node (.buf x)).lock = some pid) ∨
          ((s.node (.buf x)).lock ≠ none ∧
            bget NBUCKET fuel s pid dev blockno = .sleeps (.buf x) s1))) := by
  obtain ⟨L, hinv, hu⟩ := hr.has_uniq h0
  constructor
  · intro x y hx hy hd hb hrx hry
    have h1 := (hu.find_eq hinv hx hrx).2
    have h2 := (hu.find_eq hinv hy hry).2
    rw [hd, hb, h2] at h1
    exact (Option.some.inj h1).symm
  · intro fuel pid dev blockno x hfuel hx hd hb hrx
    obtain ⟨hh, hf⟩ := hu.find_eq hinv hx hrx
    rw [hd, hb] at hf
    rw [hb] at hh
    obtain ⟨e, _⟩ := bget_hit NBUF NBUCKET fuel s pid dev blockno L x hinv.wf h0 hh hfuel hf
    cases hl : (s.node (.buf x)).lock with
    | none =>
      refine ⟨(((((s.log (.acquire (bucketOf NBUCKET blockno))).setRefcnt (.buf x)
          (((s.node (.buf x)).refcnt + 1) % UINT)).log
          (.release (bucketOf NBUCKET blockno))).setLock (.buf x) (some pid)).log
          (.acquiresleep (.buf x))), fun p => ?_, ?_, Or.inl ⟨rfl, ?_, ?_⟩⟩
      · simp only [log_node, setLock_dev, setRefcnt_dev, setLock_blockno, setRefcnt_blockno,
          and_self]
      · simp only [log_node, setLock_refcnt, setRefcnt_refcnt, ↓reduceIte]
      · rw [e, acquiresleep_free]
        simp only [log_node, setRefcnt_lock]
        exact hl
      · simp only [log_node, setLock_lock, ↓reduceIte]
    | some q =>
      refine ⟨((s.log (.acquire (bucketOf NBUCKET blockno))).setRefcnt (.buf x)
          (((s.node (.buf x)).refcnt + 1) % UINT)).log (.release (bucketOf NBUCKET blockno)),
        fun p => ?_, ?_, Or.inr ⟨fun h => (by cases h), ?_⟩⟩
      · simp only [log_node, setRefcnt_dev, setRefcnt_blockno, and_self]
      · simp only [log_node, setRefcnt_refcnt, ↓reduceIte]
      · rw [e, acquiresleep_held _ _ q]
        simp only [log_node, setRefcnt_lock]
        exact hl

/-- Witness of C2: the cache of 3 buffers and 2 buckets in which process 1
holds block `(1, 5)` in buffer 2: no other buffer caches a block, and a second
`bget(1, 5)` selects buffer 2 again. -/
theorem one_copy_witness :
    (∀ x y, x < 3 → y < 3 → (heldState.node (.buf x)).dev = (heldState.node (.buf y)).dev →
      (heldState.node (.buf x)).blockno = (heldState.node (.buf y)).blockno →
      (heldState.node (.buf x)).refcnt ≠ 0 → (heldState.node (.buf y)).refcnt ≠ 0 → x = y) ∧
    (heldState.node (.buf 2)).refcnt ≠ 0 ∧
    ∃ s1, (∀ p, (s1.node p).dev = (heldState.node p).dev ∧
        (s1.node p).blockno = (heldState.node p).blockno) ∧
      (s1.node (.buf 2)).refcnt = ((heldState.node (.buf 2)).refcnt + 1) % UINT ∧
      (((heldState.node (.buf 2)).lock = none ∧
          bget 2 4 heldState 1 1 5 = .ret (.buf 2) s1 ∧
          (s1.node (.buf 2)).lock = some 1) ∨
        ((heldState.node (.buf 2)).lock ≠ none ∧
          bget 2 4 heldState 1 1 5 = .sleeps (.buf 2) s1)) :=
  ⟨(one_copy 3 2 heldState (by decide) heldState_reachableHeld).1, by decide,
    (one_copy 3 2 heldState (by decide) heldState_reachableHeld).2 4 1 1 5 2 (by decide)
      (by decide) (by decide) (by decide) (by decide)⟩

/-- C3: eviction never selects a buffer with `refcnt > 0`.  In every state, a
buffer whose `dev`, `blockno` or `valid` a call of `bget` changes had `refcnt`
0 before the call, and `dev`, `blockno`, `valid` and `refcnt` of all buffers
but one are unchanged; and in a well-formed cache the call leaves a
well-formed cache in which every buffer that has left its bucket had `refcnt`
0 before the call. -/
theorem bget_never_evicts_referenced (NBUF NBUCKET fuel : Nat) (s : State)
    (pid dev blockno : Nat) :
    (∀ s1, (bget NBUCKET fuel s pid dev blockno).state? = some s1 →
      (∀ p, ((s1.node p).dev ≠ (s.node p).dev ∨ (s1.node p).blockno ≠ (s.node p).blockno ∨
          (s1.node p).valid ≠ (s.node p).valid) → (s.node p).refcnt = 0) ∧
      (∃ b, ∀ p, p ≠ b → (s1.node p).dev = (s.node p).dev ∧
        (s1.node p).blockno = (s.node p).blockno ∧ (s1.node p).valid = (s.node p).valid ∧
        (s1.node p).refcnt = (s.node p).refcnt)) ∧
    (∀ L, Wf NBUF NBUCKET s L → 0 < NBUCKET → 0 ≤ hash_fn NBUCKET (toInt blockno) →
      NBUF < fuel →
      ∃ s1 L1, (bget NBUCKET fuel s pid dev blockno).state? = some s1 ∧
        Wf NBUF NBUCKET s1 L1 ∧
        ∀ i x, i < NBUCKET → x ∈ L i → x ∉ L1 i → (s.node (.buf x)).refcnt = 0) := by
  constructor
  · intro s1 h
    obtain ⟨b, hp, hb⟩ := bget_evicts NBUCKET fuel s s1 pid dev blockno h
    refine ⟨fun p hch => ?_, b, fun p hpb => ?_⟩
    · by_cases hpb : p = b
      · subst hpb
        rcases hb with ⟨h1, h2, h3⟩ | h0
        · rcases hch with c | c | c
          · exact absurd h2 c
          · exact absurd h3 c
          · exact absurd h1 c
        · exact h0
      · obtain ⟨h1, h2, h3, _⟩ := hp p hpb
        rcases hch with c | c | c
        · exact absurd h2 c
        · exact absurd h3 c
        · exact absurd h1 c
    · obtain ⟨h1, h2, h3, h4⟩ := hp p hpb
      exact ⟨h2, h3, h1, h4⟩
  · intro L hwf h0 hh hfuel
    rcases bget_select NBUF NBUCKET fuel s pid dev blockno L hwf h0 hh hfuel with
      ⟨_, _, s1, e, hn, _⟩ | ⟨j, s0, L1, e, hsel⟩
    · refine ⟨s1, L, by rw [e]; rfl, hwf.congr_wf (fun p => by rw [hn]) (fun p => by rw [hn]),
        fun i x _ hx hnx => absurd hx hnx⟩
    · have hmoved : ∀ i x, i < NBUCKET → x ∈ L i → x ∉ L1 i → (s.node (.buf x)).refcnt = 0 := by
        intro i x _ hx hnx
        have hxj : x = j := by
          by_contra hxj
          exact hnx (hsel.mem_new hx hxj)
        subst hxj
        rcases hsel.how with ⟨_, eL, _⟩ | ⟨_, hz, _⟩
        · rw [eL] at hnx; exact absurd hx hnx
        · exact hz
      cases hl : (s0.node (.buf j)).lock with
      | none =>
        refine ⟨(s0.setLock (.buf j) (some pid)).log (.acquiresleep (.buf j)), L1, ?_,
          hsel.wf.congr_wf (fun p => ?_) (fun p => ?_), hmoved⟩
        · rw [e, acquiresleep_free _ _ _ hl]; rfl
        · simp only [log_node, setLock_next]
        · simp only [log_node, setLock_prev]
      | some q =>
        exact ⟨s0, L1, by rw [e, acquiresleep_held _ _ q _ hl]; rfl, hsel.wf, hmoved⟩

/-- Witness of C3: right after `binit`, with 3 buffers and 2 buckets,
`bget(1, 5)` steals buffer 2 from bucket 0. -/
theorem bget_never_evicts_referenced_witness :
    ∃ s1 L1, (bget 2 4 (binit 3 2) 1 1 5).state? = some s1 ∧ Wf 3 2 s1 L1 ∧
      ∀ i x, i < 2 → x ∈ initLists 3 i → x ∉ L1 i → ((binit 3 2).node (.buf x)).refcnt = 0 :=
  (bget_never_evicts_referenced 3 2 4 (binit 3 2) 1 1 5).2 (initLists 3)
    (binit_wf 3 2 (by decide)).1 (by decide) (by decide) (by decide)

/-- Counterexample to C4: after `bget(1, 5)` has returned buffer 2, two calls
of `bunpin` on that buffer return; then the buffer counts one acquisition and
two releases, and its `refcnt` has wrapped to `2^32 - 1`. -/
theorem bunpin_wraps_refcnt :
    ∃ inc dec, Counted 3 2 (fun _ _ => True) unpinnedTwice inc dec ∧
      inc 2 = 1 ∧ dec 2 = 2 ∧ (unpinnedTwice.node (.buf 2)).refcnt = 4294967295 :=
  ⟨_, _, Counted.bunpin (Counted.bunpin (heldState_counted _) (by decide) trivial
      (Outcome.eq_ret_of_val? (r := ()) (by decide))) (by decide) trivial
      (Outcome.eq_ret_of_val? (r := ()) (by decide)),
    by decide, by decide, by decide⟩

/-- C4, amended: in every state reached by calls of `bget`, `brelse`, `bpin`
and `bunpin` that return, `brelse` and `bunpin` being applied only to buffers
whose `refcnt` is not 0, every buffer has had no more releases and unpins
than gets and pins, and its `refcnt` is the difference modulo `2^32`: the
difference itself as long as it is below `2^32`. -/
theorem refcnt_counts (NBUF NBUCKET : Nat) (s : State) (inc dec : Nat → Nat) (h0 : 0 < NBUCKET)
    (h : Counted NBUF NBUCKET Referenced s inc dec) (j : Nat) :
    dec j ≤ inc j ∧ (s.node (.buf j)).refcnt = (inc j - dec j) % UINT ∧
    (inc j - dec j < UINT → (s.node (.buf j)).refcnt = inc j - dec j) := by
  suffices hmain : dec j ≤ inc j ∧ (s.node (.buf j)).refcnt = (inc j - dec j) % UINT from
    ⟨hmain.1, hmain.2, fun hlt => by rw [hmain.2, Nat.mod_eq_of_lt hlt]⟩
  induction h generalizing j with
  | init =>
    have := (data_eq_iff _ _).1 ((binit_wf NBUF NBUCKET h0).2.1 (.buf j))
    exact ⟨le_refl _, by rw [this.2.2.2.2]; rfl⟩
  | @bget s s1 inc dec fuel pid dev blockno k hc hg ih =>
    obtain ⟨L, hinv⟩ := hc.is_reachable.has_inv h0
    obtain ⟨k1, s0, L1, hk, hsel, _, rfl⟩ := bget_ret NBUF NBUCKET fuel s s1 pid dev blockno _ L
      hinv.wf h0 hg
    injection hk with hk
    subst hk
    simp only [log_node, setLock_refcnt]
    by_cases hjk : j = k
    · subst hjk
      simp only [Function.update_same]
      obtain ⟨hd, hr⟩ := ih j
      rcases hsel.how with ⟨_, _, _, e⟩ | ⟨_, hz, _, e, _⟩
      · rw [e]
        exact count_inc _ _ _ hd hr
      · rw [e]
        have := count_inc _ _ _ hd hr
        rw [hz] at this
        exact ⟨this.1, this.2⟩
    · have hp : Ptr.buf j ≠ Ptr.buf k := fun e => hjk (by injection e)
      rw [Function.update_noteq hjk, (hsel.other_fields hp).2.2.2.2]
      exact ih j
  | @brelse s s1 inc dec pid k hc _ hD hg ih =>
    obtain ⟨_, _, rfl⟩ := brelse_ret _ _ _ _ _ hg
    simp only [log_node, setRefcnt_refcnt, releasesleep, setLock_refcnt]
    by_cases hjk : j = k
    · subst hjk
      simp only [Function.update_same, ↓reduceIte]
      obtain ⟨hd, hr⟩ := ih j
      exact count_dec _ _ _ hd hr hD
    · have hp : Ptr.buf j ≠ Ptr.buf k := fun e => hjk (by injection e)
      simp only [Function.update_noteq hjk, hp, ↓reduceIte]
      exact ih j
  | @bpin s s1 inc dec k hc _ hg ih =>
    obtain ⟨_, rfl⟩ := bpin_ret _ _ _ _ hg
    simp only [log_node, setRefcnt_refcnt]
    by_cases hjk : j = k
    · subst hjk
      simp only [Function.update_same, ↓reduceIte]
      obtain ⟨hd, hr⟩ := ih j
      exact count_inc _ _ _ hd hr
    · have hp : Ptr.buf j ≠ Ptr.buf k := fun e => hjk (by injection e)
      simp only [Function.update_noteq hjk, hp, ↓reduceIte]
      exact ih j
  | @bunpin s s1 inc dec k hc _ hD hg ih =>
    obtain ⟨_, rfl⟩ := bunpin_ret _ _ _ _ hg
    simp only [log_node, setRefcnt_refcnt]
    by_cases hjk : j = k
    · subst hjk
      simp only [Function.update_same, ↓reduceIte]
      obtain ⟨hd, hr⟩ := ih j
      exact count_dec _ _ _ hd hr hD
    · have hp : Ptr.buf j ≠ Ptr.buf k := fun e => hjk (by injection e)
      simp only [Function.update_noteq hjk, hp, ↓reduceIte]
      exact ih j

/-- Witness of C4: the run `binit`, `bget(1, 5)` and buffer 2, which that call
returned. -/
theorem refcnt_counts_witness :
    (fun _ => 0) 2 ≤ (Function.update (fun _ => 0) 2 1 : Nat → Nat) 2 ∧
    (heldState.node (.buf 2)).refcnt =
      ((Function.update (fun _ => 0) 2 1 : Nat → Nat) 2 - (fun _ => 0) 2) % UINT ∧
    ((Function.update (fun _ => 0) 2 1 : Nat → Nat) 2 - (fun _ => 0) 2 < UINT →
      (heldState.node (.buf 2)).refcnt =
        (Function.update (fun _ => 0) 2 1 : Nat → Nat) 2 - (fun _ => 0) 2) :=
  refcnt_counts 3 2 heldState _ _ (by decide) (heldState_counted _) 2

/-- C5: when `bget(dev, blockno)` returns in a reachable state, the sequence
`bread`, `brelse`, `bread` returns the same buffer twice, with the identity
`(dev, blockno)` and `valid = 1`; the first `bread` calls the device exactly
when the buffer that `bget` returned is not valid, with one read, and the
second `bread` makes no call of the device. -/
theorem bread_twice (NBUF NBUCKET fuel : Nat) (s s1 : State) (pid dev blockno : Nat) (b : Ptr)
    (h0 : 0 < NBUCKET) (hr : Reachable NBUF NBUCKET s) (hfuel : NBUF < fuel)
    (hg : bget NBUCKET fuel s pid dev blockno = .ret b s1) :
    ∃ s2 s3 s4, bread NBUCKET fuel s pid dev blockno = .ret b s2 ∧
      brelse NBUCKET s2 pid b = .ret () s3 ∧
      bread NBUCKET fuel s3 pid dev blockno = .ret b s4 ∧
      (s2.node b).dev = dev ∧ (s2.node b).blockno = blockno ∧ (s2.node b).valid = 1 ∧
      (s4.node b).dev = dev ∧ (s4.node b).blockno = blockno ∧ (s4.node b).valid = 1 ∧
      s2.trace = s1.trace ++ (if (s1.node b).valid = 0 then [Ev.disk_rw b false] else []) ∧
      ∃ t, s4.trace = s3.trace ++ t ∧ ∀ e ∈ t, Ev.isDisk e = false := by
  obtain ⟨L, hinv⟩ := hr.has_inv h0
  have hh := bget_ret_hash _ _ _ _ _ _ _ _ hg
  obtain ⟨j, s0, L1, rfl, hsel, hlock, rfl⟩ := bget_ret NBUF NBUCKET fuel s s1 pid dev blockno b L
    hinv.wf h0 hg
  have hinv1 := hinv.selected h0 hh hsel (some pid) (.acquiresleep (.buf j))
  generalize hs1 : (s0.setLock (.buf j) (some pid)).log (.acquiresleep (.buf j)) = s1 at *
  have hd1 : (s1.node (.buf j)).dev = dev := by
    rw [← hs1]; simp only [log_node, setLock_dev]; exact hsel.dev_eq
  have hb1 : (s1.node (.buf j)).blockno = blockno := by
    rw [← hs1]; simp only [log_node, setLock_blockno]; exact hsel.blockno_eq
  have hl1 : (s1.node (.buf j)).lock = some pid := by
    rw [← hs1]; simp only [log_node, setLock_lock, ↓reduceIte]
  have hf1 : (L1 (bucketOf NBUCKET blockno)).find?
      (fun x => isCached s1 dev blockno (.buf x)) = some j := by
    rw [← hsel.first, ← hs1]
    simp only [isCached, log_node, setLock_dev, setLock_blockno]
  -- the first bread
  obtain ⟨s2, hs2, hn2, hp2, hd2, hb2, hl2, hr2, hv2, ht2⟩ : ∃ s2,
      s2 = (if (s1.node (.buf j)).valid = 0 then
        (s1.log (.disk_rw (.buf j) false)).setValid (.buf j) 1 else s1) ∧
      (∀ p, (s2.node p).next = (s1.node p).next) ∧ (∀ p, (s2.node p).prev = (s1.node p).prev) ∧
      (∀ p, (s2.node p).dev = (s1.node p).dev) ∧
      (∀ p, (s2.node p).blockno = (s1.node p).blockno) ∧
      (∀ p, (s2.node p).lock = (s1.node p).lock) ∧
      (∀ p, (s2.node p).refcnt = (s1.node p).refcnt) ∧
      (s2.node (.buf j)).valid = 1 ∧
      s2.trace = s1.trace ++
        (if (s1.node (.buf j)).valid = 0 then [Ev.disk_rw (.buf j) false] else []) := by
    refine ⟨_, rfl, ?_⟩
    by_cases hv : (s1.node (.buf j)).valid = 0
    · simp only [hv, ↓reduceIte, setValid_next, setValid_prev, setValid_dev, setValid_blockno,
        setValid_lock, setValid_refcnt, setValid_valid, log_node, implies_true, true_and]
      rfl
    · have := hinv1.valid_le (.buf j)
      simp only [hv, ↓reduceIte, implies_true, true_and, List.append_nil, and_true]
      omega
  -- the release
  have hhold : holdingsleep s2 pid (.buf j) = true := by
    simp only [holdingsleep, hl2, hl1, beq_self_eq_true]
  have hh2 : ¬ hash_fn NBUCKET (toInt (s2.node (.buf j)).blockno) < 0 := by
    rw [hb2, hb1]; exact not_lt.2 hh
  obtain ⟨s3, hs3, hn3, hp3, hd3, hb3, hl3, hv3, ht3⟩ : ∃ s3,
      brelse NBUCKET s2 pid (.buf j) = .ret () s3 ∧
      (∀ p, (s3.node p).next = (s2.node p).next) ∧ (∀ p, (s3.node p).prev = (s2.node p).prev) ∧
      (∀ p, (s3.node p).dev = (s2.node p).dev) ∧
      (∀ p, (s3.node p).blockno = (s2.node p).blockno) ∧
      (s3.node (.buf j)).lock = none ∧
      (∀ p, (s3.node p).valid = (s2.node p).valid) ∧ True := by
    refine ⟨_, by simp only [brelse, hhold, Bool.not_true, Bool.false_eq_true, ↓reduceIte,
      releasesleep, log_node, setLock_blockno, hh2]; rfl, ?_⟩
    simp only [log_node, setRefcnt_next, setRefcnt_prev, setRefcnt_dev, setRefcnt_blockno,
      setRefcnt_lock, setRefcnt_valid, setLock_next, setLock_prev, setLock_dev, setLock_blockno,
      setLock_lock, setLock_valid, ↓reduceIte, implies_true, and_self]
  -- the second bread is a hit on the same buffer
  have hwf3 : Wf NBUF NBUCKET s3 L1 :=
    hinv1.wf.congr_wf (fun p => by rw [hn3, hn2]) (fun p => by rw [hp3, hp2])
  have hf3 : (L1 (bucketOf NBUCKET blockno)).find?
      (fun x => isCached s3 dev blockno (.buf x)) = some j := by
    rw [← hf1]
    simp only [isCached, hd3, hd2, hb3, hb2]
  obtain ⟨e4, _⟩ := bget_hit NBUF NBUCKET fuel s3 pid dev blockno L1 j hwf3 h0 hh hfuel hf3
  rw [acquiresleep_free _ _ _ (by simp only [log_node, setRefcnt_lock]; exact hl3)] at e4
  obtain ⟨s4, hs4⟩ : ∃ s4, s4 = ((((s3.log (.acquire (bucketOf NBUCKET blockno))).setRefcnt
      (.buf j) (((s3.node (.buf j)).refcnt + 1) % UINT)).log
      (.release (bucketOf NBUCKET blockno))).setLock (.buf j) (some pid)).log
      (.acquiresleep (.buf j)) := ⟨_, rfl⟩
  rw [← hs4] at e4
  have hb4 := bread_of_bget _ _ _ _ _ _ _ _ e4
  have hv4 : (s4.node (.buf j)).valid = 1 := by
    rw [hs4]
    simp only [log_node, setLock_valid, setRefcnt_valid, hv3, hv2]
  rw [if_neg (by rw [hv4]; decide)] at hb4
  refine ⟨s2, s3, s4, ?_, hs3, hb4, ?_, ?_, hv2, ?_, ?_, hv4, ht2, ?_⟩
  · rw [bread_of_bget _ _ _ _ _ _ _ _ hg, hs2]
  · rw [hd2, hd1]
  · rw [hb2, hb1]
  · rw [hs4]; simp only [log_node, setLock_dev, setRefcnt_dev, hd3, hd2, hd1]
  · rw [hs4]; simp only [log_node, setLock_blockno, setRefcnt_blockno, hb3, hb2, hb1]
  · refine ⟨[.acquire (bucketOf NBUCKET blockno), .release (bucketOf NBUCKET blockno),
      .acquiresleep (.buf j)], ?_, ?_⟩
    · rw [hs4]; simp only [State.log, setLock_trace, setRefcnt_trace, List.append_assoc]; rfl
    · intro e he
      simp only [List.mem_cons, List.mem_singleton, List.not_mem_nil, or_false] at he
      rcases he with rfl | rfl | rfl <;> rfl

/-- Witness of C5: `bread(1, 5)`, `brelse`, `bread(1, 5)` right after `binit`,
with 3 buffers and 2 buckets. -/
theorem bread_twice_witness :
    ∃ s2 s3 s4, bread 2 4 (binit 3 2) 1 1 5 = .ret (.buf 2) s2 ∧
      brelse 2 s2 1 (.buf 2) = .ret () s3 ∧
      bread 2 4 s3 1 1 5 = .ret (.buf 2) s4 ∧
      (s2.node (.buf 2)).dev = 1 ∧ (s2.node (.buf 2)).blockno = 5 ∧
      (s2.node (.buf 2)).valid = 1 ∧
      (s4.node (.buf 2)).dev = 1 ∧ (s4.node (.buf 2)).blockno = 5 ∧
      (s4.node (.buf 2)).valid = 1 ∧
      s2.trace = heldState.trace ++
        (if (heldState.node (.buf 2)).valid = 0 then [Ev.disk_rw (.buf 2) false] else []) ∧
      ∃ t, s4.trace = s3.trace ++ t ∧ ∀ e ∈ t, Ev.isDisk e = false :=
  bread_twice 3 2 4 (binit 3 2) heldState 1 1 5 (.buf 2) (by decide) Reachable.init (by decide)
    (Outcome.eq_ret_of_val? (r := Ptr.buf 2) (by decide))

/-- C6: `bwrite(b)` calls `panic` exactly when the caller does not hold the
sleep-lock of `b`, and then leaves the state as it was, the log of device
calls included; when the lock is held it returns after exactly one call of
the device, a write of `b`, and changes no field of any buffer, so every
bucket list is the same. -/
theorem bwrite_spec (s : State) (pid : Nat) (b : Ptr) :
    ((bwrite s pid b).aborts = true ↔ holdingsleep s pid b = false) ∧
    (holdingsleep s pid b = false → bwrite s pid b = .abort "bwrite" s) ∧
    (holdingsleep s pid b = true →
      ∃ s1, bwrite s pid b = .ret () s1 ∧ s1.node = s.node ∧
        s1.trace = s.trace ++ [Ev.disk_rw b true] ∧
        ∀ NBUF NBUCKET L, Wf NBUF NBUCKET s L → Wf NBUF NBUCKET s1 L) := by
  cases hh : holdingsleep s pid b with
  | false =>
    simp only [bwrite, hh, Bool.not_false, ↓reduceIte, Outcome.aborts, Bool.false_eq_true,
      false_implies, implies_true, and_self]
  | true =>
    refine ⟨?_, fun h => (by cases h), fun _ => ⟨s.log (.disk_rw b true), ?_, rfl, rfl,
      fun _ _ _ h => h.congr_wf (fun _ => rfl) (fun _ => rfl)⟩⟩
    · simp [bwrite, hh, Outcome.aborts]
    · simp only [bwrite, hh, Bool.not_true, Bool.false_eq_true, ↓reduceIte]

/-- Witness of C6: process 1 holds buffer 2 in `heldState` and writes it. -/
theorem bwrite_spec_witness :
    ∃ s1, bwrite heldState 1 (.buf 2) = .ret () s1 ∧ s1.node = heldState.node ∧
      s1.trace = heldState.trace ++ [Ev.disk_rw (.buf 2) true] ∧
      ∀ NBUF NBUCKET L, Wf NBUF NBUCKET heldState L → Wf NBUF NBUCKET s1 L :=
  (bwrite_spec heldState 1 (.buf 2)).2.2 (by decide)

end Bio

namespace Kalloc

theorem Outcome.eq_ret_memD {α : Type} {o : Outcome α} {r : α} (h : o.val? = some r) :
    o = .ret r o.memD := by
  cases o with
  | ret r1 s => simp only [Outcome.val?, Option.some.injEq] at h; subst h; rfl
  | abort m s => simp [Outcome.val?] at h
  | fuelOut => simp [Outcome.val?] at h

theorem walk_mono (next : Nat → Nat) : ∀ (fuel fuel1 f s r : Nat), fuel ≤ fuel1 →
    walk next fuel f s = some r → walk next fuel1 f s = some r
  | 0, _, _, _, _, _, h => by simp [walk] at h
  | fuel + 1, 0, _, _, _, hle, _ => by omega
  | fuel + 1, fuel1 + 1, f, s, r, hle, h => by
    simp only [walk] at h ⊢
    split
    · rename_i hc
      rw [if_pos hc] at h
      exact walk_mono next fuel fuel1 _ _ r (by omega) h
    · rename_i hc
      rw [if_neg hc] at h
      exact h

theorem kallocSteal_mono (fuel fuel1 c : Nat) (hle : fuel ≤ fuel1) :
    ∀ (is : List Nat) (r : Nat) (s : Kmem) (o : Nat × Kmem),
    kallocSteal fuel c is r s = some o → kallocSteal fuel1 c is r s = some o
  | [], r, s, o, h => h
  | i :: is, r, s, o, h => by
    simp only [kallocSteal] at h ⊢
    by_cases hic : i = c
    · rw [if_pos hic] at h ⊢
      exact kallocSteal_mono fuel fuel1 c hle is r s o h
    · rw [if_neg hic] at h ⊢
      by_cases hf : s.freelist i ≠ 0
      · rw [if_pos hf] at h ⊢
        cases hw : walk s.next fuel (s.freelist i) (s.freelist i) with
        | none => rw [hw] at h; simp at h
        | some sl =>
          rw [hw] at h
          rw [walk_mono s.next fuel fuel1 _ _ sl hle hw]
          simp only at h ⊢
          by_cases hr : (stealHalf s c i sl).1 ≠ 0
          · rw [if_pos hr] at h ⊢
            exact h
          · rw [if_neg hr] at h ⊢
            exact kallocSteal_mono fuel fuel1 c hle is _ _ o h
      · rw [if_neg hf] at h ⊢
        by_cases hr : r ≠ 0
        · rw [if_pos hr] at h ⊢
          exact h
        · rw [if_neg hr] at h ⊢
          exact kallocSteal_mono fuel fuel1 c hle is r s o h

theorem kalloc_mono (NCPU fuel fuel1 : Nat) (s : Kmem) (c r : Nat) (s1 : Kmem)
    (hle : fuel ≤ fuel1) (h : kalloc NCPU fuel s c = .ret r s1) :
    kalloc NCPU fuel1 s c = .ret r s1 := by
  simp only [kalloc] at h ⊢
  by_cases hr : s.freelist c ≠ 0
  · rw [if_pos hr] at h ⊢
    exact h
  · rw [if_neg hr] at h ⊢
    cases hk : kallocSteal fuel c (List.range NCPU) (s.freelist c) s with
    | none => rw [hk] at h; simp at h
    | some o =>
      rw [kallocSteal_mono fuel fuel1 c hle _ _ _ o hk]
      rw [hk] at h
      exact h

/-- A call of `kalloc` that returns on well-formed lists leaves well-formed
lists whose pages were all free before, and the page it returns was free
before and is free no more. -/
theorem kalloc_keeps (NCPU fuel : Nat) (s s1 : Kmem) (c r : Nat) (L : Nat → List Nat)
    (hc : c < NCPU) (hwf : FreeLists NCPU s L) (h : kalloc NCPU fuel s c = .ret r s1) :
    ∃ L1, FreeLists NCPU s1 L1 ∧ (∀ i, i < NCPU → ∀ p ∈ L1 i, ∃ k, k < NCPU ∧ p ∈ L k) ∧
      (r ≠ 0 → (∃ k, k < NCPU ∧ r ∈ L k) ∧ ∀ i, i < NCPU → r ∉ L1 i) := by
  by_cases hLc : L c = []
  · by_cases hall : ∃ i, i < NCPU ∧ L i ≠ []
    · -- enough fuel for every list
      obtain ⟨F, hF⟩ : ∃ F, fuel ≤ F ∧ ∀ i, i < NCPU → (L i).length / 2 < F := by
        refine ⟨fuel + ∑ i in Finset.range NCPU, ((L i).length + 1), Nat.le_add_right _ _,
          fun i hi => ?_⟩
        have := Finset.single_le_sum (f := fun i => (L i).length + 1)
          (fun _ _ => Nat.zero_le _) (Finset.mem_range.2 hi)
        have h2 : (L i).length / 2 ≤ (L i).length := Nat.div_le_self _ _
        simp only at this
        omega
      obtain ⟨i, x, ys, s2, hi, hic, hLi, e, hx0, hfl⟩ :=
        kalloc_steal NCPU F s c L hc hwf hLc hall hF.2
      rw [kalloc_mono NCPU fuel F s c r s1 hF.1 h] at e
      injection e with e1 e2
      subst e1 e2
      have hnd : (r :: ys).Nodup := hLi ▸ (hwf.1 i hi).nodup
      have hxys : r ∉ ys := (List.nodup_cons.1 hnd).1
      refine ⟨_, hfl, fun j hj p hp => ?_, fun _ => ⟨⟨i, hi, by rw [hLi]; exact List.mem_cons_self _ _⟩,
        fun j hj hr => ?_⟩⟩
      · by_cases hjc : j = c
        · subst hjc
          simp only [Function.update_same] at hp
          exact ⟨i, hi, by rw [hLi]; exact List.mem_cons_of_mem _ (List.mem_of_mem_take hp)⟩
        · simp only [Function.update_noteq hjc] at hp
          by_cases hji : j = i
          · subst hji
            simp only [Function.update_same] at hp
            exact ⟨j, hj, by rw [hLi]; exact List.mem_cons_of_mem _ (List.mem_of_mem_drop hp)⟩
          · simp only [Function.update_noteq hji] at hp
            exact ⟨j, hj, hp⟩
      · by_cases hjc : j = c
        · subst hjc
          simp only [Function.update_same] at hr
          exact hxys (List.mem_of_mem_take hr)
        · simp only [Function.update_noteq hjc] at hr
          by_cases hji : j = i
          · subst hji
            simp only [Function.update_same] at hr
            exact hxys (List.mem_of_mem_drop hr)
          · simp only [Function.update_noteq hji] at hr
            exact hwf.2 j i hj hi hji hr (by rw [hLi]; exact List.mem_cons_self _ _)
    · have hall2 : ∀ i, i < NCPU → L i = [] := by
        intro i hi
        by_contra h1
        exact hall ⟨i, hi, h1⟩
      have hfc : s.freelist c = 0 := (hwf.1 c hc).nil_iff.2 hLc
      have hst := kallocSteal_empty fuel c s (List.range NCPU) (fun i hi _ =>
        (hwf.1 i (List.mem_range.1 hi)).nil_iff.2 (hall2 i (List.mem_range.1 hi)))
      have e : kalloc NCPU fuel s c = .ret 0 s := by simp [kalloc, hfc, hst]
      rw [e] at h
      injection h with e1 e2
      subst e1 e2
      exact ⟨L, hwf, fun i hi p hp => ⟨i, hi, hp⟩, fun h0 => absurd rfl h0⟩
  · obtain ⟨s2, e, hx0, hfl⟩ := kalloc_pop NCPU fuel s c L hc hwf hLc
    rw [h] at e
    injection e with e1 e2
    subst e1 e2
    obtain ⟨x, ys, hxy⟩ := List.exists_cons_of_ne_nil hLc
    have hnd : (x :: ys).Nodup := hxy ▸ (hwf.1 c hc).nodup
    rw [hxy] at hfl ⊢
    simp only [List.headD_cons, List.tail_cons] at hfl ⊢
    refine ⟨_, hfl, fun j hj p hp => ?_, fun _ => ⟨⟨c, hc, by rw [hxy]; exact List.mem_cons_self _ _⟩,
      fun j hj hr => ?_⟩⟩
    · by_cases hjc : j = c
      · subst hjc
        simp only [Function.update_same] at hp
        exact ⟨j, hj, by rw [hxy]; exact List.mem_cons_of_mem _ hp⟩
      · simp only [Function.update_noteq hjc] at hp
        exact ⟨j, hj, hp⟩
    · by_cases hjc : j = c
      · subst hjc
        simp only [Function.update_same] at hr
        exact (List.nodup_cons.1 hnd).1 hr
      · simp only [Function.update_noteq hjc] at hr
        exact hwf.2 j c hj hc hjc hr (by rw [hxy]; exact List.mem_cons_self _ _)

/-- A call of `kfree` that returns, on a page that is on no free list, leaves
well-formed lists: the page is added to the list of the caller, unless it is
the null address, which empties that list. -/
theorem kfree_keeps (END PHYSTOP NCPU : Nat) (s s1 : Kmem) (c pa : Nat) (L : Nat → List Nat)
    (hc : c < NCPU) (hwf : FreeLists NCPU s L) (hfree : ∀ i, i < NCPU → pa ∉ L i)
    (h : kfree END PHYSTOP s c pa = .ret () s1) :
    Managed END PHYSTOP pa ∧
    ((pa ≠ 0 ∧ FreeLists NCPU s1 (Function.update L c (pa :: L c))) ∨
      (pa = 0 ∧ FreeLists NCPU s1 (Function.update L c []))) := by
  by_cases hbad : pa % PGSIZE ≠ 0 ∨ pa < END ∨ pa ≥ PHYSTOP
  · simp [kfree, hbad] at h
  · simp only [kfree, hbad, ↓reduceIte, Outcome.ret.injEq, true_and] at h
    subst h
    push_neg at hbad
    refine ⟨⟨hbad.1, hbad.2.1, hbad.2.2⟩, ?_⟩
    by_cases hpa : pa = 0
    · subst hpa
      refine Or.inr ⟨rfl, fun j hj => ?_, fun j l hj hl hjl => ?_⟩
      · by_cases hjc : j = c
        · subst hjc
          simp [Kmem.setNext, Kmem.setFreelist, IsList]
        · simp only [Function.update_noteq hjc, Kmem.setNext, Kmem.setFreelist]
          refine IsList.congr_next (fun y hy => ?_) (hwf.1 j hj)
          have hy0 : y ≠ 0 := (hwf.1 j hj).ne_zero y hy
          simp [Function.update_noteq hy0]
      · by_cases hjc : j = c
        · subst hjc
          simp
        · by_cases hlc : l = c
          · subst hlc
            simp
          · simp only [Function.update_noteq hjc, Function.update_noteq hlc]
            exact hwf.2 j l hj hl hjl
    · exact Or.inl ⟨hpa, kfree_freeLists NCPU s c pa L hpa hc hwf hfree⟩

/-- A call of `kfree` on a page that is on no free list keeps the lists good. -/
theorem kfree_good (END PHYSTOP NCPU : Nat) (s s1 : Kmem) (c pa : Nat) (L : Nat → List Nat)
    (hc : c < NCPU) (hg : Good END PHYSTOP NCPU s L) (hfree : ∀ i, i < NCPU → pa ∉ L i)
    (h : kfree END PHYSTOP s c pa = .ret () s1) :
    ∃ L1, Good END PHYSTOP NCPU s1 L1 ∧ (∀ i, i < NCPU → ∀ q ∈ L1 i, q = pa ∨ q ∈ L i) ∧
      (∀ i, i ≠ c → L1 i = L i) ∧ (pa ≠ 0 → L1 c = pa :: L c) ∧ (pa = 0 → L1 c = []) := by
  obtain ⟨hm, ⟨hpa, hfl⟩ | ⟨hpa, hfl⟩⟩ := kfree_keeps END PHYSTOP NCPU s s1 c pa L hc hg.1 hfree h
  · refine ⟨_, ⟨hfl, fun i hi q hq => ?_⟩, fun i hi q hq => ?_, fun i hi => Function.update_noteq hi _ _,
      fun _ => Function.update_same _ _ _, fun e => absurd e hpa⟩
    · by_cases hic : i = c
      · subst hic
        simp only [Function.update_same, List.mem_cons] at hq
        rcases hq with rfl | hq
        · exact hm
        · exact hg.2 i hi q hq
      · simp only [Function.update_noteq hic] at hq
        exact hg.2 i hi q hq
    · by_cases hic : i = c
      · subst hic
        simp only [Function.update_same, List.mem_cons] at hq
        exact hq
      · simp only [Function.update_noteq hic] at hq
        exact Or.inr hq
  · refine ⟨_, ⟨hfl, fun i hi q hq => ?_⟩, fun i hi q hq => ?_, fun i hi => Function.update_noteq hi _ _,
      fun e => absurd hpa e, fun _ => Function.update_same _ _ _⟩
    · by_cases hic : i = c
      · subst hic
        simp at hq
      · simp only [Function.update_noteq hic] at hq
        exact hg.2 i hi q hq
    · by_cases hic : i = c
      · subst hic
        simp at hq
      · simp only [Function.update_noteq hic] at hq
        exact Or.inr hq

/-- The loop of `freerange` ends within its bound, never calls `panic`, keeps
the lists good and frees every page from `p` up to `PHYSTOP`. -/
theorem freerangeFrom_good (END PHYSTOP NCPU c : Nat) (hc : c < NCPU) :
    ∀ (n p : Nat) (s : Kmem) (L : Nat → List Nat), Good END PHYSTOP NCPU s L →
    (∀ i, i < NCPU → ∀ q ∈ L i, q < p) → p % PGSIZE = 0 → END ≤ p →
    PHYSTOP < p + n * PGSIZE →
    ∃ s1 L1, freerangeFrom END PHYSTOP PHYSTOP c n p s = .ret () s1 ∧
      Good END PHYSTOP NCPU s1 L1 ∧ (∀ q ∈ L c, q ∈ L1 c) ∧
      ∀ q, q ≠ 0 → q % PGSIZE = 0 → p ≤ q → q + PGSIZE ≤ PHYSTOP → q ∈ L1 c
  | 0, p, s, L, hg, _, _, _, hn => by
    refine ⟨s, L, rfl, hg, fun q hq => hq, fun q _ _ hpq hq => ?_⟩
    omega
  | n + 1, p, s, L, hg, hlt, hal, hlo, hn => by
    by_cases hp : p + PGSIZE ≤ PHYSTOP
    · have hok : ¬ (p % PGSIZE ≠ 0 ∨ p < END ∨ p ≥ PHYSTOP) := by
        simp only [PGSIZE] at hp hal ⊢
        omega
      have hk : kfree END PHYSTOP s c p = .ret () (((s.setNext p JUNK1).setNext p
          ((s.setNext p JUNK1).freelist c)).setFreelist c p) := by
        simp only [kfree, hok, ↓reduceIte]
      have hfree : ∀ i, i < NCPU → p ∉ L i := fun i hi hm => by
        have := hlt i hi p hm
        omega
      obtain ⟨L1, hg1, hsub, hoth, hne, hz⟩ := kfree_good END PHYSTOP NCPU s _ c p L hc hg hfree hk
      obtain ⟨s2, L2, e2, hg2, hkeep, hall⟩ := freerangeFrom_good END PHYSTOP NCPU c hc n
        (p + PGSIZE) _ L1 hg1 (fun i hi q hq => by
          rcases hsub i hi q hq with rfl | hq
          · simp only [PGSIZE]; omega
          · have := hlt i hi q hq
            omega) (by simp only [PGSIZE] at hal ⊢; omega) (by omega)
        (by simp only [PGSIZE] at hn ⊢; omega)
      refine ⟨s2, L2, ?_, hg2, fun q hq => ?_, fun q hq0 hqa hpq hq => ?_⟩
      · simp only [freerangeFrom, hp, ↓reduceIte, hk]
        exact e2
      · by_cases hp0 : p = 0
        · have := hlt c hc q hq
          omega
        · exact hkeep q (by rw [hne hp0]; exact List.mem_cons_of_mem _ hq)
      · by_cases hqp : q = p
        · subst hqp
          exact hkeep q (by rw [hne hq0]; exact List.mem_cons_self _ _)
        · exact hall q hq0 hqa (by simp only [PGSIZE] at hal hqa ⊢; omega) hq
    · refine ⟨s, L, by simp only [freerangeFrom, hp, ↓reduceIte], hg, fun q hq => hq,
        fun q _ _ hpq hq => ?_⟩
      omega

/-- `kinit` returns, without a call of `panic`, and leaves good lists: the
list of the booting CPU holds every page of the managed range. -/
theorem kinit_good (END PHYSTOP NCPU c : Nat) (hc : c < NCPU) :
    ∃ s L, kinit END PHYSTOP c = .ret () s ∧ Good END PHYSTOP NCPU s L ∧
      ∀ q, q ≠ 0 → q % PGSIZE = 0 → END ≤ q → q + PGSIZE ≤ PHYSTOP → q ∈ L c := by
  have hz : Good END PHYSTOP NCPU { freelist := fun _ => 0, next := fun _ => 0 } (fun _ => []) :=
    ⟨⟨fun _ _ => rfl, fun _ _ _ _ _ => List.disjoint_nil_left _⟩, fun _ _ p hp => by simp at hp⟩
  obtain ⟨s, L, e, hg, _, hall⟩ := freerangeFrom_good END PHYSTOP NCPU c hc (PHYSTOP / PGSIZE + 1)
    (PGROUNDUP END) _ _ hz (fun _ _ q hq => by simp at hq)
    (by simp only [PGROUNDUP, PGSIZE]; omega) (by simp only [PGROUNDUP, PGSIZE]; omega)
    (by simp only [PGROUNDUP, PGSIZE]; omega)
  refine ⟨s, L, e, hg, fun q hq0 hqa hlo hq => hall q hq0 hqa ?_ hq⟩
  simp only [PGROUNDUP, PGSIZE] at hqa ⊢
  omega


theorem kalloc_returns (NCPU fuel : Nat) (s : Kmem) (c : Nat) (L : Nat → List Nat)
    (hc : c < NCPU) (hwf : FreeLists NCPU s L)
    (hfuel : ∀ i, i < NCPU → (L i).length / 2 < fuel) :
    ∃ r s1, kalloc NCPU fuel s c = .ret r s1 := by
  by_cases hLc : L c = []
  · by_cases hall : ∃ i, i < NCPU ∧ L i ≠ []
    · obtain ⟨i, x, ys, s1, _, _, _, e, _⟩ := kalloc_steal NCPU fuel s c L hc hwf hLc hall hfuel
      exact ⟨x, s1, e⟩
    · have hall2 : ∀ i, i < NCPU → L i = [] := by
        intro i hi
        by_contra h1
        exact hall ⟨i, hi, h1⟩
      have hfc : s.freelist c = 0 := (hwf.1 c hc).nil_iff.2 hLc
      have hst := kallocSteal_empty fuel c s (List.range NCPU) (fun i hi _ =>
        (hwf.1 i (List.mem_range.1 hi)).nil_iff.2 (hall2 i (List.mem_range.1 hi)))
      exact ⟨0, s, by simp [kalloc, hfc, hst]⟩
  · obtain ⟨s1, e, _⟩ := kalloc_pop NCPU fuel s c L hc hwf hLc
    exact ⟨_, s1, e⟩

theorem kalloc_good (END PHYSTOP NCPU fuel : Nat) (s s1 : Kmem) (c r : Nat) (L : Nat → List Nat)
    (hc : c < NCPU) (hg : Good END PHYSTOP NCPU s L) (h : kalloc NCPU fuel s c = .ret r s1) :
    ∃ L1, Good END PHYSTOP NCPU s1 L1 ∧
      (r ≠ 0 → Managed END PHYSTOP r ∧ ∀ i, i < NCPU → r ∉ L1 i) := by
  obtain ⟨L1, hfl, hsub, hr⟩ := kalloc_keeps NCPU fuel s s1 c r L hc hg.1 h
  refine ⟨L1, ⟨hfl, fun i hi p hp => ?_⟩, fun hr0 => ⟨?_, (hr hr0).2⟩⟩
  · obtain ⟨k, hk, hpk⟩ := hsub i hi p hp
    exact hg.2 k hk p hpk
  · obtain ⟨k, hk, hpk⟩ := (hr hr0).1
    exact hg.2 k hk r hpk

theorem Reach.good {END PHYSTOP NCPU : Nat} {s : Kmem}
    (h : Reach END PHYSTOP NCPU (NotFree NCPU) s) : ∃ L, Good END PHYSTOP NCPU s L := by
  induction h with
  | @init c s hc hk =>
    obtain ⟨s0, L, e, hg, _⟩ := kinit_good END PHYSTOP NCPU c hc
    rw [hk] at e
    injection e with _ e
    exact ⟨L, e ▸ hg⟩
  | @kalloc s s1 fuel c r _ hc hk ih =>
    obtain ⟨L, hg⟩ := ih
    obtain ⟨L1, hg1, _⟩ := kalloc_good END PHYSTOP NCPU fuel s s1 c r L hc hg hk
    exact ⟨L1, hg1⟩
  | @kfree s s1 c pa _ hc hD hk ih =>
    obtain ⟨L, hg⟩ := ih
    obtain ⟨L1, hg1, _⟩ := kfree_good END PHYSTOP NCPU s s1 c pa L hc hg (hD L hg.1) hk
    exact ⟨L1, hg1⟩

theorem FreeLists.notFree {NCPU : Nat} {s : Kmem} {L : Nat → List Nat} {r : Nat}
    (hwf : FreeLists NCPU s L) (h : ∀ i, i < NCPU → r ∉ L i) : NotFree NCPU s r := by
  intro L2 h2 i hi
  rw [IsList.unique (h2.1 i hi) (hwf.1 i hi)]
  exact h i hi

/-- The loop of `kalloc` steals from the first CPU, other than the caller,
whose list is not empty. -/
theorem kallocSteal_at (fuel c i : Nat) (s : Kmem) (hic : i ≠ c) (hi0 : s.freelist i ≠ 0)
    (post : List Nat) : ∀ (pre : List Nat), (∀ j ∈ pre, j ≠ c → s.freelist j = 0) →
    kallocSteal fuel c (pre ++ i :: post) 0 s =
      (walk s.next fuel (s.freelist i) (s.freelist i)).map (stealHalf s c i)
  | [], _ => by
    simp only [List.nil_append, kallocSteal, if_neg hic, if_pos hi0]
    cases hw : walk s.next fuel (s.freelist i) (s.freelist i) with
    | none => rfl
    | some sl =>
      have h1 : (stealHalf s c i sl).1 ≠ 0 := by rw [stealHalf_fst s c i sl hic]; exact hi0
      simp only [if_pos h1, Option.map_some']
  | j :: pre, h => by
    have ih := kallocSteal_at fuel c i s hic hi0 post pre
      (fun k hk => h k (List.mem_cons_of_mem _ hk))
    by_cases hjc : j = c
    · simp only [List.cons_append, kallocSteal, if_pos hjc]
      exact ih
    · have hj0 : ¬ s.freelist j ≠ 0 := not_not.2 (h j (List.mem_cons_self _ _) hjc)
      simp only [List.cons_append, kallocSteal, if_neg hjc, if_neg hj0, ne_eq, not_true_eq_false,
        ↓reduceIte]
      exact ih

theorem krun_blocked (NCPU fuel : Nat) (σ : Sys) : ∀ (sched : List Nat),
    (∀ c ∈ sched, kstep NCPU fuel σ c = none) → krun NCPU fuel sched σ = σ
  | [], _ => rfl
  | c :: sched, h => by
    simp only [krun, h c (List.mem_cons_self _ _), Option.getD_none]
    exact krun_blocked NCPU fuel σ sched (fun d hd => h d (List.mem_cons_of_mem _ hd))

theorem krun_append (NCPU fuel : Nat) : ∀ (a b : List Nat) (σ : Sys),
    krun NCPU fuel (a ++ b) σ = krun NCPU fuel b (krun NCPU fuel a σ)
  | [], _, _ => rfl
  | c :: a, b, σ => by
    simp only [List.cons_append, krun]
    exact krun_append NCPU fuel a b _

theorem krun_step (NCPU fuel : Nat) (n c : Nat) (σ σ1 : Sys) (h : kstep NCPU fuel σ c = some σ1) :
    krun NCPU fuel (List.replicate (n + 1) c) σ = krun NCPU fuel (List.replicate n c) σ1 := by
  simp only [List.replicate_succ, krun, h, Option.getD_some]

theorem kstep_rel (NCPU fuel c : Nat) (σ : Sys) (i : Nat) (rest : List Nat) (r : Nat)
    (h : σ.pc c = .rel i rest r) :
    kstep NCPU fuel σ c = some
      { mem := σ.mem, lock := Function.update σ.lock i none,
        pc := Function.update σ.pc c (if r ≠ 0 then .exit r else loopPc c rest r) } := by
  simp only [kstep, h]

theorem kstep_exit (NCPU fuel c : Nat) (σ : Sys) (r : Nat) (h : σ.pc c = .exit r) :
    kstep NCPU fuel σ c = some
      { mem := if r ≠ 0 then σ.mem.setNext r JUNK5 else σ.mem,
        lock := Function.update σ.lock c none,
        pc := Function.update σ.pc c (.done r) } := by
  simp only [kstep, h]

/-- A victim visited by CPU `c` alone: the acquire and the release of its
lock, with the memory `m` and the result `r` that the body leaves. -/
theorem krun_victim (NCPU fuel c : Nat) (σ : Sys) (i : Nat) (rest : List Nat) (r : Nat)
    (m : Kmem) (hli : σ.lock i = none)
    (h : kstep NCPU fuel σ c = some
      { mem := m, lock := Function.update σ.lock i (some c),
        pc := Function.update σ.pc c (.rel i rest r) }) (n : Nat) :
    krun NCPU fuel (List.replicate (n + 2) c) σ =
      krun NCPU fuel (List.replicate n c)
        { mem := m, lock := σ.lock,
          pc := Function.update σ.pc c (if r ≠ 0 then .exit r else loopPc c rest r) } := by
  rw [show n + 2 = (n + 1) + 1 from rfl, krun_step NCPU fuel (n + 1) c σ _ h,
    krun_step NCPU fuel n c _ _ (kstep_rel NCPU fuel c _ i rest r
      (by simp only [Function.update_same]))]
  simp only [Function.update_idem]
  rw [← hli, Function.update_eq_self]

/-- The loop of `kalloc`, run by CPU `c` alone while it holds its own lock and
every other lock is free, steps to the release of its own lock with the result
and the memory of `kallocSteal`, and every lock as it was. -/
theorem krun_loop (NCPU fuel c : Nat) : ∀ (is : List Nat) (σ : Sys) (r : Nat) (s1 : Kmem),
    σ.pc c = loopPc c is 0 → (∀ i, i ≠ c → σ.lock i = none) →
    kallocSteal fuel c is 0 σ.mem = some (r, s1) →
    ∃ n, (krun NCPU fuel (List.replicate n c) σ).pc c = .exit r ∧
      (krun NCPU fuel (List.replicate n c) σ).mem = s1 ∧
      (krun NCPU fuel (List.replicate n c) σ).lock = σ.lock
  | [], σ, r, s1, hpc, _, hk => by
    simp only [kallocSteal, Option.some.injEq, Prod.mk.injEq] at hk
    obtain ⟨rfl, rfl⟩ := hk
    exact ⟨0, hpc, rfl, rfl⟩
  | i :: rest, σ, r, s1, hpc, hl, hk => by
    by_cases hic : i = c
    · simp only [kallocSteal, if_pos hic] at hk
      simp only [loopPc, if_pos hic] at hpc
      exact krun_loop NCPU fuel c rest σ r s1 hpc hl hk
    · simp only [kallocSteal, if_neg hic] at hk
      simp only [loopPc, if_neg hic] at hpc
      have hli := hl i hic
      by_cases hf : σ.mem.freelist i ≠ 0
      · rw [if_pos hf] at hk
        cases hw : walk σ.mem.next fuel (σ.mem.freelist i) (σ.mem.freelist i) with
        | none => rw [hw] at hk; simp at hk
        | some sl =>
          rw [hw] at hk
          simp only at hk
          have e1 : kstep NCPU fuel σ c = some
              { mem := (stealHalf σ.mem c i sl).2,
                lock := Function.update σ.lock i (some c),
                pc := Function.update σ.pc c (.rel i rest (stealHalf σ.mem c i sl).1) } := by
            simp only [kstep, hpc, hli, if_pos hf, hw]
          have e2 := krun_victim NCPU fuel c σ i rest _ _ hli e1
          by_cases hr : (stealHalf σ.mem c i sl).1 ≠ 0
          · rw [if_pos hr] at hk
            simp only [Option.some.injEq] at hk
            refine ⟨2, ?_⟩
            rw [e2 0, if_pos hr]
            simp only [List.replicate_zero, krun, Function.update_same, hk, and_self]
          · rw [if_neg hr] at hk
            have hr0 : (stealHalf σ.mem c i sl).1 = 0 := not_not.1 hr
            rw [hr0] at hk
            obtain ⟨n, h1, h2, h3⟩ := krun_loop NCPU fuel c rest
              { mem := (stealHalf σ.mem c i sl).2, lock := σ.lock,
                pc := Function.update σ.pc c (loopPc c rest 0) } r s1
              (by simp only [Function.update_same]) hl hk
            refine ⟨n + 2, ?_⟩
            rw [e2 n, if_neg hr, hr0]
            exact ⟨h1, h2, h3⟩
      · rw [if_neg hf] at hk
        simp only [ne_eq, not_true_eq_false, ↓reduceIte] at hk
        have e1 : kstep NCPU fuel σ c = some
            { mem := σ.mem,
              lock := Function.update σ.lock i (some c),
              pc := Function.update σ.pc c (.rel i rest 0) } := by
          simp only [kstep, hpc, hli, if_neg hf]
        have e2 := krun_victim NCPU fuel c σ i rest _ _ hli e1
        obtain ⟨n, h1, h2, h3⟩ := krun_loop NCPU fuel c rest
          { mem := σ.mem, lock := σ.lock,
            pc := Function.update σ.pc c (loopPc c rest 0) } r s1
          (by simp only [Function.update_same]) hl hk
        refine ⟨n + 2, ?_⟩
        rw [e2 n, if_neg (by simp)]
        exact ⟨h1, h2, h3⟩

theorem update_none_of_free (lock : Nat → Option Nat) (c : Nat) (v : Option Nat)
    (hl : ∀ i, lock i = none) (i : Nat) :
    Function.update (Function.update lock c v) c none i = none := by
  by_cases hic : i = c
  · subst hic
    simp only [Function.update_same]
  · simp only [Function.update_noteq hic, hl i]

/-- The steps refine the call: when CPU `c` is about to call `kalloc`, no lock
is held and `kalloc` returns `r` with the memory `s1`, the steps of CPU `c`
alone end with `r` returned, the memory `s1` and no lock held. -/
theorem krun_solo (NCPU fuel c : Nat) (σ : Sys) (r : Nat) (s1 : Kmem)
    (hpc : σ.pc c = .entry) (hl : ∀ i, σ.lock i = none)
    (hk : kalloc NCPU fuel σ.mem c = .ret r s1) :
    ∃ n, (krun NCPU fuel (List.replicate n c) σ).pc c = .done r ∧
      (krun NCPU fuel (List.replicate n c) σ).mem = s1 ∧
      ∀ i, (krun NCPU fuel (List.replicate n c) σ).lock i = none := by
  simp only [kalloc] at hk
  by_cases hr : σ.mem.freelist c ≠ 0
  · rw [if_pos hr] at hk
    simp only [Outcome.ret.injEq] at hk
    obtain ⟨rfl, rfl⟩ := hk
    have e1 : kstep NCPU fuel σ c = some
        { mem := σ.mem.setFreelist c (σ.mem.next (σ.mem.freelist c)),
          lock := Function.update σ.lock c (some c),
          pc := Function.update σ.pc c (.exit (σ.mem.freelist c)) } := by
      simp only [kstep, hpc, hl c, if_pos hr]
    refine ⟨2, ?_⟩
    rw [krun_step NCPU fuel 1 c σ _ e1, krun_step NCPU fuel 0 c _ _
      (kstep_exit NCPU fuel c _ (σ.mem.freelist c) (by simp only [Function.update_same]))]
    simp only [List.replicate_zero, krun, Function.update_same, if_pos hr, true_and]
    exact update_none_of_free σ.lock c _ hl
  · rw [if_neg hr] at hk
    have hr0 : σ.mem.freelist c = 0 := not_not.1 hr
    cases hs : kallocSteal fuel c (List.range NCPU) (σ.mem.freelist c) σ.mem with
    | none => rw [hs] at hk; simp at hk
    | some o =>
      obtain ⟨r1, s2⟩ := o
      rw [hs] at hk
      simp only at hk
      rw [hr0] at hs
      have e1 : kstep NCPU fuel σ c = some
          { mem := σ.mem, lock := Function.update σ.lock c (some c),
            pc := Function.update σ.pc c (loopPc c (List.range NCPU) 0) } := by
        simp only [kstep, hpc, hl c, hr0, ne_eq, not_true_eq_false, ↓reduceIte]
      obtain ⟨n, h1, h2, h3⟩ := krun_loop NCPU fuel c (List.range NCPU)
        { mem := σ.mem, lock := Function.update σ.lock c (some c),
          pc := Function.update σ.pc c (loopPc c (List.range NCPU) 0) } r1 s2
        (by simp only [Function.update_same])
        (fun i hic => by simp only [Function.update_noteq hic, hl i]) hs
      refine ⟨1 + n + 1, ?_⟩
      rw [List.replicate_add, List.replicate_add, krun_append,
        krun_append, krun_step NCPU fuel 0 c σ _ e1]
      simp only [List.replicate_zero, krun]
      generalize krun NCPU fuel (List.replicate n c) _ = σ2 at h1 h2 h3
      rw [kstep_exit NCPU fuel c σ2 r1 h1]
      simp only [Option.getD_some, Function.update_same, h2, h3]
      by_cases hr1 : r1 ≠ 0
      · rw [if_pos hr1] at hk ⊢
        simp only [Outcome.ret.injEq] at hk
        obtain ⟨rfl, rfl⟩ := hk
        exact ⟨rfl, rfl, update_none_of_free σ.lock c _ hl⟩
      · rw [if_neg hr1] at hk ⊢
        simp only [Outcome.ret.injEq] at hk
        obtain ⟨rfl, rfl⟩ := hk
        exact ⟨rfl, rfl, update_none_of_free σ.lock c _ hl⟩

end Kalloc

/-! ## The page allocator: further claims -/

namespace Kalloc

/-- Counterexample to C11: with the two managed pages `0x1000` and `0x2000`,
after `kinit` on CPU 0 the call `kfree(0x2000)` on a page that is already free
returns, and after two calls of `kalloc` the head of the free list is the junk
value `0x0505050505050505`, which is not page-aligned; the next `kalloc`
returns it. -/
theorem double_free_yields_junk :
    Reach 0x1000 0x3000 1 (fun _ _ => True) doubleFreed ∧
    doubleFreed.freelist 0 = JUNK5 ∧ JUNK5 ≠ 0 ∧ ¬ Managed 0x1000 0x3000 JUNK5 ∧
    (kalloc 1 4 doubleFreed 0).val? = some JUNK5 :=
  ⟨Reach.kalloc (Reach.kalloc (Reach.kfree (Reach.init (c := 0) (by decide)
      (Outcome.eq_ret_memD (r := ()) (by decide))) (c := 0) (by decide) trivial
      (Outcome.eq_ret_memD (r := ()) (by decide))) (c := 0) (by decide)
      (Outcome.eq_ret_memD (r := 0x2000) (by decide))) (c := 0) (by decide)
      (Outcome.eq_ret_memD (r := 0x2000) (by decide)),
    by decide, by decide, by decide, by decide⟩

/-- C11, amended: `kinit` returns without a call of `panic`; in every state
reached from it by calls of `kalloc` and `kfree` that return, `kfree` being
applied only to a page that is on no free list, the free lists are well formed
and every page on them is page-aligned and inside `[end, PHYSTOP)`; `kalloc`
returns, every non-null page it returns is such a page and is on no free list
afterwards, and after a `kfree` of that page, which returns, every non-null
page that `kalloc` returns is such a page again. -/
theorem free_pages_managed (END PHYSTOP NCPU : Nat) (s : Kmem)
    (h : Reach END PHYSTOP NCPU (NotFree NCPU) s) :
    (∀ c, c < NCPU → ∃ s0, kinit END PHYSTOP c = .ret () s0) ∧
    ∃ L, FreeLists NCPU s L ∧ (∀ i, i < NCPU → ∀ p ∈ L i, Managed END PHYSTOP p) ∧
      (∀ c, c < NCPU → ∃ fuel r s1, kalloc NCPU fuel s c = .ret r s1) ∧
      ∀ fuel c r s1, c < NCPU → kalloc NCPU fuel s c = .ret r s1 → r ≠ 0 →
        Managed END PHYSTOP r ∧ NotFree NCPU s1 r ∧
        ∀ c2, c2 < NCPU → ∃ s2, kfree END PHYSTOP s1 c2 r = .ret () s2 ∧
          ∀ fuel3 c3 r3 s3, c3 < NCPU → kalloc NCPU fuel3 s2 c3 = .ret r3 s3 → r3 ≠ 0 →
            Managed END PHYSTOP r3 := by
  refine ⟨fun c hc => ?_, ?_⟩
  · obtain ⟨s0, _, e, _⟩ := kinit_good END PHYSTOP NCPU c hc
    exact ⟨s0, e⟩
  obtain ⟨L, hg⟩ := h.good
  refine ⟨L, hg.1, hg.2, fun c hc => ?_, fun fuel c r s1 hc hk hr0 => ?_⟩
  · obtain ⟨r, s1, e⟩ := kalloc_returns NCPU (∑ i in Finset.range NCPU, ((L i).length + 1)) s c L
      hc hg.1 (fun i hi => by
        have := Finset.single_le_sum (f := fun i => (L i).length + 1)
          (fun _ _ => Nat.zero_le _) (Finset.mem_range.2 hi)
        have h2 : (L i).length / 2 ≤ (L i).length := Nat.div_le_self _ _
        simp only at this
        omega)
    exact ⟨_, r, s1, e⟩
  · obtain ⟨L1, hg1, hr⟩ := kalloc_good END PHYSTOP NCPU fuel s s1 c r L hc hg hk
    obtain ⟨hm, hnot⟩ := hr hr0
    have hnf : NotFree NCPU s1 r := hg1.1.notFree hnot
    refine ⟨hm, hnf, fun c2 hc2 => ?_⟩
    have hok : ¬ (r % PGSIZE ≠ 0 ∨ r < END ∨ r ≥ PHYSTOP) := by
      obtain ⟨h1, h2, h3⟩ := hm
      push_neg
      exact ⟨h1, h2, h3⟩
    have hk2 : kfree END PHYSTOP s1 c2 r = .ret () (((s1.setNext r JUNK1).setNext r
        ((s1.setNext r JUNK1).freelist c2)).setFreelist c2 r) := by
      simp only [kfree, hok, ↓reduceIte]
    refine ⟨_, hk2, fun fuel3 c3 r3 s3 hc3 hk3 hr3 => ?_⟩
    obtain ⟨L2, hg2⟩ := (Reach.kfree (Reach.kalloc h hc hk) hc2 hnf hk2).good
    obtain ⟨_, _, hr3m⟩ := kalloc_good END PHYSTOP NCPU fuel3 _ s3 c3 r3 L2 hc3 hg2 hk3
    exact (hr3m hr3).1

/-- Witness of C11: the state after `kinit` on CPU 0, with two CPUs and the
managed pages `0x1000` and `0x2000`. -/
theorem free_pages_managed_witness :
    (∀ c, c < 2 → ∃ s0, kinit 0x1000 0x3000 c = .ret () s0) ∧
    ∃ L, FreeLists 2 (kinit 0x1000 0x3000 0).memD L ∧
      (∀ i, i < 2 → ∀ p ∈ L i, Managed 0x1000 0x3000 p) ∧
      (∀ c, c < 2 → ∃ fuel r s1, kalloc 2 fuel (kinit 0x1000 0x3000 0).memD c = .ret r s1) ∧
      ∀ fuel c r s1, c < 2 → kalloc 2 fuel (kinit 0x1000 0x3000 0).memD c = .ret r s1 → r ≠ 0 →
        Managed 0x1000 0x3000 r ∧ NotFree 2 s1 r ∧
        ∀ c2, c2 < 2 → ∃ s2, kfree 0x1000 0x3000 s1 c2 r = .ret () s2 ∧
          ∀ fuel3 c3 r3 s3, c3 < 2 → kalloc 2 fuel3 s2 c3 = .ret r3 s3 → r3 ≠ 0 →
            Managed 0x1000 0x3000 r3 :=
  free_pages_managed 0x1000 0x3000 2 _ (Reach.init (c := 0) (by decide)
    (Outcome.eq_ret_memD (r := ()) (by decide)))

/-- Counterexample to C19: CPU 0, whose list is empty, steals from CPU 1, which
holds `0x1000, 0x2000, 0x3000`; the slow pointer stops at `0x2000`.  The page
returned is `0x1000`, which is not in the half that starts at the midpoint;
CPU 0 keeps `0x2000`, and CPU 1 keeps `0x3000`, not `0x1000`. -/
theorem kalloc_moves_first_half :
    exampleMem.freelist 0 = 0 ∧
    IsList exampleMem.next (exampleMem.freelist 1) [0x1000, 0x2000, 0x3000] ∧
    walk exampleMem.next 2 0x1000 0x1000 = some 0x2000 ∧
    (kalloc 2 2 exampleMem 0).val? = some 0x1000 ∧
    0x1000 ∉ [0x2000, 0x3000] ∧
    IsList (kalloc 2 2 exampleMem 0).memD.next ((kalloc 2 2 exampleMem 0).memD.freelist 0)
      [0x2000] ∧
    IsList (kalloc 2 2 exampleMem 0).memD.next ((kalloc 2 2 exampleMem 0).memD.freelist 1)
      [0x3000] ∧
    ¬ IsList (kalloc 2 2 exampleMem 0).memD.next ((kalloc 2 2 exampleMem 0).memD.freelist 1)
      [0x1000] :=
  ⟨by decide, by decide, by decide, by decide, by decide, by decide, by decide, by decide⟩

/-- C19, amended: when `kalloc` on a CPU `c` with an empty list steals from the
list `xs` of `k ≥ 2` pages of CPU `i`, the first CPU other than `c` whose list
is not empty, the slow pointer stops at the page of index `k / 2`; the pages up
to and including that midpoint are moved to the list of `c`, the first of
them is returned and the `k / 2` others stay on the list of `c`; CPU `i` keeps
the pages after the midpoint; both lists are in the original order. -/
theorem kalloc_steal_halves (NCPU fuel : Nat) (s : Kmem) (c i : Nat) (xs : List Nat)
    (hi : i < NCPU) (hic : i ≠ c) (hc0 : s.freelist c = 0)
    (hpre : ∀ j, j < i → j ≠ c → s.freelist j = 0)
    (hxs : IsList s.next (s.freelist i) xs) (hk : 2 ≤ xs.length)
    (hfuel : xs.length / 2 < fuel) :
    walk s.next fuel (s.freelist i) (s.freelist i) = some (xs.getD (xs.length / 2) 0) ∧
    ∃ s1, kalloc NCPU fuel s c = .ret (xs.headD 0) s1 ∧ xs.headD 0 ≠ 0 ∧
      IsList s1.next (s1.freelist c) (xs.take (xs.length / 2 + 1)).tail ∧
      IsList s1.next (s1.freelist i) (xs.drop (xs.length / 2 + 1)) ∧
      xs.headD 0 :: ((xs.take (xs.length / 2 + 1)).tail ++ xs.drop (xs.length / 2 + 1)) = xs ∧
      (xs.take (xs.length / 2 + 1)).tail.length = xs.length / 2 ∧
      ∀ j, j ≠ c → j ≠ i → s1.freelist j = s.freelist j := by
  have hne : xs ≠ [] := List.length_pos.1 (by omega)
  have hi0 : s.freelist i ≠ 0 := fun e => hne (hxs.nil_iff.1 e)
  have hw := walk_eq s.next fuel xs xs _ _ 0 hxs hxs rfl hne hfuel
  obtain ⟨post, hsplit⟩ := Bio.range_split NCPU i hi
  have hst := kallocSteal_at fuel c i s hic hi0 post (List.range i)
    (fun j hj => hpre j (List.mem_range.1 hj))
  rw [← hsplit, hw, Option.map_some'] at hst
  obtain ⟨hfst, hla, hlb, hoth, _⟩ := stealHalf_spec s c i xs hic hxs hne
  have hnd := hxs.nodup
  obtain ⟨x, ys, rfl⟩ := List.exists_cons_of_ne_nil hne
  have hx0 : x ≠ 0 := hxs.ne_zero x (List.mem_cons_self _ _)
  have hxn : x ∉ ys := (List.nodup_cons.1 hnd).1
  simp only [List.headD_cons, List.take_succ_cons, List.tail_cons, List.drop_succ_cons] at *
  refine ⟨hw, (stealHalf s c i ((x :: ys).getD ((x :: ys).length / 2) 0)).2.setNext x JUNK5,
    ?_, hx0, ?_, ?_, ?_, ?_, fun j hjc hji => ?_⟩
  · simp only [kalloc, hc0, ne_eq, not_true_eq_false, ↓reduceIte, hst, hfst, hx0,
      not_false_eq_true]
  · simp only [Kmem.setNext]
    exact IsList.congr_next (fun y hy => Function.update_noteq
      (fun (e : y = x) => hxn (List.mem_of_mem_take (e ▸ hy))) _ _) hla
  · simp only [Kmem.setNext]
    exact IsList.congr_next (fun y hy => Function.update_noteq
      (fun (e : y = x) => hxn (List.mem_of_mem_drop (e ▸ hy))) _ _) hlb
  · simp
  · simp only [List.length_take, List.length_cons] at *
    omega
  · simp only [Kmem.setNext]
    exact hoth j hjc hji

/-- Witness of C19: CPU 0 steals from CPU 1 in the example memory. -/
theorem kalloc_steal_halves_witness :
    walk exampleMem.next 2 (exampleMem.freelist 1) (exampleMem.freelist 1) =
      some ([0x1000, 0x2000, 0x3000].getD ([0x1000, 0x2000, 0x3000].length / 2) 0) ∧
    ∃ s1, kalloc 2 2 exampleMem 0 = .ret ([0x1000, 0x2000, 0x3000].headD 0) s1 ∧
      [0x1000, 0x2000, 0x3000].headD 0 ≠ 0 ∧
      IsList s1.next (s1.freelist 0)
        ([0x1000, 0x2000, 0x3000].take ([0x1000, 0x2000, 0x3000].length / 2 + 1)).tail ∧
      IsList s1.next (s1.freelist 1)
        ([0x1000, 0x2000, 0x3000].drop ([0x1000, 0x2000, 0x3000].length / 2 + 1)) ∧
      [0x1000, 0x2000, 0x3000].headD 0 ::
        (([0x1000, 0x2000, 0x3000].take ([0x1000, 0x2000, 0x3000].length / 2 + 1)).tail ++
          [0x1000, 0x2000, 0x3000].drop ([0x1000, 0x2000, 0x3000].length / 2 + 1)) =
        [0x1000, 0x2000, 0x3000] ∧
      ([0x1000, 0x2000, 0x3000].take ([0x1000, 0x2000, 0x3000].length / 2 + 1)).tail.length =
        [0x1000, 0x2000, 0x3000].length / 2 ∧
      ∀ j, j ≠ 0 → j ≠ 1 → s1.freelist j = exampleMem.freelist j :=
  kalloc_steal_halves 2 2 exampleMem 0 1 [0x1000, 0x2000, 0x3000] (by decide) (by decide)
    (by decide) (fun j hj hne => by interval_cases j; exact absurd rfl hne) (by decide)
    (by decide) (by decide)

/-- C20 fails on the code: with two CPUs and empty free lists, after CPU 0 and
then CPU 1 have each executed `acquire(&kmem[cpu_id].lock)`, CPU 0 holds its
own lock and spins on the lock of CPU 1, CPU 1 holds its own lock and spins on
the lock of CPU 0, and under no schedule of the two CPUs does either call
return. -/
theorem kalloc_cross_lock_deadlock :
    (crossLocked.lock 0 = some 0 ∧ waitsFor crossLocked 0 = some 1) ∧
    (crossLocked.lock 1 = some 1 ∧ waitsFor crossLocked 1 = some 0) ∧
    ∀ sched, (∀ c ∈ sched, c < 2) →
      finished (krun 2 1 sched crossLocked) 0 = false ∧
      finished (krun 2 1 sched crossLocked) 1 = false := by
  refine ⟨⟨by decide, by decide⟩, ⟨by decide, by decide⟩, fun sched hs => ?_⟩
  rw [krun_blocked 2 1 crossLocked sched (fun c hc => by
    have := hs c hc
    interval_cases c
    · exact Option.isNone_iff_eq_none.1 (by decide)
    · exact Option.isNone_iff_eq_none.1 (by decide))]
  exact ⟨by decide, by decide⟩

end Kalloc

namespace Bio

theorem locksAfter_append : ∀ (t u : List Ev) (held : List Nat),
    locksAfter (t ++ u) held = (locksAfter t held).bind (locksAfter u)
  | [], u, held => rfl
  | e :: t, u, held => by
    cases e with
    | acquire i =>
      simp only [List.cons_append, locksAfter]
      split
      · exact locksAfter_append t u _
      · rfl
    | release i =>
      simp only [List.cons_append, locksAfter]
      split
      · exact locksAfter_append t u _
      · rfl
    | acquiresleep b =>
      simp only [List.cons_append, locksAfter]
      split
      · exact locksAfter_append t u _
      · rfl
    | releasesleep b =>
      simp only [List.cons_append, locksAfter]
      exact locksAfter_append t u _
    | disk_rw b w =>
      simp only [List.cons_append, locksAfter]
      exact locksAfter_append t u _

/-- The events of one failed visit of bucket `i` by the steal loop, which
starts and ends with the lock of bucket `idx` held. -/
theorem locksAfter_visit (i idx : Nat) (h : i ≠ idx) :
    locksAfter [.release idx, .acquire (if i < idx then i else idx),
      .acquire (if i < idx then idx else i), .release i] [idx] = some [idx] := by
  by_cases hlt : i < idx
  · have h1 : ¬ idx = i := fun e => h e.symm
    simp [locksAfter, hlt, h1]
  · have h2 : idx < i := by omega
    simp [locksAfter, hlt, h2]

/-- The events of the visit of bucket `i` in which the steal loop finds a
buffer: no lock is held at the end. -/
theorem locksAfter_take (i idx : Nat) (h : i ≠ idx) :
    locksAfter [.release idx, .acquire (if i < idx then i else idx),
      .acquire (if i < idx then idx else i), .release i, .release idx] [idx] = some [] := by
  by_cases hlt : i < idx
  · have h1 : ¬ idx = i := fun e => h e.symm
    simp [locksAfter, hlt, h1]
  · have h2 : idx < i := by omega
    simp [locksAfter, hlt, h2]

/-- Calling `acquiresleep` when no bucket lock is held keeps the discipline. -/
theorem acquiresleep_discipline (s s0 s1 : State) (pid : Nat) (b : Ptr) (t : List Ev)
    (ht : s0.trace = s.trace ++ t) (hl : locksAfter t [] = some [])
    (h : (acquiresleep s0 pid b).state? = some s1) :
    (acquiresleep s0 pid b).aborts = false ∧
    ∃ t1, s1.trace = s.trace ++ t1 ∧ locksAfter t1 [] = some [] := by
  unfold Bio.acquiresleep at h ⊢
  cases hk : (s0.node b).lock with
  | none =>
    rw [hk] at h
    simp only [Outcome.state?, Option.some.injEq] at h
    subst h
    refine ⟨rfl, t ++ [.acquiresleep b], ?_, ?_⟩
    · simp only [State.log, setLock_trace, ht, List.append_assoc]
    · rw [locksAfter_append, hl]
      rfl
  | some q =>
    rw [hk] at h
    simp only [Outcome.state?, Option.some.injEq] at h
    subst h
    exact ⟨rfl, t, ht, hl⟩

theorem bgetSteal_discipline (fuel pid dev blockno idx : Nat) (s : State) :
    ∀ (is : List Nat) (s0 s1 : State) (t : List Ev), s0.trace = s.trace ++ t →
    locksAfter t [] = some [idx] →
    (bgetSteal fuel pid dev blockno idx is s0).state? = some s1 →
    ∃ t1 held, s1.trace = s.trace ++ t1 ∧ locksAfter t1 [] = some held ∧
      ((bgetSteal fuel pid dev blockno idx is s0).aborts = false → held = [])
  | [], s0, s1, t, ht, hl, h => by
    simp only [bgetSteal, Outcome.state?, Option.some.injEq] at h
    subst h
    exact ⟨t, [idx], ht, hl, fun h => by simp [bgetSteal, Outcome.aborts] at h⟩
  | i :: is, s0, s1, t, ht, hl, h => by
    by_cases hi : i = idx
    · simp only [bgetSteal, hi, ↓reduceIte] at h ⊢
      exact bgetSteal_discipline fuel pid dev blockno idx s is s0 s1 t ht hl h
    · simp only [bgetSteal, hi, ↓reduceIte, log_node] at h ⊢
      cases hs : scan (fun b => (s0.node b).next) (fun b => (s0.node b).refcnt == 0) (.head i)
          fuel (s0.node (.head i)).next with
      | none => rw [hs] at h; cases h
      | some r =>
        rw [hs] at h
        cases r with
        | none =>
          simp only at h ⊢
          refine bgetSteal_discipline fuel pid dev blockno idx s is _ s1
            (t ++ [.release idx, .acquire (if i < idx then i else idx),
              .acquire (if i < idx then idx else i), .release i]) ?_ ?_ h
          · simp only [State.log, ht, List.append_assoc, List.singleton_append, List.cons_append,
              List.nil_append]
          · rw [locksAfter_append, hl]
            exact locksAfter_visit i idx hi
        | some b =>
          simp only at h ⊢
          obtain ⟨ha, t1, h1, h2⟩ := acquiresleep_discipline s _ s1 pid b
            (t ++ [.release idx, .acquire (if i < idx then i else idx),
              .acquire (if i < idx then idx else i), .release i, .release idx])
            (by simp only [State.log, reinit_trace, relink_trace, ht, List.append_assoc,
              List.singleton_append, List.cons_append, List.nil_append])
            (by rw [locksAfter_append, hl]; exact locksAfter_take i idx hi) h
          exact ⟨t1, [], h1, h2, fun _ => rfl⟩

/-- A block number below `2^31` is hashed to its remainder modulo `NBUCKET`,
a valid bucket index. -/
theorem hash_fn_small (NBUCKET blockno : Nat) (h0 : 0 < NBUCKET) (hb : blockno < 2 ^ 31) :
    hash_fn NBUCKET (toInt blockno) = ((blockno % NBUCKET : Nat) : Int) ∧
    0 ≤ hash_fn NBUCKET (toInt blockno) ∧ hash_fn NBUCKET (toInt blockno) < NBUCKET ∧
    bucketOf NBUCKET blockno = blockno % NBUCKET := by
  have h1 : toInt blockno = (blockno : Int) := by
    have : blockno % UINT = blockno := Nat.mod_eq_of_lt (by simp only [UINT]; omega)
    simp only [toInt, this, hb, ↓reduceIte]
  have h2 : hash_fn NBUCKET (toInt blockno) = ((blockno % NBUCKET : Nat) : Int) := by
    rw [h1, hash_fn]
    rw [Int.tmod_eq_emod (by omega) (by omega)]
    norm_cast
  refine ⟨h2, by rw [h2]; omega, by rw [h2]; exact_mod_cast Nat.mod_lt _ h0, ?_⟩
  simp only [bucketOf, h2, Int.toNat_ofNat]

theorem chain_succ {α : Type} {R : α → α → Prop} : ∀ (l : List α) (z : α),
    List.Chain' R (l ++ [z]) → ∀ p ∈ l, ∃ q, R p q
  | [], _, _, p, hp => by simp at hp
  | [a], z, h, p, hp => by
    simp only [List.singleton_append, List.chain'_cons, List.chain'_singleton, and_true] at h
    simp only [List.mem_singleton] at hp
    exact ⟨z, hp ▸ h⟩
  | a :: b :: l, z, h, p, hp => by
    simp only [List.cons_append, List.chain'_cons] at h
    rcases List.mem_cons.1 hp with rfl | hp
    · exact ⟨b, h.1⟩
    · exact chain_succ (b :: l) z (by simpa only [List.cons_append, List.chain'_cons] using h.2)
        p hp

theorem chain_pred {α : Type} {R : α → α → Prop} : ∀ (l : List α) (a : α),
    List.Chain' R (a :: l) → ∀ p ∈ l, ∃ q, R q p
  | [], _, _, p, hp => by simp at hp
  | b :: l, a, h, p, hp => by
    simp only [List.chain'_cons] at h
    rcases List.mem_cons.1 hp with rfl | hp
    · exact ⟨a, h.1⟩
    · exact chain_pred l b h.2 p hp

/-- In a bucket list, `x->next->prev == x` and `x->prev->next == x` for the
head and for every member. -/
theorem Bucket.links {s : State} {i : Nat} {xs : List Nat} (h : Bucket s i xs) (p : Ptr)
    (hp : p = .head i ∨ ∃ x ∈ xs, p = .buf x) :
    (s.node (s.node p).next).prev = p ∧ (s.node (s.node p).prev).next = p := by
  unfold Bucket at h
  have hs : p ∈ Ptr.head i :: xs.map Ptr.buf := by
    rcases hp with rfl | ⟨x, hx, rfl⟩
    · exact List.mem_cons_self _ _
    · exact List.mem_cons_of_mem _ (List.mem_map.2 ⟨x, hx, rfl⟩)
  have hp2 : p ∈ xs.map Ptr.buf ++ [Ptr.head i] := by
    rcases hp with rfl | ⟨x, hx, rfl⟩
    · simp
    · exact List.mem_append_left _ (List.mem_map.2 ⟨x, hx, rfl⟩)
  obtain ⟨q, hq1, hq2⟩ := chain_succ (Ptr.head i :: xs.map Ptr.buf) (.head i)
    (by simpa only [List.cons_append] using h) p hs
  obtain ⟨r, hr1, hr2⟩ := chain_pred (xs.map Ptr.buf ++ [Ptr.head i]) (.head i) h p hp2
  exact ⟨by rw [hq1, hq2], by rw [hr2, hr1]⟩

theorem find?_isCached_none {s : State} {dev blockno : Nat} {l : List Nat}
    (h : ∀ x ∈ l, isCached s dev blockno (.buf x) = false) :
    l.find? (fun x => isCached s dev blockno (.buf x)) = none :=
  List.find?_eq_none.2 (fun x hx => by simp [h x hx])

/-- What `acquiresleep` does with the state `s1` that `bget` has prepared: it
returns with the lock taken, or sleeps and leaves `s1`. -/
theorem acquiresleep_cases (s1 : State) (pid : Nat) (b : Ptr) :
    ∃ s2, (((s1.node b).lock = none ∧ acquiresleep s1 pid b = .ret b s2 ∧
        (s2.node b).lock = some pid) ∨
      ((s1.node b).lock ≠ none ∧ acquiresleep s1 pid b = .sleeps b s2 ∧
        (s2.node b).lock = (s1.node b).lock)) ∧
      (∀ p, (s2.node p).next = (s1.node p).next ∧ (s2.node p).prev = (s1.node p).prev ∧
        (s2.node p).valid = (s1.node p).valid ∧ (s2.node p).dev = (s1.node p).dev ∧
        (s2.node p).blockno = (s1.node p).blockno ∧ (s2.node p).refcnt = (s1.node p).refcnt) ∧
      (∀ p, p ≠ b → (s2.node p).lock = (s1.node p).lock) := by
  cases hl : (s1.node b).lock with
  | none =>
    refine ⟨(s1.setLock b (some pid)).log (.acquiresleep b),
      Or.inl ⟨rfl, acquiresleep_free s1 pid b hl, ?_⟩, fun p => ?_, fun p hp => ?_⟩
    · simp only [log_node, setLock_lock, ↓reduceIte]
    · simp only [log_node, setLock_next, setLock_prev, setLock_valid, setLock_dev,
        setLock_blockno, setLock_refcnt, and_self]
    · simp only [log_node, setLock_lock, hp, ↓reduceIte]
  | some q =>
    exact ⟨s1, Or.inr ⟨fun h => (by cases h), acquiresleep_held s1 pid q b hl, hl⟩,
      fun p => ⟨rfl, rfl, rfl, rfl, rfl, rfl⟩, fun p _ => rfl⟩

theorem brun_append (NBUCKET fuel : Nat) : ∀ (a b : List Nat) (σ : Sys),
    brun NBUCKET fuel (a ++ b) σ = brun NBUCKET fuel b (brun NBUCKET fuel a σ)
  | [], _, _ => rfl
  | p :: a, b, σ => by
    simp only [List.cons_append, brun]
    exact brun_append NBUCKET fuel a b _

theorem brun_step (NBUCKET fuel : Nat) (n pid : Nat) (σ σ1 : Sys)
    (h : bstep NBUCKET fuel σ pid = some σ1) :
    brun NBUCKET fuel (List.replicate (n + 1) pid) σ =
      brun NBUCKET fuel (List.replicate n pid) σ1 := by
  simp only [List.replicate_succ, brun, h, Option.getD_some]

/-- If the steps of `pid` match `o` after `n` more steps from the state that
`k` steps reach, they match `o` after `k + n` steps. -/
theorem Matches.after (NBUCKET fuel pid : Nat) (o : Outcome Ptr) (σ σ1 : Sys) (k : Nat)
    (hk : brun NBUCKET fuel (List.replicate k pid) σ = σ1)
    (h : ∃ n, Matches pid o (brun NBUCKET fuel (List.replicate n pid) σ1)) :
    ∃ n, Matches pid o (brun NBUCKET fuel (List.replicate n pid) σ) := by
  obtain ⟨n, hn⟩ := h
  refine ⟨k + n, ?_⟩
  rw [List.replicate_add, brun_append, hk]
  exact hn

/-- From the release of the lock of bucket `idx` that precedes
`acquiresleep(&b->lock)`, the steps of `pid` end as `acquiresleep` does. -/
theorem brun_finish (NBUCKET fuel pid : Nat) (σ : Sys) (dev blockno : Nat) (b : Ptr)
    (hpc : σ.pc pid = .relRet dev blockno b)
    (hl : ∀ i, i ≠ bucketOf NBUCKET blockno → σ.lk i = none) :
    ∃ n, Matches pid (acquiresleep (σ.st.log (.release (bucketOf NBUCKET blockno))) pid b)
      (brun NBUCKET fuel (List.replicate n pid) σ) := by
  have e1 : bstep NBUCKET fuel σ pid = some
      { st := σ.st.log (.release (bucketOf NBUCKET blockno)),
        lk := Function.update σ.lk (bucketOf NBUCKET blockno) none,
        pc := Function.update σ.pc pid (.slp b) } := by
    simp only [bstep, hpc]
  have hfree : ∀ i, Function.update σ.lk (bucketOf NBUCKET blockno) none i = none := by
    intro i
    by_cases hi : i = bucketOf NBUCKET blockno
    · subst hi
      simp only [Function.update_same]
    · simp only [Function.update_noteq hi, hl i hi]
  cases hk : (σ.st.node b).lock with
  | some q =>
    refine ⟨1, ?_⟩
    rw [brun_step NBUCKET fuel 0 pid σ _ e1, acquiresleep_held _ pid q b (by
      simp only [log_node]; exact hk)]
    simp only [List.replicate_zero, brun, Matches, Function.update_same, true_and]
    exact hfree
  | none =>
    refine ⟨2, ?_⟩
    rw [brun_step NBUCKET fuel 1 pid σ _ e1, brun_step NBUCKET fuel 0 pid _
      { st := ((σ.st.log (.release (bucketOf NBUCKET blockno))).setLock b (some pid)).log
          (.acquiresleep b),
        lk := Function.update σ.lk (bucketOf NBUCKET blockno) none,
        pc := Function.update (Function.update σ.pc pid (.slp b)) pid (.done b) } (by
        simp only [bstep, Function.update_same, log_node, hk]),
      acquiresleep_free _ pid b (by simp only [log_node]; exact hk)]
    simp only [List.replicate_zero, brun, Matches, Function.update_same, true_and]
    exact hfree


/-- The bucket locks after one visit of the steal loop: released, taken in
index order and the visited one released, they are held as before. -/
theorem lk_visit (lk : Nat → Option Nat) (pid i idx : Nat) (hne : i ≠ idx)
    (hidx : lk idx = some pid) (hi : lk i = none) :
    Function.update (Function.update (Function.update (Function.update lk idx none)
      (if i < idx then i else idx) (some pid)) (if i < idx then idx else i) (some pid)) i none =
      lk := by
  funext k
  by_cases hlt : i < idx
  · simp only [hlt, ↓reduceIte, Function.update_apply]
    by_cases hki : k = i
    · simp [hki, hi]
    · by_cases hkx : k = idx
      · simp [hkx, hidx, hne.symm]
      · simp [hki, hkx]
  · simp only [hlt, ↓reduceIte, Function.update_apply]
    by_cases hki : k = i
    · simp [hki, hi]
    · by_cases hkx : k = idx
      · simp [hkx, hidx, hne.symm]
      · simp [hki, hkx]

/-- The first three steps of a visit of the steal loop: the release of the
lock of bucket `idx`, the two acquires in index order, and the scan of bucket
`i`. -/
theorem brun_visit (NBUCKET fuel pid dev blockno i : Nat) (rest : List Nat) (σ : Sys)
    (hne : i ≠ bucketOf NBUCKET blockno)
    (hpc : σ.pc pid = .relIdx dev blockno i rest)
    (hl : ∀ k, k ≠ bucketOf NBUCKET blockno → σ.lk k = none) :
    ∃ σ3, brun NBUCKET fuel (List.replicate 3 pid) σ = σ3 ∧
      σ3.lk = Function.update (Function.update (Function.update σ.lk (bucketOf NBUCKET blockno)
        none) (if i < bucketOf NBUCKET blockno then i else bucketOf NBUCKET blockno) (some pid))
        (if i < bucketOf NBUCKET blockno then bucketOf NBUCKET blockno else i) (some pid) ∧
      match scan (fun b => ((((σ.st.log (.release (bucketOf NBUCKET blockno))).log
            (.acquire (if i < bucketOf NBUCKET blockno then i else bucketOf NBUCKET blockno))).log
            (.acquire (if i < bucketOf NBUCKET blockno then bucketOf NBUCKET blockno
              else i))).node b).next)
          (fun b => ((((σ.st.log (.release (bucketOf NBUCKET blockno))).log
            (.acquire (if i < bucketOf NBUCKET blockno then i else bucketOf NBUCKET blockno))).log
            (.acquire (if i < bucketOf NBUCKET blockno then bucketOf NBUCKET blockno
              else i))).node b).refcnt == 0) (.head i) fuel
          ((((σ.st.log (.release (bucketOf NBUCKET blockno))).log
            (.acquire (if i < bucketOf NBUCKET blockno then i else bucketOf NBUCKET blockno))).log
            (.acquire (if i < bucketOf NBUCKET blockno then bucketOf NBUCKET blockno
              else i))).node (.head i)).next with
      | none => σ3.pc pid = .fuelOut
      | some (some b) =>
        σ3.pc pid = .relTake dev blockno b i ∧
        σ3.st = reinit (relink (((σ.st.log (.release (bucketOf NBUCKET blockno))).log
          (.acquire (if i < bucketOf NBUCKET blockno then i else bucketOf NBUCKET blockno))).log
          (.acquire (if i < bucketOf NBUCKET blockno then bucketOf NBUCKET blockno else i)))
          b (bucketOf NBUCKET blockno)) b dev blockno
      | some none =>
        σ3.pc pid = .relMiss dev blockno i rest ∧
        σ3.st = ((σ.st.log (.release (bucketOf NBUCKET blockno))).log
          (.acquire (if i < bucketOf NBUCKET blockno then i else bucketOf NBUCKET blockno))).log
          (.acquire (if i < bucketOf NBUCKET blockno then bucketOf NBUCKET blockno else i)) := by
  have e1 : bstep NBUCKET fuel σ pid = some
      { st := σ.st.log (.release (bucketOf NBUCKET blockno)),
        lk := Function.update σ.lk (bucketOf NBUCKET blockno) none,
        pc := Function.update σ.pc pid (.acqS dev blockno i rest) } := by
    simp only [bstep, hpc]
  have hl1 : Function.update σ.lk (bucketOf NBUCKET blockno) none
      (if i < bucketOf NBUCKET blockno then i else bucketOf NBUCKET blockno) = none := by
    by_cases hlt : i < bucketOf NBUCKET blockno
    · rw [if_pos hlt, Function.update_noteq hne, hl i hne]
    · rw [if_neg hlt, Function.update_same]
  have e2 : bstep NBUCKET fuel
      { st := σ.st.log (.release (bucketOf NBUCKET blockno)),
        lk := Function.update σ.lk (bucketOf NBUCKET blockno) none,
        pc := Function.update σ.pc pid (.acqS dev blockno i rest) } pid = some
      { st := (σ.st.log (.release (bucketOf NBUCKET blockno))).log
          (.acquire (if i < bucketOf NBUCKET blockno then i else bucketOf NBUCKET blockno)),
        lk := Function.update (Function.update σ.lk (bucketOf NBUCKET blockno) none)
          (if i < bucketOf NBUCKET blockno then i else bucketOf NBUCKET blockno) (some pid),
        pc := Function.update (Function.update σ.pc pid (.acqS dev blockno i rest)) pid
          (.acqL dev blockno i rest) } := by
    simp only [bstep, Function.update_same, hl1]
  have hl2 : Function.update (Function.update σ.lk (bucketOf NBUCKET blockno) none)
      (if i < bucketOf NBUCKET blockno then i else bucketOf NBUCKET blockno) (some pid)
      (if i < bucketOf NBUCKET blockno then bucketOf NBUCKET blockno else i) = none := by
    by_cases hlt : i < bucketOf NBUCKET blockno
    · rw [if_pos hlt, if_pos hlt, Function.update_noteq hne.symm, Function.update_same]
    · rw [if_neg hlt, if_neg hlt, Function.update_noteq hne, Function.update_noteq hne, hl i hne]
  rw [brun_step NBUCKET fuel 2 pid σ _ e1, brun_step NBUCKET fuel 1 pid _ _ e2]
  simp only [List.replicate_succ, List.replicate_zero, brun, bstep, Function.update_same, hl2]
  split <;> simp [Function.update_same]


/-- The steal loop, run by `pid` alone while it holds the lock of bucket `idx`
and every other bucket lock is free, ends as `bgetSteal` does. -/
theorem brun_steal (NBUCKET fuel pid dev blockno : Nat) : ∀ (is : List Nat) (σ : Sys),
    σ.pc pid = stealPc dev blockno (bucketOf NBUCKET blockno) is →
    σ.lk (bucketOf NBUCKET blockno) = some pid →
    (∀ k, k ≠ bucketOf NBUCKET blockno → σ.lk k = none) →
    ∃ n, Matches pid (bgetSteal fuel pid dev blockno (bucketOf NBUCKET blockno) is σ.st)
      (brun NBUCKET fuel (List.replicate n pid) σ)
  | [], σ, hpc, _, _ => ⟨0, by
      simp only [stealPc] at hpc
      simp only [bgetSteal, Matches, List.replicate_zero, brun, hpc, and_self]⟩
  | i :: rest, σ, hpc, hidx, hl => by
    by_cases hi : i = bucketOf NBUCKET blockno
    · simp only [stealPc, if_pos hi] at hpc
      simp only [bgetSteal, if_pos hi]
      exact brun_steal NBUCKET fuel pid dev blockno rest σ hpc hidx hl
    · simp only [stealPc, if_neg hi] at hpc
      simp only [bgetSteal, if_neg hi]
      obtain ⟨σ3, e3, hlk3, hm⟩ := brun_visit NBUCKET fuel pid dev blockno i rest σ hi hpc hl
      refine Matches.after NBUCKET fuel pid _ σ σ3 3 e3 ?_
      have hlk4 : Function.update σ3.lk i none = σ.lk := by
        rw [hlk3]
        exact lk_visit σ.lk pid i _ hi hidx (hl i hi)
      cases hs : scan (fun b => ((((σ.st.log (.release (bucketOf NBUCKET blockno))).log
            (.acquire (if i < bucketOf NBUCKET blockno then i else bucketOf NBUCKET blockno))).log
            (.acquire (if i < bucketOf NBUCKET blockno then bucketOf NBUCKET blockno
              else i))).node b).next)
          (fun b => ((((σ.st.log (.release (bucketOf NBUCKET blockno))).log
            (.acquire (if i < bucketOf NBUCKET blockno then i else bucketOf NBUCKET blockno))).log
            (.acquire (if i < bucketOf NBUCKET blockno then bucketOf NBUCKET blockno
              else i))).node b).refcnt == 0) (.head i) fuel
          ((((σ.st.log (.release (bucketOf NBUCKET blockno))).log
            (.acquire (if i < bucketOf NBUCKET blockno then i else bucketOf NBUCKET blockno))).log
            (.acquire (if i < bucketOf NBUCKET blockno then bucketOf NBUCKET blockno
              else i))).node (.head i)).next with
      | none =>
        rw [hs] at hm
        exact ⟨0, by simp only [Matches, List.replicate_zero, brun]; exact hm⟩
      | some r =>
        rw [hs] at hm
        cases r with
        | some b =>
          simp only at hm ⊢
          obtain ⟨hpc3, hst3⟩ := hm
          have e4 : bstep NBUCKET fuel σ3 pid = some
              { st := σ3.st.log (.release i), lk := Function.update σ3.lk i none,
                pc := Function.update σ3.pc pid (.relRet dev blockno b) } := by
            simp only [bstep, hpc3]
          refine Matches.after NBUCKET fuel pid _ σ3 _ 1
            (brun_step NBUCKET fuel 0 pid σ3 _ e4) ?_
          have hfin := brun_finish NBUCKET fuel pid
            { st := σ3.st.log (.release i), lk := Function.update σ3.lk i none,
              pc := Function.update σ3.pc pid (.relRet dev blockno b) } dev blockno b
            (by simp only [Function.update_same])
            (fun k hk => by simp only [hlk4]; exact hl k hk)
          rw [← hst3]
          exact hfin
        | none =>
          simp only at hm ⊢
          obtain ⟨hpc3, hst3⟩ := hm
          have e4 : bstep NBUCKET fuel σ3 pid = some
              { st := σ3.st.log (.release i), lk := Function.update σ3.lk i none,
                pc := Function.update σ3.pc pid
                  (stealPc dev blockno (bucketOf NBUCKET blockno) rest) } := by
            simp only [bstep, hpc3]
          refine Matches.after NBUCKET fuel pid _ σ3 _ 1
            (brun_step NBUCKET fuel 0 pid σ3 _ e4) ?_
          have ih := brun_steal NBUCKET fuel pid dev blockno rest
            { st := σ3.st.log (.release i), lk := Function.update σ3.lk i none,
              pc := Function.update σ3.pc pid
                (stealPc dev blockno (bucketOf NBUCKET blockno) rest) }
            (by simp only [Function.update_same])
            (by simp only [hlk4]; exact hidx)
            (fun k hk => by simp only [hlk4]; exact hl k hk)
          rw [← hst3]
          exact ih

/-- The steps refine the call: when process `pid` is about to call
`bget(dev, blockno)` and no bucket lock is held, its steps alone end as the
call `bget` ends, in the same state. -/
theorem brun_solo (NBUCKET fuel pid dev blockno : Nat) (σ : Sys)
    (hpc : σ.pc pid = .entry dev blockno) (hl : ∀ k, σ.lk k = none) :
    ∃ n, Matches pid (bget NBUCKET fuel σ.st pid dev blockno)
      (brun NBUCKET fuel (List.replicate n pid) σ) := by
  unfold bget
  by_cases hh : hash_fn NBUCKET (toInt blockno) < 0
  · refine ⟨1, ?_⟩
    rw [brun_step NBUCKET fuel 0 pid σ { σ with pc := Function.update σ.pc pid .fault } (by
      simp only [bstep, hpc, hh, ↓reduceIte])]
    simp only [hh, ↓reduceIte, Matches, List.replicate_zero, brun, Function.update_same]
  · simp only [hh, ↓reduceIte]
    have hfree : ∀ k, k ≠ bucketOf NBUCKET blockno →
        Function.update σ.lk (bucketOf NBUCKET blockno) (some pid) k = none :=
      fun k hk => by rw [Function.update_noteq hk, hl k]
    cases hs : scan (fun b => ((σ.st.log (.acquire (hash_fn NBUCKET (toInt blockno)).toNat)).node
          b).next)
        (fun b => ((σ.st.log (.acquire (hash_fn NBUCKET (toInt blockno)).toNat)).node b).dev ==
          dev && ((σ.st.log (.acquire (hash_fn NBUCKET (toInt blockno)).toNat)).node b).blockno ==
          blockno) (.head (hash_fn NBUCKET (toInt blockno)).toNat) fuel
        ((σ.st.log (.acquire (hash_fn NBUCKET (toInt blockno)).toNat)).node
          (.head (hash_fn NBUCKET (toInt blockno)).toNat)).next with
    | none =>
      refine ⟨1, ?_⟩
      rw [brun_step NBUCKET fuel 0 pid σ
        { st := σ.st.log (.acquire (hash_fn NBUCKET (toInt blockno)).toNat),
          lk := Function.update σ.lk (hash_fn NBUCKET (toInt blockno)).toNat (some pid),
          pc := Function.update σ.pc pid .fuelOut } (by
        simp only [bstep, hpc, hh, ↓reduceIte, hl, hs])]
      simp only [Matches, List.replicate_zero, brun, Function.update_same]
    | some r =>
      cases r with
      | some b =>
        simp only
        refine Matches.after NBUCKET fuel pid _ σ
          { st := (σ.st.log (.acquire (hash_fn NBUCKET (toInt blockno)).toNat)).setRefcnt b
              ((((σ.st.log (.acquire (hash_fn NBUCKET (toInt blockno)).toNat)).node b).refcnt + 1)
                % UINT),
            lk := Function.update σ.lk (hash_fn NBUCKET (toInt blockno)).toNat (some pid),
            pc := Function.update σ.pc pid (.relRet dev blockno b) } 1
          (brun_step NBUCKET fuel 0 pid σ _ (by
            simp only [bstep, hpc, hh, ↓reduceIte, hl, hs])) ?_
        exact brun_finish NBUCKET fuel pid
          { st := (σ.st.log (.acquire (hash_fn NBUCKET (toInt blockno)).toNat)).setRefcnt b
              ((((σ.st.log (.acquire (hash_fn NBUCKET (toInt blockno)).toNat)).node b).refcnt + 1)
                % UINT),
            lk := Function.update σ.lk (hash_fn NBUCKET (toInt blockno)).toNat (some pid),
            pc := Function.update σ.pc pid (.relRet dev blockno b) } dev blockno b
          (by simp only [Function.update_same]) hfree
      | none =>
        simp only
        cases hs2 : scan (fun b => ((σ.st.log (.acquire (hash_fn NBUCKET
              (toInt blockno)).toNat)).node b).prev)
            (fun b => ((σ.st.log (.acquire (hash_fn NBUCKET (toInt blockno)).toNat)).node
              b).refcnt == 0) (.head (hash_fn NBUCKET (toInt blockno)).toNat) fuel
            ((σ.st.log (.acquire (hash_fn NBUCKET (toInt blockno)).toNat)).node
              (.head (hash_fn NBUCKET (toInt blockno)).toNat)).prev with
        | none =>
          refine ⟨1, ?_⟩
          rw [brun_step NBUCKET fuel 0 pid σ
            { st := σ.st.log (.acquire (hash_fn NBUCKET (toInt blockno)).toNat),
              lk := Function.update σ.lk (hash_fn NBUCKET (toInt blockno)).toNat (some pid),
              pc := Function.update σ.pc pid .fuelOut } (by
            simp only [bstep, hpc, hh, ↓reduceIte, hl, hs, hs2])]
          simp only [Matches, List.replicate_zero, brun, Function.update_same]
        | some r2 =>
          cases r2 with
          | some b =>
            simp only
            refine Matches.after NBUCKET fuel pid _ σ
              { st := reinit (σ.st.log (.acquire (hash_fn NBUCKET (toInt blockno)).toNat)) b
                  dev blockno,
                lk := Function.update σ.lk (hash_fn NBUCKET (toInt blockno)).toNat (some pid),
                pc := Function.update σ.pc pid (.relRet dev blockno b) } 1
              (brun_step NBUCKET fuel 0 pid σ _ (by
                simp only [bstep, hpc, hh, ↓reduceIte, hl, hs, hs2])) ?_
            exact brun_finish NBUCKET fuel pid
              { st := reinit (σ.st.log (.acquire (hash_fn NBUCKET (toInt blockno)).toNat)) b
                  dev blockno,
                lk := Function.update σ.lk (hash_fn NBUCKET (toInt blockno)).toNat (some pid),
                pc := Function.update σ.pc pid (.relRet dev blockno b) } dev blockno b
              (by simp only [Function.update_same]) hfree
          | none =>
            simp only
            refine Matches.after NBUCKET fuel pid _ σ
              { st := σ.st.log (.acquire (hash_fn NBUCKET (toInt blockno)).toNat),
                lk := Function.update σ.lk (hash_fn NBUCKET (toInt blockno)).toNat (some pid),
                pc := Function.update σ.pc pid
                  (stealPc dev blockno (hash_fn NBUCKET (toInt blockno)).toNat
                    (List.range NBUCKET)) } 1
              (brun_step NBUCKET fuel 0 pid σ _ (by
                simp only [bstep, hpc, hh, ↓reduceIte, hl, hs, hs2])) ?_
            exact brun_steal NBUCKET fuel pid dev blockno (List.range NBUCKET)
              { st := σ.st.log (.acquire (hash_fn NBUCKET (toInt blockno)).toNat),
                lk := Function.update σ.lk (hash_fn NBUCKET (toInt blockno)).toNat (some pid),
                pc := Function.update σ.pc pid
                  (stealPc dev blockno (hash_fn NBUCKET (toInt blockno)).toNat
                    (List.range NBUCKET)) }
              (by simp only [Function.update_same]; rfl)
              (by simp only [bucketOf, Function.update_same]) hfree

/-- With two buckets or more, the block number `2^32 - 1` is hashed to `-1`. -/
theorem hash_fn_minus_one (NBUCKET : Nat) (h : 2 ≤ NBUCKET) :
    hash_fn NBUCKET (toInt 4294967295) = -1 := by
  have h1 : toInt 4294967295 = Int.negSucc 0 := by decide
  obtain ⟨m, rfl⟩ : ∃ m, NBUCKET = m + 2 := ⟨NBUCKET - 2, by omega⟩
  rw [h1, hash_fn]
  show -((Nat.succ 0 % (m + 2) : Nat) : Int) = -1
  rw [Nat.mod_eq_of_lt (by omega)]
  rfl

end Bio

/-! ## The buffer cache: further claims -/

namespace Bio

/-- C12 fails on the code: right after `binit` with 2 buffers and 2 buckets,
processes 1 and 2 call `bget(1, 1)` concurrently.  Process 1 takes the lock of
bucket 1, finds the bucket empty and releases the lock at the head of the
steal loop; process 2 then takes that lock, finds the bucket still empty and
releases it too; each then steals a buffer of bucket 0 without looking at
bucket 1 again.  Both calls return: buffers 0 and 1 are two distinct buffers
with `refcnt = 1` and the identity `(1, 1)`, both in bucket 1. -/
theorem concurrent_bget_two_copies :
    (brun 2 3 [1, 1, 2, 2] twoGets).pc 1 = .acqS 1 1 0 [1] ∧
    (brun 2 3 [1, 1, 2, 2] twoGets).pc 2 = .acqS 1 1 0 [1] ∧
    twoCopies.pc 1 = .done (.buf 1) ∧ twoCopies.pc 2 = .done (.buf 0) ∧
    (twoCopies.st.node (.buf 0)).dev = 1 ∧ (twoCopies.st.node (.buf 0)).blockno = 1 ∧
    (twoCopies.st.node (.buf 0)).refcnt = 1 ∧
    (twoCopies.st.node (.buf 1)).dev = 1 ∧ (twoCopies.st.node (.buf 1)).blockno = 1 ∧
    (twoCopies.st.node (.buf 1)).refcnt = 1 ∧
    (twoCopies.st.node (.head 1)).next = .buf 0 ∧ (twoCopies.st.node (.buf 0)).next = .buf 1 ∧
    (twoCopies.st.node (.buf 1)).next = .head 1 :=
  ⟨by decide!, by decide!, by decide!, by decide!, by decide!, by decide!, by decide!,
    by decide!, by decide!, by decide!, by decide!, by decide!, by decide!⟩

/-- C13 (local tie-break): in a well-formed cache, when no buffer of bucket
`hash(blockno)` has the identity `(dev, blockno)` and the bucket has a buffer
with `refcnt = 0`, `bget` selects the first such buffer in the scan from
`head.prev` backwards, sets its identity to `(dev, blockno)`, `valid` to 0 and
`refcnt` to 1, changes no `next` or `prev` pointer and no other buffer, and
returns the buffer with its lock taken, or sleeps on that lock when it is
held. -/
theorem bget_local_recycle (NBUF NBUCKET fuel : Nat) (s : State) (pid dev blockno : Nat)
    (L : Nat → List Nat) (hwf : Wf NBUF NBUCKET s L) (h0 : 0 < NBUCKET)
    (hh : 0 ≤ hash_fn NBUCKET (toInt blockno)) (hfuel : NBUF < fuel)
    (hmiss : ∀ x ∈ L (bucketOf NBUCKET blockno), isCached s dev blockno (.buf x) = false)
    (hfree : ∃ x ∈ L (bucketOf NBUCKET blockno), (s.node (.buf x)).refcnt = 0) :
    ∃ j s1, (L (bucketOf NBUCKET blockno)).reverse.find? (fun x => isFree s (.buf x)) = some j ∧
      (((s.node (.buf j)).lock = none ∧
          bget NBUCKET fuel s pid dev blockno = .ret (.buf j) s1 ∧
          (s1.node (.buf j)).lock = some pid) ∨
        ((s.node (.buf j)).lock ≠ none ∧
          bget NBUCKET fuel s pid dev blockno = .sleeps (.buf j) s1 ∧
          (s1.node (.buf j)).lock = (s.node (.buf j)).lock)) ∧
      (s1.node (.buf j)).dev = dev ∧ (s1.node (.buf j)).blockno = blockno ∧
      (s1.node (.buf j)).valid = 0 ∧ (s1.node (.buf j)).refcnt = 1 ∧
      (∀ p, (s1.node p).next = (s.node p).next ∧ (s1.node p).prev = (s.node p).prev) ∧
      (∀ p, p ≠ .buf j → (s1.node p).valid = (s.node p).valid ∧
        (s1.node p).dev = (s.node p).dev ∧ (s1.node p).blockno = (s.node p).blockno ∧
        (s1.node p).refcnt = (s.node p).refcnt ∧ (s1.node p).lock = (s.node p).lock) ∧
      Wf NBUF NBUCKET s1 L := by
  have hfind := find?_isCached_none hmiss
  obtain ⟨j, hj⟩ : ∃ j, (L (bucketOf NBUCKET blockno)).reverse.find?
      (fun x => isFree s (.buf x)) = some j := by
    cases hf : (L (bucketOf NBUCKET blockno)).reverse.find? (fun x => isFree s (.buf x)) with
    | some j => exact ⟨j, rfl⟩
    | none =>
      obtain ⟨x, hx, hx0⟩ := hfree
      have := (find?_reverse_none _ _).1 hf x hx
      simp [isFree, hx0] at this
  obtain ⟨e, hsel⟩ := bget_recycle NBUF NBUCKET fuel s pid dev blockno L j hwf h0 hh hfuel
    hfind hj
  obtain ⟨s2, hcase, hsame, hlock⟩ := acquiresleep_cases
    ((reinit (s.log (.acquire (bucketOf NBUCKET blockno))) (.buf j) dev blockno).log
      (.release (bucketOf NBUCKET blockno))) pid (.buf j)
  have hself := reinit_self (s.log (.acquire (bucketOf NBUCKET blockno))) (.buf j) dev blockno
  simp only [log_node] at hcase hsame hlock hself
  refine ⟨j, s2, hj, ?_, ?_, ?_, ?_, ?_, fun p => ?_, fun p hp => ?_, ?_⟩
  · rw [e]
    rcases hcase with ⟨h1, h2, h3⟩ | ⟨h1, h2, h3⟩
    · exact Or.inl ⟨by rw [← hself.2.2.2.2]; exact h1, h2, h3⟩
    · exact Or.inr ⟨by rw [← hself.2.2.2.2]; exact h1, h2, by rw [h3, hself.2.2.2.2]⟩
  · rw [(hsame _).2.2.2.1]; exact hself.1
  · rw [(hsame _).2.2.2.2.1]; exact hself.2.1
  · rw [(hsame _).2.2.1]; exact hself.2.2.1
  · rw [(hsame _).2.2.2.2.2]; exact hself.2.2.2.1
  · rw [(hsame p).1, (hsame p).2.1, reinit_next, reinit_prev]
    simp only [log_node, and_self]
  · have ho := (data_eq_iff _ _).1
      (reinit_other (s.log (.acquire (bucketOf NBUCKET blockno))) (.buf j) dev blockno p hp)
    simp only [log_node] at ho
    rw [(hsame p).2.2.1, (hsame p).2.2.2.1, (hsame p).2.2.2.2.1, (hsame p).2.2.2.2.2, hlock p hp]
    exact ⟨ho.1, ho.2.1, ho.2.2.1, ho.2.2.2.2, ho.2.2.2.1⟩
  · refine hwf.congr_wf (fun p => ?_) (fun p => ?_)
    · rw [(hsame p).1, reinit_next]; simp only [log_node]
    · rw [(hsame p).2.1, reinit_prev]; simp only [log_node]

/-- Witness of C13: right after `binit` with 3 buffers and 2 buckets,
`bget(1, 0)` recycles buffer 0, the least recent of bucket 0. -/
theorem bget_local_recycle_witness :
    ∃ j s1, (initLists 3 (bucketOf 2 0)).reverse.find? (fun x => isFree (binit 3 2) (.buf x)) =
        some j ∧
      ((((binit 3 2).node (.buf j)).lock = none ∧
          bget 2 4 (binit 3 2) 1 1 0 = .ret (.buf j) s1 ∧
          (s1.node (.buf j)).lock = some 1) ∨
        (((binit 3 2).node (.buf j)).lock ≠ none ∧
          bget 2 4 (binit 3 2) 1 1 0 = .sleeps (.buf j) s1 ∧
          (s1.node (.buf j)).lock = ((binit 3 2).node (.buf j)).lock)) ∧
      (s1.node (.buf j)).dev = 1 ∧ (s1.node (.buf j)).blockno = 0 ∧
      (s1.node (.buf j)).valid = 0 ∧ (s1.node (.buf j)).refcnt = 1 ∧
      (∀ p, (s1.node p).next = ((binit 3 2).node p).next ∧
        (s1.node p).prev = ((binit 3 2).node p).prev) ∧
      (∀ p, p ≠ .buf j → (s1.node p).valid = ((binit 3 2).node p).valid ∧
        (s1.node p).dev = ((binit 3 2).node p).dev ∧
        (s1.node p).blockno = ((binit 3 2).node p).blockno ∧
        (s1.node p).refcnt = ((binit 3 2).node p).refcnt ∧
        (s1.node p).lock = ((binit 3 2).node p).lock) ∧
      Wf 3 2 s1 (initLists 3) :=
  bget_local_recycle 3 2 4 (binit 3 2) 1 1 0 (initLists 3) (binit_wf 3 2 (by decide)).1
    (by decide) (by decide) (by decide) (by decide) ⟨0, by decide, by decide⟩

/-- C14 (cross-bucket steal): in a well-formed cache, when bucket
`idx = hash(blockno)` has neither a buffer with the identity `(dev, blockno)`
nor a buffer with `refcnt = 0`, and `i` is the lowest bucket other than `idx`
with such a buffer, `j` being the first one from `head.next`, `bget` selects
`j`: the cache is then well formed with `j` in front of the list of bucket
`idx`, the list of bucket `i` without `j` and every other list unchanged; `j`
has the identity `(dev, blockno)`, `valid = 0` and `refcnt = 1`, and no other
buffer has changed. -/
theorem bget_cross_steal (NBUF NBUCKET fuel : Nat) (s : State) (pid dev blockno : Nat)
    (L : Nat → List Nat) (i j : Nat) (hwf : Wf NBUF NBUCKET s L) (h0 : 0 < NBUCKET)
    (hh : 0 ≤ hash_fn NBUCKET (toInt blockno)) (hfuel : NBUF < fuel)
    (hmiss : ∀ x ∈ L (bucketOf NBUCKET blockno), isCached s dev blockno (.buf x) = false)
    (hfull : ∀ x ∈ L (bucketOf NBUCKET blockno), (s.node (.buf x)).refcnt ≠ 0)
    (hi : i < NBUCKET) (hne : i ≠ bucketOf NBUCKET blockno)
    (hlow : ∀ k, k < i → k ≠ bucketOf NBUCKET blockno → ∀ x ∈ L k, (s.node (.buf x)).refcnt ≠ 0)
    (hj : (L i).find? (fun x => isFree s (.buf x)) = some j) :
    ∃ s1 L1, (((s.node (.buf j)).lock = none ∧
          bget NBUCKET fuel s pid dev blockno = .ret (.buf j) s1 ∧
          (s1.node (.buf j)).lock = some pid) ∨
        ((s.node (.buf j)).lock ≠ none ∧
          bget NBUCKET fuel s pid dev blockno = .sleeps (.buf j) s1 ∧
          (s1.node (.buf j)).lock = (s.node (.buf j)).lock)) ∧
      Wf NBUF NBUCKET s1 L1 ∧
      L1 (bucketOf NBUCKET blockno) = j :: L (bucketOf NBUCKET blockno) ∧
      L1 i = (L i).erase j ∧
      (∀ k, k ≠ bucketOf NBUCKET blockno → k ≠ i → L1 k = L k) ∧
      (s1.node (.head (bucketOf NBUCKET blockno))).next = .buf j ∧
      (s1.node (.buf j)).dev = dev ∧ (s1.node (.buf j)).blockno = blockno ∧
      (s1.node (.buf j)).valid = 0 ∧ (s1.node (.buf j)).refcnt = 1 ∧
      (∀ p, p ≠ .buf j → (s1.node p).valid = (s.node p).valid ∧
        (s1.node p).dev = (s.node p).dev ∧ (s1.node p).blockno = (s.node p).blockno ∧
        (s1.node p).refcnt = (s.node p).refcnt ∧ (s1.node p).lock = (s.node p).lock) := by
  have hfind := find?_isCached_none hmiss
  obtain ⟨s0, e, hsel⟩ := bget_steal NBUF NBUCKET fuel s pid dev blockno L i j hwf h0 hh hfuel
    hfind (fun x hx => by simpa [isFree] using hfull x hx) hi hne
    (fun k hk hkne x hx => by simpa [isFree] using hlow k hk hkne x hx) hj
  obtain ⟨s2, hcase, hsame, hlock⟩ := acquiresleep_cases s0 pid (.buf j)
  have hwf2 : Wf NBUF NBUCKET s2 (Function.update (Function.update L i ((L i).erase j))
      (bucketOf NBUCKET blockno) (j :: L (bucketOf NBUCKET blockno))) :=
    hsel.wf.congr_wf (fun p => (hsame p).1) (fun p => (hsame p).2.1)
  have hvr : (s0.node (.buf j)).valid = 0 ∧ (s0.node (.buf j)).refcnt = 1 := by
    rcases hsel.how with ⟨hf, _⟩ | ⟨_, _, hv, hr, _⟩
    · rw [hfind] at hf; cases hf
    · exact ⟨hv, hr⟩
  have hidx := bucketOf_lt NBUCKET blockno h0 hh
  refine ⟨s2, _, ?_, hwf2, ?_, ?_, fun k hk1 hk2 => ?_, ?_, ?_, ?_, ?_, ?_, fun p hp => ?_⟩
  · rw [e]
    rcases hcase with ⟨h1, h2, h3⟩ | ⟨h1, h2, h3⟩
    · exact Or.inl ⟨by rw [← hsel.lock_eq]; exact h1, h2, h3⟩
    · exact Or.inr ⟨by rw [← hsel.lock_eq]; exact h1, h2, by rw [h3, hsel.lock_eq]⟩
  · simp only [Function.update_same]
  · simp only [Function.update_noteq hne, Function.update_same]
  · simp only [Function.update_noteq hk1, Function.update_noteq hk2]
  · have hb := (hwf2.1.1 _ hidx).head_next.1
    simp only [Function.update_same, List.map_cons, List.cons_append, List.head?_cons,
      Option.some.injEq] at hb
    exact hb.symm
  · rw [(hsame _).2.2.2.1]; exact hsel.dev_eq
  · rw [(hsame _).2.2.2.2.1]; exact hsel.blockno_eq
  · rw [(hsame _).2.2.1]; exact hvr.1
  · rw [(hsame _).2.2.2.2.2]; exact hvr.2
  · have ho := hsel.other_fields hp
    rw [(hsame p).2.2.1, (hsame p).2.2.2.1, (hsame p).2.2.2.2.1, (hsame p).2.2.2.2.2, hlock p hp]
    exact ⟨ho.1, ho.2.1, ho.2.2.1, ho.2.2.2.2, ho.2.2.2.1⟩

/-- Witness of C14: right after `binit` with 3 buffers and 2 buckets,
`bget(1, 5)` steals buffer 2 from bucket 0 for bucket 1. -/
theorem bget_cross_steal_witness :
    ∃ s1 L1, ((((binit 3 2).node (.buf 2)).lock = none ∧
          bget 2 4 (binit 3 2) 1 1 5 = .ret (.buf 2) s1 ∧
          (s1.node (.buf 2)).lock = some 1) ∨
        (((binit 3 2).node (.buf 2)).lock ≠ none ∧
          bget 2 4 (binit 3 2) 1 1 5 = .sleeps (.buf 2) s1 ∧
          (s1.node (.buf 2)).lock = ((binit 3 2).node (.buf 2)).lock)) ∧
      Wf 3 2 s1 L1 ∧
      L1 (bucketOf 2 5) = 2 :: initLists 3 (bucketOf 2 5) ∧
      L1 0 = (initLists 3 0).erase 2 ∧
      (∀ k, k ≠ bucketOf 2 5 → k ≠ 0 → L1 k = initLists 3 k) ∧
      (s1.node (.head (bucketOf 2 5))).next = .buf 2 ∧
      (s1.node (.buf 2)).dev = 1 ∧ (s1.node (.buf 2)).blockno = 5 ∧
      (s1.node (.buf 2)).valid = 0 ∧ (s1.node (.buf 2)).refcnt = 1 ∧
      (∀ p, p ≠ .buf 2 → (s1.node p).valid = ((binit 3 2).node p).valid ∧
        (s1.node p).dev = ((binit 3 2).node p).dev ∧
        (s1.node p).blockno = ((binit 3 2).node p).blockno ∧
        (s1.node p).refcnt = ((binit 3 2).node p).refcnt ∧
        (s1.node p).lock = ((binit 3 2).node p).lock) :=
  bget_cross_steal 3 2 4 (binit 3 2) 1 1 5 (initLists 3) 0 2 (binit_wf 3 2 (by decide)).1
    (by decide) (by decide) (by decide) (by decide) (by decide) (by decide) (by decide)
    (fun k hk => absurd hk (Nat.not_lt_zero k)) (by decide)

/-- C15: `brelse`, `bpin` and `bunpin` change no `next` or `prev` pointer, so
every bucket list stays as it is; `brelse` only decrements `refcnt` and frees
the lock of its buffer; and in a well-formed cache a `bget` that finds its
block, or an unused buffer, in its own bucket changes no `next` or `prev`
pointer either. -/
theorem lists_change_only_in_steal (NBUF NBUCKET fuel : Nat) (s : State) (pid dev blockno : Nat)
    (b : Ptr) :
    (∀ s1, (brelse NBUCKET s pid b).state? = some s1 →
      ∀ p, (s1.node p).next = (s.node p).next ∧ (s1.node p).prev = (s.node p).prev) ∧
    (∀ s1, brelse NBUCKET s pid b = .ret () s1 →
      (∀ p, (s1.node p).valid = (s.node p).valid ∧ (s1.node p).dev = (s.node p).dev ∧
        (s1.node p).blockno = (s.node p).blockno) ∧
      (∀ p, p ≠ b → (s1.node p).refcnt = (s.node p).refcnt ∧
        (s1.node p).lock = (s.node p).lock) ∧
      (s1.node b).refcnt = ((s.node b).refcnt + (UINT - 1)) % UINT ∧
      (s1.node b).lock = none) ∧
    (∀ s1, (bpin NBUCKET s b).state? = some s1 →
      ∀ p, (s1.node p).next = (s.node p).next ∧ (s1.node p).prev = (s.node p).prev) ∧
    (∀ s1, (bunpin NBUCKET s b).state? = some s1 →
      ∀ p, (s1.node p).next = (s.node p).next ∧ (s1.node p).prev = (s.node p).prev) ∧
    (∀ L, Wf NBUF NBUCKET s L → 0 < NBUCKET → 0 ≤ hash_fn NBUCKET (toInt blockno) →
      NBUF < fuel →
      ((∃ x ∈ L (bucketOf NBUCKET blockno), isCached s dev blockno (.buf x) = true) ∨
        (∃ x ∈ L (bucketOf NBUCKET blockno), (s.node (.buf x)).refcnt = 0)) →
      ∃ s1, (bget NBUCKET fuel s pid dev blockno).state? = some s1 ∧
        (∀ p, (s1.node p).next = (s.node p).next ∧ (s1.node p).prev = (s.node p).prev) ∧
        Wf NBUF NBUCKET s1 L) := by
  refine ⟨fun s1 h p => ?_, fun s1 h => ?_, fun s1 h p => ?_, fun s1 h p => ?_,
    fun L hwf h0 hh hfuel hsome => ?_⟩
  · by_cases hhold : holdingsleep s pid b = true
    · by_cases hh : hash_fn NBUCKET (toInt ((releasesleep s b).node b).blockno) < 0
      · simp only [brelse, hhold, Bool.not_true, Bool.false_eq_true, ↓reduceIte, hh,
          Outcome.state?] at h
        cases h
      · simp only [brelse, hhold, Bool.not_true, Bool.false_eq_true, ↓reduceIte, hh,
          Outcome.state?, Option.some.injEq] at h
        subst h
        simp only [log_node, setRefcnt_next, setRefcnt_prev, releasesleep, setLock_next,
          setLock_prev, and_self]
    · have hf : holdingsleep s pid b = false := by simpa using hhold
      simp only [brelse, hf, Bool.not_false, ↓reduceIte, Outcome.state?,
        Option.some.injEq] at h
      subst h
      exact ⟨rfl, rfl⟩
  · obtain ⟨_, _, rfl⟩ := brelse_ret NBUCKET s s1 pid b h
    refine ⟨fun p => ?_, fun p hp => ?_, ?_, ?_⟩
    · simp only [log_node, setRefcnt_valid, setRefcnt_dev, setRefcnt_blockno, releasesleep,
        setLock_valid, setLock_dev, setLock_blockno, and_self]
    · simp only [log_node, setRefcnt_refcnt, setRefcnt_lock, releasesleep, setLock_refcnt,
        setLock_lock, hp, ↓reduceIte, and_self]
    · simp only [log_node, setRefcnt_refcnt, releasesleep, setLock_refcnt, ↓reduceIte]
    · simp only [log_node, setRefcnt_lock, releasesleep, setLock_lock, ↓reduceIte]
  · by_cases hh : hash_fn NBUCKET (toInt (s.node b).blockno) < 0
    · simp only [bpin, hh, ↓reduceIte, Outcome.state?] at h
      cases h
    · simp only [bpin, hh, ↓reduceIte, Outcome.state?, Option.some.injEq] at h
      subst h
      simp only [log_node, setRefcnt_next, setRefcnt_prev, and_self]
  · by_cases hh : hash_fn NBUCKET (toInt (s.node b).blockno) < 0
    · simp only [bunpin, hh, ↓reduceIte, Outcome.state?] at h
      cases h
    · simp only [bunpin, hh, ↓reduceIte, Outcome.state?, Option.some.injEq] at h
      subst h
      simp only [log_node, setRefcnt_next, setRefcnt_prev, and_self]
  · cases hf : (L (bucketOf NBUCKET blockno)).find? (fun x => isCached s dev blockno (.buf x)) with
    | some j =>
      obtain ⟨e, _⟩ := bget_hit NBUF NBUCKET fuel s pid dev blockno L j hwf h0 hh hfuel hf
      obtain ⟨s2, hcase, hsame, _⟩ := acquiresleep_cases
        (((s.log (.acquire (bucketOf NBUCKET blockno))).setRefcnt (.buf j)
          (((s.node (.buf j)).refcnt + 1) % UINT)).log (.release (bucketOf NBUCKET blockno)))
        pid (.buf j)
      have hp : ∀ p, (s2.node p).next = (s.node p).next ∧ (s2.node p).prev = (s.node p).prev :=
        fun p => by
          rw [(hsame p).1, (hsame p).2.1]
          simp only [log_node, setRefcnt_next, setRefcnt_prev, and_self]
      refine ⟨s2, ?_, hp, hwf.congr_wf (fun p => (hp p).1) (fun p => (hp p).2)⟩
      rw [e]
      rcases hcase with ⟨_, h2, _⟩ | ⟨_, h2, _⟩ <;> rw [h2] <;> rfl
    | none =>
      have hfree : ∃ x ∈ L (bucketOf NBUCKET blockno), (s.node (.buf x)).refcnt = 0 := by
        rcases hsome with ⟨x, hx, hc⟩ | h
        · have := List.find?_eq_none.1 hf x hx
          simp [hc] at this
        · exact h
      obtain ⟨j, s1, _, hcase, _, _, _, _, hp, _, hwf1⟩ := bget_local_recycle NBUF NBUCKET fuel s
        pid dev blockno L hwf h0 hh hfuel
        (fun x hx => by simpa using List.find?_eq_none.1 hf x hx) hfree
      refine ⟨s1, ?_, hp, hwf1⟩
      rcases hcase with ⟨_, h2, _⟩ | ⟨_, h2, _⟩ <;> rw [h2] <;> rfl

/-- Witness of C15: process 1 releases the buffer it holds in `heldState`. -/
theorem lists_change_only_in_steal_witness :
    (∀ p, ((brelse 2 heldState 1 (.buf 2)).stateD.node p).valid = (heldState.node p).valid ∧
        ((brelse 2 heldState 1 (.buf 2)).stateD.node p).dev = (heldState.node p).dev ∧
        ((brelse 2 heldState 1 (.buf 2)).stateD.node p).blockno = (heldState.node p).blockno) ∧
      (∀ p, p ≠ .buf 2 →
        ((brelse 2 heldState 1 (.buf 2)).stateD.node p).refcnt = (heldState.node p).refcnt ∧
        ((brelse 2 heldState 1 (.buf 2)).stateD.node p).lock = (heldState.node p).lock) ∧
      ((brelse 2 heldState 1 (.buf 2)).stateD.node (.buf 2)).refcnt =
        ((heldState.node (.buf 2)).refcnt + (UINT - 1)) % UINT ∧
      ((brelse 2 heldState 1 (.buf 2)).stateD.node (.buf 2)).lock = none :=
  (lists_change_only_in_steal 3 2 4 heldState 1 1 5 (.buf 2)).2.1 _
    (Outcome.eq_ret_of_val? (r := ()) (by decide))

/-- C16: in every state reachable from `binit`, each of the `NBUF` buffers is
once in the list of exactly one bucket, the one its block number hashes to;
every bucket list is circular and doubly linked, with `x->next->prev == x` and
`x->prev->next == x` for the head and every member; and right after `binit`
all buffers are in bucket 0 with `refcnt = 0` and every other bucket is
empty. -/
theorem bucket_invariant (NBUF NBUCKET : Nat) (s : State) (h0 : 0 < NBUCKET)
    (hr : Reachable NBUF NBUCKET s) :
    (∃ L, Wf NBUF NBUCKET s L ∧
      (∀ j, j < NBUF → ∃ i, i < NBUCKET ∧ j ∈ L i ∧ (L i).count j = 1 ∧
        (∀ k, k < NBUCKET → j ∈ L k → k = i) ∧
        0 ≤ hash_fn NBUCKET (toInt (s.node (.buf j)).blockno) ∧
        hash_fn NBUCKET (toInt (s.node (.buf j)).blockno) = (i : Int)) ∧
      (∀ i, i < NBUCKET → ∀ p, (p = .head i ∨ ∃ x ∈ L i, p = .buf x) →
        (s.node (s.node p).next).prev = p ∧ (s.node (s.node p).prev).next = p)) ∧
    (Wf NBUF NBUCKET (binit NBUF NBUCKET) (initLists NBUF) ∧
      (∀ j, j < NBUF → j ∈ initLists NBUF 0 ∧ ((binit NBUF NBUCKET).node (.buf j)).refcnt = 0) ∧
      ∀ i, i ≠ 0 → initLists NBUF i = []) := by
  constructor
  · obtain ⟨L, hinv⟩ := hr.has_inv h0
    refine ⟨L, hinv.wf, fun j hj => ?_, fun i hi p hp => (hinv.wf.1.1 i hi).links p hp⟩
    obtain ⟨i, hi, hji⟩ := hinv.wf.2.2 j hj
    obtain ⟨hnn, hb⟩ := hinv.hashed i hi j hji
    refine ⟨i, hi, hji, List.count_eq_one_of_mem (hinv.wf.1.2.1 i hi) hji, fun k hk hjk => ?_,
      hnn, ?_⟩
    · by_contra hki
      exact hinv.wf.1.2.2 k i hk hi hki hjk hji
    · rw [← hb, bucketOf, Int.toNat_of_nonneg hnn]
  · obtain ⟨hwf, hdata, _⟩ := binit_wf NBUF NBUCKET h0
    refine ⟨hwf, fun j hj => ⟨?_, ?_⟩, fun i hi => by simp [initLists, hi]⟩
    · simp [initLists, hj]
    · have := (data_eq_iff _ _).1 (hdata (.buf j))
      rw [this.2.2.2.2]
      rfl

/-- Witness of C16: the cache of 3 buffers and 2 buckets in which process 1
holds block `(1, 5)`. -/
theorem bucket_invariant_witness :
    (∃ L, Wf 3 2 heldState L ∧
      (∀ j, j < 3 → ∃ i, i < 2 ∧ j ∈ L i ∧ (L i).count j = 1 ∧
        (∀ k, k < 2 → j ∈ L k → k = i) ∧
        0 ≤ hash_fn 2 (toInt (heldState.node (.buf j)).blockno) ∧
        hash_fn 2 (toInt (heldState.node (.buf j)).blockno) = (i : Int)) ∧
      (∀ i, i < 2 → ∀ p, (p = .head i ∨ ∃ x ∈ L i, p = .buf x) →
        (heldState.node (heldState.node p).next).prev = p ∧
        (heldState.node (heldState.node p).prev).next = p)) ∧
    (Wf 3 2 (binit 3 2) (initLists 3) ∧
      (∀ j, j < 3 → j ∈ initLists 3 0 ∧ ((binit 3 2).node (.buf j)).refcnt = 0) ∧
      ∀ i, i ≠ 0 → initLists 3 i = []) :=
  bucket_invariant 3 2 heldState (by decide) heldState_reachable

/-- C17 fails on the code: the block number `2^32 - 1` is `-1` as the `int`
parameter of `hash_fn`, which returns `-1` with 13 buckets, and `2^31` is
hashed to `-11` where the block number modulo 13 is 11; `-1` is no bucket
index, and `bget` uses it to index `hashtable`. -/
theorem hash_fn_negative_index :
    toInt 4294967295 = -1 ∧ hash_fn 13 (toInt 4294967295) = -1 ∧
    hash_fn 13 (toInt 2147483648) = -11 ∧ (2147483648 : Int) % 13 = 11 ∧
    (bget 13 4 (binit 3 13) 1 1 4294967295).faults = true ∧
    (∀ n, hash_fn 13 (toInt 4294967295) ≠ ((n : Nat) : Int)) :=
  ⟨by decide, by decide, by decide, by decide, by decide, fun n h => by
    have h1 : hash_fn 13 (toInt 4294967295) = -1 := by decide
    rw [h1] at h
    omega⟩

/-- C18 (lock discipline): the events that a call of `bget` adds to the log,
in any state, acquire no bucket lock that is held and release none that is not
held, acquire a bucket lock while another is held only when the held one has
the lower index, call `acquiresleep` only while no bucket lock is held, and
leave no bucket lock held unless the call ends in `panic`; and in a well-formed
cache the call leaves such a log. -/
theorem bget_lock_discipline (NBUCKET fuel : Nat) (s : State) (pid dev blockno : Nat) :
    (∀ s1, (bget NBUCKET fuel s pid dev blockno).state? = some s1 →
      ∃ t held, s1.trace = s.trace ++ t ∧ locksAfter t [] = some held ∧
        ((bget NBUCKET fuel s pid dev blockno).aborts = false → held = [])) ∧
    (∀ NBUF L, Wf NBUF NBUCKET s L → 0 < NBUCKET → 0 ≤ hash_fn NBUCKET (toInt blockno) →
      NBUF < fuel → ∃ s1, (bget NBUCKET fuel s pid dev blockno).state? = some s1) := by
  constructor
  · intro s1 h
    unfold bget at h ⊢
    by_cases hh : hash_fn NBUCKET (toInt blockno) < 0
    · simp only [hh, ↓reduceIte, Outcome.state?] at h
      cases h
    · simp only [hh, ↓reduceIte, log_node] at h ⊢
      cases hs : scan (fun b => (s.node b).next)
          (fun b => (s.node b).dev == dev && (s.node b).blockno == blockno)
          (.head (hash_fn NBUCKET (toInt blockno)).toNat) fuel
          (s.node (.head (hash_fn NBUCKET (toInt blockno)).toNat)).next with
      | none => rw [hs] at h; cases h
      | some r =>
        rw [hs] at h
        cases r with
        | some b =>
          simp only at h ⊢
          obtain ⟨ha, t1, h1, h2⟩ := acquiresleep_discipline s _ s1 pid b
            [.acquire (hash_fn NBUCKET (toInt blockno)).toNat,
              .release (hash_fn NBUCKET (toInt blockno)).toNat]
            (by simp only [State.log, setRefcnt_trace, List.append_assoc, List.singleton_append])
            (by simp [locksAfter]) h
          exact ⟨t1, [], h1, h2, fun _ => rfl⟩
        | none =>
          simp only at h ⊢
          cases hs2 : scan (fun b => (s.node b).prev) (fun b => (s.node b).refcnt == 0)
              (.head (hash_fn NBUCKET (toInt blockno)).toNat) fuel
              (s.node (.head (hash_fn NBUCKET (toInt blockno)).toNat)).prev with
          | none => rw [hs2] at h; cases h
          | some r2 =>
            rw [hs2] at h
            cases r2 with
            | some b =>
              simp only at h ⊢
              obtain ⟨ha, t1, h1, h2⟩ := acquiresleep_discipline s _ s1 pid b
                [.acquire (hash_fn NBUCKET (toInt blockno)).toNat,
                  .release (hash_fn NBUCKET (toInt blockno)).toNat]
                (by simp only [State.log, reinit_trace, List.append_assoc,
                  List.singleton_append])
                (by simp [locksAfter]) h
              exact ⟨t1, [], h1, h2, fun _ => rfl⟩
            | none =>
              simp only at h ⊢
              exact bgetSteal_discipline fuel pid dev blockno _ s _ _ s1
                [.acquire (hash_fn NBUCKET (toInt blockno)).toNat] rfl (by simp [locksAfter]) h
  · intro NBUF L hwf h0 hh hfuel
    rcases bget_select NBUF NBUCKET fuel s pid dev blockno L hwf h0 hh hfuel with
      ⟨_, _, s1, e, _⟩ | ⟨j, s1, L1, e, _⟩
    · exact ⟨s1, by rw [e]; rfl⟩
    · rw [e]
      unfold Bio.acquiresleep
      split
      · exact ⟨_, rfl⟩
      · exact ⟨_, rfl⟩

/-- Witness of C18: `bget(1, 5)` right after `binit`, which goes through the
steal loop. -/
theorem bget_lock_discipline_witness :
    ∃ s1, (bget 2 4 (binit 3 2) 1 1 5).state? = some s1 ∧
      ∃ t held, s1.trace = (binit 3 2).trace ++ t ∧ locksAfter t [] = some held ∧
        ((bget 2 4 (binit 3 2) 1 1 5).aborts = false → held = []) :=
  ((bget_lock_discipline 2 4 (binit 3 2) 1 1 5).2 3 (initLists 3) (binit_wf 3 2 (by decide)).1
    (by decide) (by decide) (by decide)).elim
    (fun s1 h => ⟨s1, h, (bget_lock_discipline 2 4 (binit 3 2) 1 1 5).1 s1 h⟩)

end Bio
